import Mathlib

/-! # apienvelope: request/response envelope codec

Shallow embedding of `apienvelope.go` (package `apienvelope`) and of the library
behaviour it relies on.

* Bytes are natural numbers; a Go `string` or `[]byte` is a `List Nat` (`Str`).
* `bytes.Buffer` writers are modelled by their contents; `Write` appends.
* `encoding/json`, `unicode/utf8` and `github.com/pkg/errors` are not part of the
  repository.  The parts the four functions use are modelled from the behaviour of
  the Go standard library (Go 1.22 conventions: `escapeHTML` on in `Marshal`,
  invalid UTF-8 coerced to U+FFFD, nesting limit 10000, case-insensitive field
  names).  Bit operations on bytes are written with `/`, `%`, `*`, `+`.
* The logging sink (`log.Printf`) and stack traces are not modelled.
-/

namespace ApiEnvelope

/-! ## Bytes and strings -/

/-- Go `string` / `[]byte`: a sequence of bytes. -/
abbrev Str := List Nat

/-- The bytes of an ASCII text. -/
def lit (s : String) : Str := s.toList.map Char.toNat

/-! ## unicode/utf8 -/

/-- The rune `utf8.RuneError` (U+FFFD). -/
def RuneError : Nat := 0xFFFD

/-- The constant `utf8.RuneSelf`: bytes below it are single-byte runes. -/
def RuneSelf : Nat := 0x80

/-- The constant `utf8.UTFMax`. -/
def UTFMax : Nat := 4

/-- Table `first` of unicode/utf8: information about the first byte of a sequence
(`0xF0` ASCII, `0xF1` invalid, otherwise accept-range index * 16 + size). -/
def first (b : Nat) : Nat :=
  if b < 0x80 then 0xF0
  else if b < 0xC2 then 0xF1
  else if b < 0xE0 then 0x02
  else if b = 0xE0 then 0x13
  else if b < 0xED then 0x03
  else if b = 0xED then 0x23
  else if b < 0xF0 then 0x03
  else if b = 0xF0 then 0x34
  else if b < 0xF4 then 0x04
  else if b = 0xF4 then 0x44
  else 0xF1

/-- Table `acceptRanges` of unicode/utf8: allowed range of the second byte. -/
def acceptRanges (i : Nat) : Nat × Nat :=
  match i with
  | 0 => (0x80, 0xBF)
  | 1 => (0xA0, 0xBF)
  | 2 => (0x80, 0x9F)
  | 3 => (0x90, 0xBF)
  | 4 => (0x80, 0x8F)
  | _ => (0, 0)

/-- The function `utf8.DecodeRune`: the first rune of `p` and its width in bytes;
`(RuneError, 1)` for an invalid encoding, `(RuneError, 0)` for empty input. -/
def DecodeRune (p : Str) : Nat × Nat :=
  match p with
  | [] => (RuneError, 0)
  | p0 :: t =>
    let x := first p0
    if 0xF0 ≤ x then (if x = 0xF0 then p0 else RuneError, 1)
    else
      let sz := x % 8
      let accept := acceptRanges (x / 16)
      if p.length < sz then (RuneError, 1)
      else match t with
        | [] => (RuneError, 1)
        | b1 :: t1 =>
          if b1 < accept.1 ∨ accept.2 < b1 then (RuneError, 1)
          else if sz ≤ 2 then ((p0 % 32) * 64 + b1 % 64, 2)
          else match t1 with
            | [] => (RuneError, 1)
            | b2 :: t2 =>
              if b2 < 0x80 ∨ 0xBF < b2 then (RuneError, 1)
              else if sz ≤ 3 then ((p0 % 16) * 4096 + (b1 % 64) * 64 + b2 % 64, 3)
              else match t2 with
                | [] => (RuneError, 1)
                | b3 :: _ =>
                  if b3 < 0x80 ∨ 0xBF < b3 then (RuneError, 1)
                  else ((p0 % 8) * 262144 + (b1 % 64) * 4096 + (b2 % 64) * 64 + b3 % 64, 4)

/-- The function `utf8.EncodeRune` (as `utf8.AppendRune` to an empty slice): the
UTF-8 encoding of a rune; surrogates and out-of-range runes encode as U+FFFD. -/
def EncodeRune (r : Nat) : Str :=
  if r ≤ 0x7F then [r]
  else if r ≤ 0x7FF then [0xC0 + r / 64, 0x80 + r % 64]
  else if 0x10FFFF < r ∨ (0xD800 ≤ r ∧ r ≤ 0xDFFF) then [0xEF, 0xBF, 0xBD]
  else if r ≤ 0xFFFF then [0xE0 + r / 4096, 0x80 + (r / 64) % 64, 0x80 + r % 64]
  else [0xF0 + r / 262144, 0x80 + (r / 4096) % 64, 0x80 + (r / 64) % 64, 0x80 + r % 64]

/-- The function `utf8.Valid`, loop body with explicit fuel: every position decodes
to a rune other than an invalid-encoding error. -/
def validLoop : Nat → Str → Bool
  | 0, p => p.isEmpty
  | _ + 1, [] => true
  | fuel + 1, b :: rest =>
    let rs := DecodeRune (b :: rest)
    if rs.1 = RuneError ∧ rs.2 = 1 then false
    else validLoop fuel ((b :: rest).drop rs.2)

/-- The function `utf8.Valid`. -/
def Valid (p : Str) : Bool := validLoop p.length p

/-- Loop of `toValidUTF8`, with explicit fuel. -/
def toValidUTF8Loop : Nat → Str → Str
  | 0, _ => []
  | _ + 1, [] => []
  | fuel + 1, b :: rest =>
    let rs := DecodeRune (b :: rest)
    if rs.1 = RuneError ∧ rs.2 = 1 then [0xEF, 0xBF, 0xBD] ++ toValidUTF8Loop fuel rest
    else (b :: rest).take rs.2 ++ toValidUTF8Loop fuel ((b :: rest).drop rs.2)

/-- The string coerced to valid UTF-8 in the sense of encoding/json ("replacing
invalid bytes with the Unicode replacement rune"): well-formed sequences are kept
and every other byte is replaced by the encoding of U+FFFD. -/
def toValidUTF8 (s : Str) : Str := toValidUTF8Loop s.length s

/-! ## encoding/json: string encoding -/

/-- Table `htmlSafeSet` of encoding/json: ASCII bytes that need no escaping when
HTML escaping is on. -/
def htmlSafeSet (b : Nat) : Bool :=
  decide (0x20 ≤ b ∧ b < 0x80 ∧ b ≠ 0x22 ∧ b ≠ 0x26 ∧ b ≠ 0x3C ∧ b ≠ 0x3E ∧ b ≠ 0x5C)

/-- The digit string `hex` of encoding/json, indexed by a value below 16. -/
def hex (n : Nat) : Nat := if n < 10 then 0x30 + n else 0x61 + (n - 10)

/-- Escape of one ASCII byte outside `htmlSafeSet`, as in `appendString`. -/
def escapeByte (b : Nat) : Str :=
  if b = 0x5C ∨ b = 0x22 then [0x5C, b]
  else if b = 0x08 then [0x5C, 0x62]
  else if b = 0x0C then [0x5C, 0x66]
  else if b = 0x0A then [0x5C, 0x6E]
  else if b = 0x0D then [0x5C, 0x72]
  else if b = 0x09 then [0x5C, 0x74]
  else [0x5C, 0x75, 0x30, 0x30, hex (b / 16), hex (b % 16)]

/-- Main loop of `appendString` with `escapeHTML = true`, over the unread part of
the source: safe ASCII and valid multi-byte runes are copied, other ASCII bytes
are escaped, an invalid byte becomes the escape of U+FFFD, U+2028 and U+2029 are escaped. -/
def appendStringLoop : Nat → Str → Str
  | 0, _ => []
  | _ + 1, [] => []
  | fuel + 1, b :: rest =>
    if b < RuneSelf then
      (if htmlSafeSet b then [b] else escapeByte b) ++ appendStringLoop fuel rest
    else
      let rs := DecodeRune ((b :: rest).take UTFMax)
      if rs.1 = RuneError ∧ rs.2 = 1 then
        [0x5C, 0x75, 0x66, 0x66, 0x66, 0x64] ++ appendStringLoop fuel rest
      else if rs.1 = 0x2028 ∨ rs.1 = 0x2029 then
        [0x5C, 0x75, 0x32, 0x30, 0x32, hex (rs.1 % 16)]
          ++ appendStringLoop fuel ((b :: rest).drop rs.2)
      else
        (b :: rest).take rs.2 ++ appendStringLoop fuel ((b :: rest).drop rs.2)

/-- The function `appendString(dst, src, true)` of encoding/json: `src` as a JSON
string literal appended to `dst`. -/
def appendString (dst src : Str) : Str :=
  dst ++ [0x22] ++ appendStringLoop src.length src ++ [0x22]

/-! ## encoding/json: string decoding -/

/-- Value of one hexadecimal digit, as in `getu4`. -/
def hexVal (c : Nat) : Option Nat :=
  if 0x30 ≤ c ∧ c ≤ 0x39 then some (c - 0x30)
  else if 0x61 ≤ c ∧ c ≤ 0x66 then some (c - 0x61 + 10)
  else if 0x41 ≤ c ∧ c ≤ 0x46 then some (c - 0x41 + 10)
  else none

/-- The function `getu4` of encoding/json: the rune of a leading `\uXXXX`, or
`none` (Go: -1) when the input does not start with one. -/
def getu4 (s : Str) : Option Nat :=
  match s with
  | 0x5C :: 0x75 :: a :: b :: c :: d :: _ =>
    match hexVal a, hexVal b, hexVal c, hexVal d with
    | some x, some y, some z, some w => some (((x * 16 + y) * 16 + z) * 16 + w)
    | _, _, _, _ => none
  | _ => none

/-- The function `utf16.IsSurrogate`. -/
def IsSurrogate (r : Nat) : Bool := decide (0xD800 ≤ r ∧ r < 0xE000)

/-- The function `utf16.DecodeRune` on a pair of code units, the second possibly
missing (Go: -1); U+FFFD when the pair is not a valid surrogate pair. -/
def utf16DecodeRune (r1 : Nat) (r2 : Option Nat) : Nat :=
  match r2 with
  | none => RuneError
  | some r2 =>
    if 0xD800 ≤ r1 ∧ r1 < 0xDC00 ∧ 0xDC00 ≤ r2 ∧ r2 < 0xE000 then
      (r1 - 0xD800) * 1024 + (r2 - 0xDC00) + 0x10000
    else RuneError

/-- Second loop of `unquoteBytes` over the unread part of the literal's interior:
escapes are decoded, ASCII is copied, everything else is coerced to well-formed
UTF-8; `none` is the `ok = false` result. -/
def unquoteLoop : Nat → Str → Option Str
  | 0, s => if s.isEmpty then some [] else none
  | _ + 1, [] => some []
  | fuel + 1, c :: rest =>
    if c = 0x5C then
      match rest with
      | [] => none
      | e :: rest1 =>
        if e = 0x22 ∨ e = 0x5C ∨ e = 0x2F ∨ e = 0x27 then (unquoteLoop fuel rest1).map (e :: ·)
        else if e = 0x62 then (unquoteLoop fuel rest1).map (0x08 :: ·)
        else if e = 0x66 then (unquoteLoop fuel rest1).map (0x0C :: ·)
        else if e = 0x6E then (unquoteLoop fuel rest1).map (0x0A :: ·)
        else if e = 0x72 then (unquoteLoop fuel rest1).map (0x0D :: ·)
        else if e = 0x74 then (unquoteLoop fuel rest1).map (0x09 :: ·)
        else if e = 0x75 then
          match getu4 (c :: rest) with
          | none => none
          | some rr =>
            let s1 := (c :: rest).drop 6
            if IsSurrogate rr then
              let dec := utf16DecodeRune rr (getu4 s1)
              if dec ≠ RuneError then (unquoteLoop fuel (s1.drop 6)).map (EncodeRune dec ++ ·)
              else (unquoteLoop fuel s1).map (EncodeRune RuneError ++ ·)
            else (unquoteLoop fuel s1).map (EncodeRune rr ++ ·)
        else none
    else if c = 0x22 ∨ c < 0x20 then none
    else if c < RuneSelf then (unquoteLoop fuel rest).map (c :: ·)
    else
      let rs := DecodeRune (c :: rest)
      (unquoteLoop fuel ((c :: rest).drop rs.2)).map (EncodeRune rs.1 ++ ·)

/-- First loop of `unquoteBytes`: length of the longest prefix without a
backslash, quote, control byte or invalid UTF-8. -/
def unquoteScan : Nat → Str → Nat
  | 0, _ => 0
  | _ + 1, [] => 0
  | fuel + 1, c :: rest =>
    if c = 0x5C ∨ c = 0x22 ∨ c < 0x20 then 0
    else if c < RuneSelf then 1 + unquoteScan fuel rest
    else
      let rs := DecodeRune (c :: rest)
      if rs.1 = RuneError ∧ rs.2 = 1 then 0
      else rs.2 + unquoteScan fuel ((c :: rest).drop rs.2)

/-- The function `unquoteBytes` of encoding/json: the string a quoted JSON string
literal stands for, or `none` when the literal is malformed. -/
def unquoteBytes (s : Str) : Option Str :=
  if s.length < 2 ∨ s.head? ≠ some 0x22 ∨ s.getLast? ≠ some 0x22 then none
  else
    let t := (s.drop 1).take (s.length - 2)
    let r := unquoteScan t.length t
    if r = t.length then some t
    else (unquoteLoop t.length (t.drop r)).map (t.take r ++ ·)

/-! ## Error values -/

/-- Go `error` values: those of `github.com/pkg/errors` (`fundamental`,
`withMessage`, `withStack`, without their stack traces) and errors of other
packages, which are identified with their `Error()` text. -/
inductive GoError where
  | foreign (msg : Str)
  | fundamental (msg : Str)
  | withMessage (cause : GoError) (msg : Str)
  | withStack (err : GoError)
  deriving DecidableEq, Repr

namespace GoError

/-- The method `Error()`: `withMessage` renders as `msg + ": " + cause.Error()`. -/
def Error : GoError → Str
  | foreign msg => msg
  | fundamental msg => msg
  | withMessage cause msg => msg ++ lit ": " ++ cause.Error
  | withStack err => err.Error

/-- The function `errors.Cause`: follows `Cause()` while the error has one. -/
def Cause : GoError → GoError
  | foreign msg => foreign msg
  | fundamental msg => fundamental msg
  | withMessage cause _ => cause.Cause
  | withStack err => err.Cause

end GoError

/-- The function `errors.New`. -/
def New (message : Str) : GoError := .fundamental message

/-- The function `errors.Wrap`: `nil` stays `nil`; otherwise the error is given a
message and a stack. -/
def Wrap (err : Option GoError) (message : Str) : Option GoError :=
  match err with
  | none => none
  | some e => some (.withStack (.withMessage e message))

/-- The call `fmt.Sprintf("%v", e)` for an error interface value. -/
def sprintfV (e : Option GoError) : Str :=
  match e with
  | none => lit "<nil>"
  | some e => e.Error

end ApiEnvelope

namespace ApiEnvelope

/-! ## encoding/json: syntax

The scanner of encoding/json is a byte-at-a-time state machine with a stack of
open arrays and objects.  Strings, numbers and the literals `true`, `false`,
`null` are modelled by the same states; the stack is replaced by recursion, with
fuel bounded by the input length. -/

/-- Result of scanning: success, a `SyntaxError` with its message, or exhausted
fuel (which the fuel used by `parseDocument` rules out). -/
inductive Res (α : Type) where
  | ok (a : α)
  | err (msg : Str)
  | fuel
  deriving DecidableEq, Repr

/-- The function `strconv.IsPrint` on runes up to U+00FF. -/
def isPrint (r : Nat) : Bool :=
  decide ((0x20 ≤ r ∧ r ≤ 0x7E) ∨ (0xA1 ≤ r ∧ r ≤ 0xFF ∧ r ≠ 0xAD))

/-- The function `quoteChar` of encoding/json: a byte as a single-quoted
character literal, for error messages. -/
def quoteChar (c : Nat) : Str :=
  if c = 0x27 then [0x27, 0x5C, 0x27, 0x27]
  else if c = 0x22 then [0x27, 0x22, 0x27]
  else if c = 0x5C then [0x27, 0x5C, 0x5C, 0x27]
  else if isPrint c then [0x27] ++ EncodeRune c ++ [0x27]
  else if c = 0x07 then [0x27, 0x5C, 0x61, 0x27]
  else if c = 0x08 then [0x27, 0x5C, 0x62, 0x27]
  else if c = 0x0C then [0x27, 0x5C, 0x66, 0x27]
  else if c = 0x0A then [0x27, 0x5C, 0x6E, 0x27]
  else if c = 0x0D then [0x27, 0x5C, 0x72, 0x27]
  else if c = 0x09 then [0x27, 0x5C, 0x74, 0x27]
  else if c = 0x0B then [0x27, 0x5C, 0x76, 0x27]
  else if c < 0x20 ∨ c = 0x7F then [0x27, 0x5C, 0x78, hex (c / 16), hex (c % 16), 0x27]
  else [0x27, 0x5C, 0x75, hex (c / 4096 % 16), hex (c / 256 % 16), hex (c / 16 % 16),
        hex (c % 16), 0x27]

/-- The method `scanner.error`: message of a `SyntaxError` at byte `c`. -/
def syntaxError (c : Nat) (context : String) : Str :=
  lit "invalid character " ++ quoteChar c ++ lit " " ++ lit context

/-- Message of the `SyntaxError` raised by `scanner.eof`. -/
def eofError : Str := lit "unexpected end of JSON input"

/-- The constant `maxNestingDepth` of encoding/json. -/
def maxNestingDepth : Nat := 10000

/-- The function `isSpace` of encoding/json. -/
def isSpace (c : Nat) : Bool := decide (c = 0x20 ∨ c = 0x09 ∨ c = 0x0D ∨ c = 0x0A)

/-- Bytes `0`..`9`. -/
def isDigit (c : Nat) : Bool := decide (0x30 ≤ c ∧ c ≤ 0x39)

/-- Hexadecimal digits, as tested by `stateInStringEscU`. -/
def isHex (c : Nat) : Bool :=
  decide ((0x30 ≤ c ∧ c ≤ 0x39) ∨ (0x61 ≤ c ∧ c ≤ 0x66) ∨ (0x41 ≤ c ∧ c ≤ 0x46))

/-- Skips the bytes on which the scanner answers `scanSkipSpace`. -/
def skipSpace : Str → Str
  | [] => []
  | c :: s => if isSpace c then skipSpace s else c :: s

/-- Scanner states inside a string literal. -/
inductive StrState where
  | inString
  | inStringEsc
  | inStringEscU
  | inStringEscU1
  | inStringEscU12
  | inStringEscU123
  deriving DecidableEq, Repr

/-- The states `stateInString`, `stateInStringEsc`, `stateInStringEscU`..: scans
a string literal after its opening quote and returns what follows the closing
quote.  At the end of the input `scanner.eof` steps the state once more, on a
space: inside an escape sequence that is the state's own error, as it is inside
a number or a literal cut short. -/
def scanString : StrState → Str → Res Str
  | .inString, [] => .err eofError
  | .inStringEsc, [] => .err (syntaxError 0x20 "in string escape code")
  | .inStringEscU, [] => .err (syntaxError 0x20 "in \\u hexadecimal character escape")
  | .inStringEscU1, [] => .err (syntaxError 0x20 "in \\u hexadecimal character escape")
  | .inStringEscU12, [] => .err (syntaxError 0x20 "in \\u hexadecimal character escape")
  | .inStringEscU123, [] => .err (syntaxError 0x20 "in \\u hexadecimal character escape")
  | .inString, c :: s =>
    if c = 0x22 then .ok s
    else if c = 0x5C then scanString .inStringEsc s
    else if c < 0x20 then .err (syntaxError c "in string literal")
    else scanString .inString s
  | .inStringEsc, c :: s =>
    if c = 0x62 ∨ c = 0x66 ∨ c = 0x6E ∨ c = 0x72 ∨ c = 0x74 ∨ c = 0x5C ∨ c = 0x2F ∨ c = 0x22 then
      scanString .inString s
    else if c = 0x75 then scanString .inStringEscU s
    else .err (syntaxError c "in string escape code")
  | .inStringEscU, c :: s =>
    if isHex c then scanString .inStringEscU1 s
    else .err (syntaxError c "in \\u hexadecimal character escape")
  | .inStringEscU1, c :: s =>
    if isHex c then scanString .inStringEscU12 s
    else .err (syntaxError c "in \\u hexadecimal character escape")
  | .inStringEscU12, c :: s =>
    if isHex c then scanString .inStringEscU123 s
    else .err (syntaxError c "in \\u hexadecimal character escape")
  | .inStringEscU123, c :: s =>
    if isHex c then scanString .inString s
    else .err (syntaxError c "in \\u hexadecimal character escape")

/-- Scanner states inside a number. -/
inductive NumState where
  | neg
  | zero
  | one
  | dot
  | dot0
  | e
  | eSign
  | e0
  deriving DecidableEq, Repr

/-- The states `stateNeg`, `state0`, `state1`, `stateDot`, `stateDot0`, `stateE`,
`stateESign`, `stateE0`: scans a number after its first byte and returns the
input from the first byte that does not continue it. -/
def scanNumber : NumState → Str → Res Str
  | .neg, [] => .err (syntaxError 0x20 "in numeric literal")
  | .dot, [] => .err (syntaxError 0x20 "after decimal point in numeric literal")
  | .e, [] => .err (syntaxError 0x20 "in exponent of numeric literal")
  | .eSign, [] => .err (syntaxError 0x20 "in exponent of numeric literal")
  | .zero, [] => .ok []
  | .one, [] => .ok []
  | .dot0, [] => .ok []
  | .e0, [] => .ok []
  | .neg, c :: s =>
    if c = 0x30 then scanNumber .zero s
    else if 0x31 ≤ c ∧ c ≤ 0x39 then scanNumber .one s
    else .err (syntaxError c "in numeric literal")
  | .one, c :: s =>
    if isDigit c then scanNumber .one s
    else if c = 0x2E then scanNumber .dot s
    else if c = 0x65 ∨ c = 0x45 then scanNumber .e s
    else .ok (c :: s)
  | .zero, c :: s =>
    if c = 0x2E then scanNumber .dot s
    else if c = 0x65 ∨ c = 0x45 then scanNumber .e s
    else .ok (c :: s)
  | .dot, c :: s =>
    if isDigit c then scanNumber .dot0 s
    else .err (syntaxError c "after decimal point in numeric literal")
  | .dot0, c :: s =>
    if isDigit c then scanNumber .dot0 s
    else if c = 0x65 ∨ c = 0x45 then scanNumber .e s
    else .ok (c :: s)
  | .e, c :: s =>
    if c = 0x2B ∨ c = 0x2D then scanNumber .eSign s
    else if isDigit c then scanNumber .e0 s
    else .err (syntaxError c "in exponent of numeric literal")
  | .eSign, c :: s =>
    if isDigit c then scanNumber .e0 s
    else .err (syntaxError c "in exponent of numeric literal")
  | .e0, c :: s =>
    if isDigit c then scanNumber .e0 s
    else .ok (c :: s)

/-- The states `stateT`, `stateTr`, ..: scans the remaining letters of `true`,
`false` or `null`; `name` is the literal's name, for the error message. -/
def scanLiteral (name : String) : Str → Str → Res Str
  | [], s => .ok s
  | x :: _, [] =>
    .err (lit "invalid character " ++ quoteChar 0x20 ++ lit " in literal " ++ lit name
          ++ lit " (expecting " ++ quoteChar x ++ lit ")")
  | x :: expected, c :: s =>
    if c = x then scanLiteral name expected s
    else .err (lit "invalid character " ++ quoteChar c ++ lit " in literal " ++ lit name
                ++ lit " (expecting " ++ quoteChar x ++ lit ")")

/-- One member of an object: the key literal with its quotes and the bytes of the
value. -/
structure Member where
  key : Str
  value : Str
  deriving DecidableEq, Repr

/-- The part of `s` consumed when the scan of `s` left `rest` unread. -/
def consumed (s rest : Str) : Str := s.take (s.length - rest.length)

mutual
/-- Scans one JSON value that starts at the head of the input, with `depth` arrays
and objects open around it, and returns what follows the value. -/
def scanValue : Nat → Nat → Str → Res Str
  | 0, _, _ => .fuel
  | _ + 1, _, [] => .err eofError
  | fuel + 1, depth, c :: s =>
    if c = 0x7B then
      if maxNestingDepth ≤ depth then .err (syntaxError c "exceeded max depth")
      else match skipSpace s with
        | [] => .err eofError
        | c1 :: s1 =>
          if c1 = 0x7D then .ok s1
          else match scanMembers fuel (depth + 1) (c1 :: s1) with
            | .ok r => .ok r.2
            | .err m => .err m
            | .fuel => .fuel
    else if c = 0x5B then
      if maxNestingDepth ≤ depth then .err (syntaxError c "exceeded max depth")
      else match skipSpace s with
        | [] => .err eofError
        | c1 :: s1 =>
          if c1 = 0x5D then .ok s1
          else match scanValue fuel (depth + 1) (c1 :: s1) with
            | .ok r => scanElements fuel (depth + 1) r
            | .err m => .err m
            | .fuel => .fuel
    else if c = 0x22 then scanString .inString s
    else if c = 0x2D then scanNumber .neg s
    else if c = 0x30 then scanNumber .zero s
    else if 0x31 ≤ c ∧ c ≤ 0x39 then scanNumber .one s
    else if c = 0x74 then scanLiteral "true" [0x72, 0x75, 0x65] s
    else if c = 0x66 then scanLiteral "false" [0x61, 0x6C, 0x73, 0x65] s
    else if c = 0x6E then scanLiteral "null" [0x75, 0x6C, 0x6C] s
    else .err (syntaxError c "looking for beginning of value")
  termination_by structural fuel => fuel
/-- Scans the members of an object from the first byte of a key up to the closing
brace; returns the members and what follows the brace. -/
def scanMembers : Nat → Nat → Str → Res (List Member × Str)
  | 0, _, _ => .fuel
  | _ + 1, _, [] => .err eofError
  | fuel + 1, depth, c :: s =>
    if c ≠ 0x22 then .err (syntaxError c "looking for beginning of object key string")
    else match scanString .inString s with
      | .err m => .err m
      | .fuel => .fuel
      | .ok r1 =>
        match skipSpace r1 with
        | [] => .err eofError
        | c2 :: r2 =>
          if c2 ≠ 0x3A then .err (syntaxError c2 "after object key")
          else match scanValue fuel depth (skipSpace r2) with
            | .err m => .err m
            | .fuel => .fuel
            | .ok r3 =>
              let m : Member := ⟨c :: consumed s r1, consumed (skipSpace r2) r3⟩
              match skipSpace r3 with
              | [] => .err eofError
              | c4 :: r4 =>
                if c4 = 0x2C then
                  match scanMembers fuel depth (skipSpace r4) with
                  | .ok r => .ok (m :: r.1, r.2)
                  | .err e => .err e
                  | .fuel => .fuel
                else if c4 = 0x7D then .ok ([m], r4)
                else .err (syntaxError c4 "after object key:value pair")
  termination_by structural fuel => fuel
/-- Scans the rest of an array after one of its elements: the closing bracket, or
a comma, the next element and the rest. -/
def scanElements : Nat → Nat → Str → Res Str
  | 0, _, _ => .fuel
  | fuel + 1, depth, s =>
    match skipSpace s with
    | [] => .err eofError
    | c4 :: r4 =>
      if c4 = 0x2C then
        match scanValue fuel depth (skipSpace r4) with
        | .ok r => scanElements fuel depth r
        | .err m => .err m
        | .fuel => .fuel
      else if c4 = 0x5D then .ok r4
      else .err (syntaxError c4 "after array element")
  termination_by structural fuel => fuel
end

/-- The top-level value of a document, as `decodeState.value` meets it: an object
with its members, an array, or a literal (string, number, `true`, `false`,
`null`) with its bytes. -/
inductive Top where
  | object (members : List Member)
  | array (item : Str)
  | literal (item : Str)
  deriving DecidableEq, Repr

/-- The syntax check of `json.Unmarshal` (`checkValid`) together with the walk of
the decoder over the top-level value: leading space, one value, trailing space.
The fuel, one more than the length of the input, is never exhausted. -/
def parseDocument (data : Str) : Res Top :=
  let s := skipSpace data
  match s with
  | [] => .err eofError
  | c :: s1 =>
    if c = 0x7B then
      match skipSpace s1 with
      | [] => .err eofError
      | c1 :: s2 =>
        if c1 = 0x7D then
          match skipSpace s2 with
          | [] => .ok (.object [])
          | c2 :: _ => .err (syntaxError c2 "after top-level value")
        else
          match scanMembers data.length 1 (c1 :: s2) with
          | .err m => .err m
          | .fuel => .fuel
          | .ok r =>
            match skipSpace r.2 with
            | [] => .ok (.object r.1)
            | c2 :: _ => .err (syntaxError c2 "after top-level value")
    else
      match scanValue (data.length + 1) 0 s with
      | .err m => .err m
      | .fuel => .fuel
      | .ok r =>
        match skipSpace r with
        | [] => .ok (if c = 0x5B then .array (consumed s r) else .literal (consumed s r))
        | c2 :: _ => .err (syntaxError c2 "after top-level value")

end ApiEnvelope

namespace ApiEnvelope

/-! ## encoding/json: compaction

What a `MarshalJSON` method returns goes through `appendCompact`, which checks
that it is valid JSON, drops the space between tokens and escapes the characters
that are not safe in HTML. -/

/-- The loop of `appendCompact` (with `escape` set) over the unread part of a valid
text.  Of the scanner state the loop needs whether the byte lies inside a string
(`inStr`) and whether it follows a backslash there (`esc`): space is dropped
outside strings only.  The bytes `<`, `>`, `&` are replaced by `\u00XX` and the
encodings `E2 80 A8`, `E2 80 A9` of U+2028 and U+2029 by `\u2028`, `\u2029`. -/
def compactLoop : Nat → Bool → Bool → Str → Str
  | 0, _, _, _ => []
  | _ + 1, _, _, [] => []
  | fuel + 1, inStr, esc, c :: rest =>
    let inStr1 := if esc then inStr else if c = 0x22 then !inStr else inStr
    let esc1 := inStr && !esc && decide (c = 0x5C)
    if c = 0x3C ∨ c = 0x3E ∨ c = 0x26 then
      [0x5C, 0x75, 0x30, 0x30, hex (c / 16), hex (c % 16)] ++ compactLoop fuel inStr1 esc1 rest
    else
      match rest with
      | b1 :: b2 :: rest2 =>
        if c = 0xE2 ∧ b1 = 0x80 ∧ (b2 = 0xA8 ∨ b2 = 0xA9) then
          [0x5C, 0x75, 0x32, 0x30, 0x32, hex (b2 % 16)] ++ compactLoop fuel inStr false rest2
        else if inStr = false ∧ isSpace c = true then compactLoop fuel inStr1 esc1 rest
        else c :: compactLoop fuel inStr1 esc1 rest
      | _ =>
        if inStr = false ∧ isSpace c = true then compactLoop fuel inStr1 esc1 rest
        else c :: compactLoop fuel inStr1 esc1 rest

/-- The output of `appendCompact` for a valid text. -/
def compactText (src : Str) : Str := compactLoop src.length false false src

/-- The function `appendCompact` on an empty destination: the compacted text, or
the syntax error of the scanner. -/
def compact (src : Str) : Res Str :=
  match parseDocument src with
  | .ok _ => .ok (compactText src)
  | .err msg => .err msg
  | .fuel => .fuel

/-- The method `RawMessage.MarshalJSON`: the message itself, `null` for a nil
message. -/
def RawMessage.MarshalJSON (m : Str) : Str := if m = [] then lit "null" else m

end ApiEnvelope

namespace ApiEnvelope

/-! ## encoding/json: Marshal -/

/-- Go values handed to `json.Marshal`, by the encoder that serves them:

* `nil`: a nil interface value, nil pointer, nil map or nil slice;
* `bool`, `int` (every integer kind), `string`;
* `float`: a finite float, given by the text `strconv.AppendFloat` writes for it
  in the format `floatEncoder` picks; `nonFiniteFloat`: NaN or an infinity, with
  its text (`NaN`, `+Inf`, `-Inf`);
* `slice`: a slice that is not nil, or an array, with its elements;
* `bytes`: a byte slice that is not nil, with its bytes;
* `map`: a map that is not nil, by its entries in any order, each key, one of an
  entry only, as the string `resolveKeyName` gives (the key itself for a string
  key);
* `struct`: a struct, by its encoded fields in declaration order, each with its
  JSON name (no `omitempty`, no `string` option, no embedded struct);
* `marshaler`: a value with a `MarshalJSON` method, by the name of its type and
  what the method returns; a `json.RawMessage` is one of them;
* `chan`, `func`: values of a type that has no encoder, with the name of the type.

A pointer that is not nil and an interface value that is not nil are the value
they hold.  Values of a type with a `MarshalText` method only and `json.Number`
are left out. -/
inductive GoValue where
  | nil
  | bool (b : Bool)
  | int (n : Int)
  | float (text : Str)
  | nonFiniteFloat (text : Str)
  | string (s : Str)
  | slice (elems : List GoValue)
  | bytes (data : Str)
  | map (entries : List (Str × GoValue))
  | struct (fields : List (Str × GoValue))
  | marshaler (typ : Str) (result : Except GoError Str)
  | chan (typ : Str)
  | func (typ : Str)

/-- The decimal digits of `n`, most significant first, as `strconv` writes them;
the fuel, any number above `n`, bounds the number of digits. -/
def formatBits : Nat → Nat → Str
  | 0, _ => []
  | fuel + 1, n => if n < 10 then [0x30 + n] else formatBits fuel (n / 10) ++ [0x30 + n % 10]

/-- The function `strconv.AppendInt(nil, n, 10)`. -/
def formatInt (n : Int) : Str :=
  match n with
  | .ofNat k => formatBits (k + 1) k
  | .negSucc k => 0x2D :: formatBits (k + 2) (k + 1)

/-- The loop of `appendHTMLEscape` over the unread part of the source: `<`, `>`,
`&` are replaced by `\u00XX` and the encodings `E2 80 A8`, `E2 80 A9` of U+2028
and U+2029 by `\u2028`, `\u2029`. -/
def appendHTMLEscapeLoop : Nat → Str → Str
  | 0, _ => []
  | _ + 1, [] => []
  | fuel + 1, c :: rest =>
    if c = 0x3C ∨ c = 0x3E ∨ c = 0x26 then
      [0x5C, 0x75, 0x30, 0x30, hex (c / 16), hex (c % 16)] ++ appendHTMLEscapeLoop fuel rest
    else
      match rest with
      | b1 :: b2 :: rest2 =>
        if c = 0xE2 ∧ b1 = 0x80 ∧ (b2 = 0xA8 ∨ b2 = 0xA9) then
          [0x5C, 0x75, 0x32, 0x30, 0x32, hex (b2 % 16)] ++ appendHTMLEscapeLoop fuel rest2
        else c :: appendHTMLEscapeLoop fuel rest
      | _ => c :: appendHTMLEscapeLoop fuel rest

/-- The function `appendHTMLEscape` of encoding/json. -/
def appendHTMLEscape (dst src : Str) : Str := dst ++ appendHTMLEscapeLoop src.length src

/-- The name of a struct field as the struct encoder writes it before the value
(`nameEscHTML`): the name, escaped for HTML, between quotation marks, and a
colon. -/
def nameEscHTML (name : Str) : Str := [0x22] ++ appendHTMLEscape [] name ++ [0x22, 0x3A]

/-- The alphabet `encodeStd` of encoding/base64: the character for a group of six
bits. -/
def encodeStd (n : Nat) : Nat :=
  if n < 26 then 0x41 + n
  else if n < 52 then 0x61 + (n - 26)
  else if n < 62 then 0x30 + (n - 52)
  else if n = 62 then 0x2B
  else 0x2F

/-- The method `Encode` of `base64.StdEncoding`: four characters for every three
bytes, the last group padded with `=`. -/
def StdEncoding.Encode : Str → Str
  | [] => []
  | [a] =>
    let val := a * 65536
    [encodeStd (val / 262144 % 64), encodeStd (val / 4096 % 64), 0x3D, 0x3D]
  | [a, b] =>
    let val := a * 65536 + b * 256
    [encodeStd (val / 262144 % 64), encodeStd (val / 4096 % 64), encodeStd (val / 64 % 64), 0x3D]
  | a :: b :: c :: rest =>
    let val := a * 65536 + b * 256 + c
    [encodeStd (val / 262144 % 64), encodeStd (val / 4096 % 64), encodeStd (val / 64 % 64),
      encodeStd (val % 64)] ++ StdEncoding.Encode rest

/-- Whether `strings.Compare(a, b) ≤ 0`: the order of byte strings in which the map
encoder sorts the keys. -/
def strLe : Str → Str → Bool
  | [], _ => true
  | _ :: _, [] => false
  | a :: s, b :: t => decide (a < b) || (decide (a = b) && strLe s t)

/-- The entries of a map sorted by key, as `mapEncoder` sorts them. -/
def sortEntries {α : Type} (entries : List (Str × α)) : List (Str × α) :=
  entries.insertionSort (fun a b => strLe a.1 b.1 = true)

/-- The loop of `mapEncoder` over the sorted entries, each with the outcome of
encoding its value: the key as a JSON string, a colon and the value; the first
failure ends the encoding. -/
def writeEntries : List (Str × Except GoError Str) → Except GoError (List Str)
  | [] => .ok []
  | (_, .error e) :: _ => .error e
  | (k, .ok b) :: es =>
    match writeEntries es with
    | .ok bs => .ok ((appendString [] k ++ [0x3A] ++ b) :: bs)
    | .error e => .error e

/-- The error `MarshalerError` for a failed call of `MarshalJSON`. -/
def marshalerError (typ msg : Str) : GoError :=
  .foreign (lit "json: error calling MarshalJSON for type " ++ typ ++ lit ": " ++ msg)

mutual
/-- The value encoders of encoding/json (`boolEncoder`, `intEncoder`,
`floatEncoder`, `stringEncoder`, `sliceEncoder`, `encodeByteSlice`, `mapEncoder`,
`structEncoder`, `marshalerEncoder`, `unsupportedTypeEncoder`), with `escapeHTML`
on. -/
def encodeValue : GoValue → Except GoError Str
  | .nil => .ok (lit "null")
  | .bool b => .ok (if b then lit "true" else lit "false")
  | .int n => .ok (formatInt n)
  | .float text => .ok text
  | .nonFiniteFloat text => .error (.foreign (lit "json: unsupported value: " ++ text))
  | .string s => .ok (appendString [] s)
  | .slice elems =>
    match encodeElems elems with
    | .ok items => .ok ([0x5B] ++ List.intercalate [0x2C] items ++ [0x5D])
    | .error e => .error e
  | .bytes data => .ok ([0x22] ++ StdEncoding.Encode data ++ [0x22])
  | .map entries =>
    match writeEntries (sortEntries (encodeEntries entries)) with
    | .ok items => .ok ([0x7B] ++ List.intercalate [0x2C] items ++ [0x7D])
    | .error e => .error e
  | .struct fields =>
    match encodeFields fields with
    | .ok items => .ok ([0x7B] ++ List.intercalate [0x2C] items ++ [0x7D])
    | .error e => .error e
  | .marshaler typ (.error e) => .error (marshalerError typ e.Error)
  | .marshaler typ (.ok m) =>
    match compact m with
    | .ok b => .ok b
    | .err msg => .error (marshalerError typ msg)
    | .fuel => .error (marshalerError typ [])
  | .chan typ => .error (.foreign (lit "json: unsupported type: " ++ typ))
  | .func typ => .error (.foreign (lit "json: unsupported type: " ++ typ))
/-- The encodings of the elements of a slice, in order; the first failure ends
the encoding. -/
def encodeElems : List GoValue → Except GoError (List Str)
  | [] => .ok []
  | v :: vs =>
    match encodeValue v with
    | .error e => .error e
    | .ok b =>
      match encodeElems vs with
      | .ok bs => .ok (b :: bs)
      | .error e => .error e
/-- The encodings of the fields of a struct, each its quoted name, a colon and its
value, in order. -/
def encodeFields : List (Str × GoValue) → Except GoError (List Str)
  | [] => .ok []
  | (name, v) :: fs =>
    match encodeValue v with
    | .error e => .error e
    | .ok b =>
      match encodeFields fs with
      | .ok bs => .ok ((nameEscHTML name ++ b) :: bs)
      | .error e => .error e
/-- The entries of a map, each key with the outcome of encoding its value. -/
def encodeEntries : List (Str × GoValue) → List (Str × Except GoError Str)
  | [] => []
  | (k, v) :: es => (k, encodeValue v) :: encodeEntries es
end

/-- The function `json.Marshal`. -/
def Marshal (v : GoValue) : Except GoError Str := encodeValue v

/-- A `json.RawMessage` as a value handed to `json.Marshal`. -/
def rawMessage (m : Str) : GoValue :=
  .marshaler (lit "json.RawMessage") (.ok (RawMessage.MarshalJSON m))

end ApiEnvelope

namespace ApiEnvelope

/-! ## encoding/json: Unmarshal into `RequestEnvelope` -/

/-- The struct `RequestEnvelope` (apienvelope.go): the application layer method
and the raw JSON body.  `Body` is a `json.RawMessage`; the empty list is the nil
slice. -/
structure RequestEnvelope where
  Method : Str
  Body : Str
  deriving DecidableEq, Repr

/-- The fields of `RequestEnvelope`. -/
inductive Field where
  | Method
  | Body
  deriving DecidableEq, Repr

/-- The function `foldRune` of encoding/json on a rune outside ASCII: the smallest
rune of its case-folding orbit.  Only U+212A (Kelvin sign) and U+017F (long s)
fold into ASCII; every other rune folds to a rune outside ASCII and is kept as it
is, which leaves comparisons with folded ASCII names unchanged. -/
def foldRune (r : Nat) : Nat :=
  if r = 0x212A then 0x4B else if r = 0x17F then 0x53 else r

/-- The function `appendFoldedName` of encoding/json over the unread part of a
name: ASCII letters in upper case, other runes folded. -/
def appendFoldedName : Nat → Str → Str
  | 0, _ => []
  | _ + 1, [] => []
  | fuel + 1, c :: rest =>
    if c < RuneSelf then
      (if 0x61 ≤ c ∧ c ≤ 0x7A then c - 0x20 else c) :: appendFoldedName fuel rest
    else
      let rs := DecodeRune (c :: rest)
      EncodeRune (foldRune rs.1) ++ appendFoldedName fuel ((c :: rest).drop rs.2)

/-- The function `foldName` of encoding/json. -/
def foldName (name : Str) : Str := appendFoldedName name.length name

/-- The field of `RequestEnvelope` an object key selects in `decodeState.object`:
an exact match of the JSON name (`method`, `body`) or else a match of the folded
names, the first field winning. -/
def lookupField (key : Str) : Option Field :=
  if key = lit "method" then some .Method
  else if key = lit "body" then some .Body
  else if foldName key = foldName (lit "method") then some .Method
  else if foldName key = foldName (lit "body") then some .Body
  else none

/-- The part of `decodeState` the decoding of an envelope changes: the target
struct and the first saved error. -/
structure decodeState where
  env : RequestEnvelope
  savedError : Option GoError
  deriving DecidableEq, Repr

/-- The method `decodeState.saveError`: keeps the first error. -/
def decodeState.saveError (d : decodeState) (e : GoError) : decodeState :=
  match d.savedError with
  | none => { d with savedError := some e }
  | some _ => d

/-- The `Value` field of an `UnmarshalTypeError` for a JSON value, by its first
byte. -/
def valueKind (item : Str) : String :=
  match item.head? with
  | some 0x7B => "object"
  | some 0x5B => "array"
  | some 0x22 => "string"
  | some 0x74 => "bool"
  | some 0x66 => "bool"
  | _ => "number"

/-- An `UnmarshalTypeError` raised while storing into the field `method`. -/
def fieldTypeError (item : Str) : GoError :=
  .foreign (lit "json: cannot unmarshal " ++ lit (valueKind item)
    ++ lit " into Go struct field RequestEnvelope.method of type string")

/-- An `UnmarshalTypeError` raised while storing into the envelope itself. -/
def topTypeError (item : Str) : GoError :=
  .foreign (lit "json: cannot unmarshal " ++ lit (valueKind item)
    ++ lit " into Go value of type apienvelope.RequestEnvelope")

/-- Decoding of a value into the field `Method` (kind `string`): a string literal
is unquoted and stored, `null` has no effect, every other value saves an
`UnmarshalTypeError`.  The result `none` is the decoder's panic on a literal that
does not unquote. -/
def storeMethod (d : decodeState) (item : Str) : Option decodeState :=
  match item.head? with
  | some 0x22 =>
    match unquoteBytes item with
    | none => none
    | some s => some { d with env := { d.env with Method := s } }
  | some 0x6E => some d
  | _ => some (d.saveError (fieldTypeError item))

/-- Decoding of a value into the field `Body`: `RawMessage.UnmarshalJSON` copies
the bytes of the value, whatever its type. -/
def storeBody (d : decodeState) (item : Str) : decodeState :=
  { d with env := { d.env with Body := item } }

/-- One turn of the loop of `decodeState.object`: the key is unquoted, the field
looked up and the value stored; the value of an unknown key is skipped. -/
def decodeMember (d : decodeState) (m : Member) : Option decodeState :=
  match unquoteBytes m.key with
  | none => none
  | some key =>
    match lookupField key with
    | some .Method => storeMethod d m.value
    | some .Body => some (storeBody d m.value)
    | none => some d

/-- The loop of `decodeState.object` over the members, in input order. -/
def decodeMembers (d : decodeState) : List Member → Option decodeState
  | [] => some d
  | m :: ms =>
    match decodeMember d m with
    | none => none
    | some d1 => decodeMembers d1 ms

/-- The method `decodeState.value` on the top-level value with a
`*RequestEnvelope` as target: an object is decoded member by member, `null` has
no effect, any other value saves an `UnmarshalTypeError`. -/
def decodeTop (d : decodeState) : Top → Option decodeState
  | .object members => decodeMembers d members
  | .array item => some (d.saveError (topTypeError item))
  | .literal item =>
    match item.head? with
    | some 0x6E => some d
    | some 0x22 =>
      match unquoteBytes item with
      | none => none
      | some _ => some (d.saveError (topTypeError item))
    | _ => some (d.saveError (topTypeError item))

/-- The call `json.Unmarshal(data, &env)`: the envelope after the call and the
error returned.  A syntax error leaves the envelope untouched; a type error is
returned after the whole value has been decoded.  The result `none` stands for a
run that does not return (decoder panic or exhausted fuel). -/
def Unmarshal (data : Str) (env : RequestEnvelope) : Option (RequestEnvelope × Option GoError) :=
  match parseDocument data with
  | .err msg => some (env, some (.foreign msg))
  | .fuel => none
  | .ok top =>
    match decodeTop ⟨env, none⟩ top with
    | none => none
    | some d => some (d.env, d.savedError)

/-! ## apienvelope.go -/

/-- An `io.Reader` as `ioutil.ReadAll` sees it: the bytes it yields, and the error
it fails with after them, if any (`none` is a clean end of file). -/
structure Reader where
  data : Str
  err : Option GoError
  deriving DecidableEq, Repr

/-- The function `ioutil.ReadAll`. -/
def ReadAll (r : Reader) : Str × Option GoError := (r.data, r.err)

/-- The function `OpenEnvelope`: reads the full body of the request and decodes
it into a `RequestEnvelope`.  The result is Go's pair `(*RequestEnvelope, error)`,
`none` being `nil`. -/
def OpenEnvelope (r : Reader) : Option (Option RequestEnvelope × Option GoError) :=
  let (buf, err) := ReadAll r
  if err ≠ none then
    some (none, Wrap err (lit "request read failed"))
  else
    match Unmarshal buf ⟨[], []⟩ with
    | none => none
    | some (env, err) =>
      if err ≠ none then
        some (none, Wrap err (lit "request unmarshal failed"))
      else
        some (some env, none)

/-- The text written when a response cannot be serialised. -/
def internalSystemError : Str := lit "internal system error"

/-- The function `SendSuccess`: writes an informational JSON response with the
given message to the writer `w`; the result is the writer's new contents. -/
def SendSuccess (w : Str) (msg : Str) : Str :=
  let r := GoValue.struct [(lit "status", .string (lit "OK")), (lit "message", .string msg)]
  match Marshal r with
  | .error _ => w ++ internalSystemError
  | .ok buf => w ++ buf

/-- The function `SendError`: writes an error JSON response whose message is the
`%v` rendering of `e`.  The comment on `RequestEnvelope` speaks of an error code
and a map of parameters in an error response; the response built here holds the
status and the message only. -/
def SendError (w : Str) (e : Option GoError) : Str :=
  let msg := sprintfV e
  let r := GoValue.struct [(lit "status", .string (lit "Error")), (lit "message", .string msg)]
  match Marshal r with
  | .error _ => w ++ internalSystemError
  | .ok buf => w ++ buf

/-- The function `SendResult`: writes a result-carrying JSON response with the
given body.  The comment of the function speaks of a given `json.RawMessage`; the
parameter is an `interface{}`, and any value is serialised. -/
def SendResult (w : Str) (body : GoValue) : Str :=
  let r := GoValue.struct [(lit "status", .string (lit "OK")), (lit "body", body)]
  match Marshal r with
  | .error _ => w ++ internalSystemError
  | .ok buf => w ++ buf

end ApiEnvelope

namespace ApiEnvelope

/-! ## Notions used to state the properties -/

/-- An error wrapped successively with the context messages `contexts`, the first
of them outermost: `Wrap(... Wrap(Wrap(root, Aₙ), Aₙ₋₁) ..., A₁)`. -/
def wrapAll (contexts : List Str) (root : GoError) : Option GoError :=
  contexts.foldr (fun a e => Wrap e a) (some root)

end ApiEnvelope

namespace ApiEnvelope

/-! ## The JSON grammar (RFC 8259), on bytes

A description of well-formed JSON that does not refer to the scanner: strings,
numbers, the three literal names, arrays and objects, with insignificant
whitespace around the structural characters, and the nesting limit of
encoding/json as a parameter of every rule. -/

/-- Insignificant whitespace: space, horizontal tab, line feed, carriage return. -/
def IsWs (ws : Str) : Prop := ∀ c ∈ ws, c = 0x20 ∨ c = 0x09 ∨ c = 0x0A ∨ c = 0x0D

instance (ws : Str) : Decidable (IsWs ws) := by
  unfold IsWs; infer_instance

/-- A run of decimal digits, possibly empty. -/
def IsDigits (ds : Str) : Prop := ∀ c ∈ ds, 0x30 ≤ c ∧ c ≤ 0x39

/-- The rest of a string after its opening quotation mark: unescaped bytes from
0x20 on other than the quotation mark and the backslash, two-byte escapes, and
`\u` with four hexadecimal digits, up to the closing quotation mark. -/
inductive StrBody : Str → Prop where
  | close : StrBody [0x22]
  | plain {c : Nat} {rest : Str} : 0x20 ≤ c → c ≠ 0x22 → c ≠ 0x5C → StrBody rest →
      StrBody (c :: rest)
  | escape {e : Nat} {rest : Str} :
      e = 0x22 ∨ e = 0x5C ∨ e = 0x2F ∨ e = 0x62 ∨ e = 0x66 ∨ e = 0x6E ∨ e = 0x72 ∨ e = 0x74 →
      StrBody rest → StrBody (0x5C :: e :: rest)
  | unicode {a b c d : Nat} {rest : Str} : isHex a = true → isHex b = true → isHex c = true →
      isHex d = true → StrBody rest → StrBody (0x5C :: 0x75 :: a :: b :: c :: d :: rest)

/-- The rule `int`: a zero, or a digit from 1 to 9 followed by digits. -/
def IsInt (s : Str) : Prop :=
  s = [0x30] ∨ ∃ c ds, s = c :: ds ∧ 0x31 ≤ c ∧ c ≤ 0x39 ∧ IsDigits ds

/-- The rule `frac`: a decimal point and at least one digit. -/
def IsFrac (s : Str) : Prop := ∃ ds, s = 0x2E :: ds ∧ ds ≠ [] ∧ IsDigits ds

/-- The rule `exp`: `e` or `E`, an optional sign, and at least one digit. -/
def IsExp (s : Str) : Prop :=
  ∃ e sgn ds, s = e :: (sgn ++ ds) ∧ (e = 0x65 ∨ e = 0x45) ∧
    (sgn = [] ∨ sgn = [0x2B] ∨ sgn = [0x2D]) ∧ ds ≠ [] ∧ IsDigits ds

/-- The rule `number = [ minus ] int [ frac ] [ exp ]`. -/
def IsNumber (s : Str) : Prop :=
  ∃ sign int frac exp, s = sign ++ int ++ frac ++ exp ∧ (sign = [] ∨ sign = [0x2D]) ∧
    IsInt int ∧ (frac = [] ∨ IsFrac frac) ∧ (exp = [] ∨ IsExp exp)

/-- The texts that complete a number from a given state of the scanner, in terms
of the rules `int`, `frac` and `exp`. -/
def NumTail : NumState → Str → Prop
  | .neg, s => ∃ int frac exp, s = int ++ (frac ++ exp) ∧ IsInt int ∧
      (frac = [] ∨ IsFrac frac) ∧ (exp = [] ∨ IsExp exp)
  | .zero, s => ∃ frac exp, s = frac ++ exp ∧ (frac = [] ∨ IsFrac frac) ∧ (exp = [] ∨ IsExp exp)
  | .one, s => ∃ ds frac exp, s = ds ++ (frac ++ exp) ∧ IsDigits ds ∧
      (frac = [] ∨ IsFrac frac) ∧ (exp = [] ∨ IsExp exp)
  | .dot, s => ∃ ds exp, s = ds ++ exp ∧ ds ≠ [] ∧ IsDigits ds ∧ (exp = [] ∨ IsExp exp)
  | .dot0, s => ∃ ds exp, s = ds ++ exp ∧ IsDigits ds ∧ (exp = [] ∨ IsExp exp)
  | .e, s => ∃ sgn ds, s = sgn ++ ds ∧ (sgn = [] ∨ sgn = [0x2B] ∨ sgn = [0x2D]) ∧ ds ≠ [] ∧
      IsDigits ds
  | .eSign, s => s ≠ [] ∧ IsDigits s
  | .e0, s => IsDigits s

/-- The scanner state after the first byte of a number. -/
def numStart (c : Nat) : Option NumState :=
  if c = 0x2D then some .neg
  else if c = 0x30 then some .zero
  else if 0x31 ≤ c ∧ c ≤ 0x39 then some .one
  else none

/-- The three kinds of text the grammar describes: a value, the members of an
object from the first key up to the closing brace, and the rest of an array after
one of its elements up to the closing bracket. -/
inductive Part where
  | value
  | members
  | elements
  deriving DecidableEq, Repr

/-- The JSON grammar: `Gram part depth text members` says that `text` is a
well-formed `part` standing inside `depth` open arrays and objects, none of its
own arrays and objects going deeper than `maxNestingDepth`; for the members of an
object, `members` lists each key literal and the text of its value, in order. -/
inductive Gram : Part → Nat → Str → List Member → Prop where
  | string {d : Nat} {k : Str} : StrBody k → Gram .value d (0x22 :: k) []
  | number {d : Nat} {s : Str} : IsNumber s → Gram .value d s []
  | litTrue {d : Nat} : Gram .value d [0x74, 0x72, 0x75, 0x65] []
  | litFalse {d : Nat} : Gram .value d [0x66, 0x61, 0x6C, 0x73, 0x65] []
  | litNull {d : Nat} : Gram .value d [0x6E, 0x75, 0x6C, 0x6C] []
  | emptyObject {d : Nat} {ws : Str} : d < maxNestingDepth → IsWs ws →
      Gram .value d (0x7B :: (ws ++ [0x7D])) []
  | object {d : Nat} {ws p : Str} {ms : List Member} : d < maxNestingDepth → IsWs ws →
      Gram .members (d + 1) p ms → Gram .value d (0x7B :: (ws ++ p)) []
  | emptyArray {d : Nat} {ws : Str} : d < maxNestingDepth → IsWs ws →
      Gram .value d (0x5B :: (ws ++ [0x5D])) []
  | array {d : Nat} {ws v p : Str} : d < maxNestingDepth → IsWs ws →
      Gram .value (d + 1) v [] → Gram .elements (d + 1) p [] →
      Gram .value d (0x5B :: (ws ++ (v ++ p))) []
  | lastMember {d : Nat} {k ws1 ws2 v ws3 : Str} : StrBody k → IsWs ws1 → IsWs ws2 →
      IsWs ws3 → Gram .value d v [] →
      Gram .members d (0x22 :: (k ++ (ws1 ++ 0x3A :: (ws2 ++ (v ++ (ws3 ++ [0x7D]))))))
        [⟨0x22 :: k, v⟩]
  | consMember {d : Nat} {k ws1 ws2 v ws3 ws4 p : Str} {ms : List Member} : StrBody k →
      IsWs ws1 → IsWs ws2 → IsWs ws3 → IsWs ws4 → Gram .value d v [] → Gram .members d p ms →
      Gram .members d
        (0x22 :: (k ++ (ws1 ++ 0x3A :: (ws2 ++ (v ++ (ws3 ++ 0x2C :: (ws4 ++ p)))))))
        (⟨0x22 :: k, v⟩ :: ms)
  | endElements {d : Nat} {ws : Str} : IsWs ws → Gram .elements d (ws ++ [0x5D]) []
  | consElement {d : Nat} {ws1 ws2 v p : Str} : IsWs ws1 → IsWs ws2 → Gram .value d v [] →
      Gram .elements d p [] → Gram .elements d (ws1 ++ 0x2C :: (ws2 ++ (v ++ p))) []

/-- A JSON text: one value with whitespace around it (RFC 8259, section 2),
within the nesting limit. -/
def JsonText (data : Str) : Prop :=
  ∃ ws1 v ws2, IsWs ws1 ∧ IsWs ws2 ∧ Gram .value 0 v [] ∧ data = ws1 ++ (v ++ ws2)

/-- The top-level value `v` of a JSON text as the decoder sees it: an object with
its members, an array, or another value (string, number, `true`, `false`,
`null`), the last two with their text. -/
inductive TopShape : Str → Top → Prop where
  | emptyObject {ws : Str} : IsWs ws → TopShape (0x7B :: (ws ++ [0x7D])) (.object [])
  | object {ws p : Str} {ms : List Member} : IsWs ws → Gram .members 1 p ms →
      TopShape (0x7B :: (ws ++ p)) (.object ms)
  | array {v : Str} : Gram .value 0 (0x5B :: v) [] → TopShape (0x5B :: v) (.array (0x5B :: v))
  | literal {c : Nat} {v : Str} : c ≠ 0x7B → c ≠ 0x5B → Gram .value 0 (c :: v) [] →
      TopShape (c :: v) (.literal (c :: v))

/-- A byte that could continue a number: a digit, the decimal point, `e` or `E`. -/
def numCont (c : Nat) : Prop := (0x30 ≤ c ∧ c ≤ 0x39) ∨ c = 0x2E ∨ c = 0x65 ∨ c = 0x45

/-- The text `t` can follow a value without changing where the value ends: it is
empty or starts with a byte that does not continue a number. -/
def Follows (t : Str) : Prop := ∀ c, t.head? = some c → ¬ numCont c

/-- The field of `RequestEnvelope` the value of an object member is decoded into,
if any: the field its key, unquoted, selects. -/
def Member.field (m : Member) : Option Field := (unquoteBytes m.key).bind lookupField

/-- A value the field `Method` cannot hold: neither a string nor `null`, by its
first byte. -/
def badMethodValue (item : Str) : Prop := item.head? ≠ some 0x22 ∧ item.head? ≠ some 0x6E

instance (item : Str) : Decidable (badMethodValue item) := by
  unfold badMethodValue; infer_instance

/-- A top-level value that does not decode into a `RequestEnvelope`: an array, a
string, a number, `true` or `false`, or an object one of whose members is
decoded into `Method` without being a string or `null`. -/
def Top.mismatch : Top → Prop
  | .object members => ∃ m ∈ members, m.field = some .Method ∧ badMethodValue m.value
  | .array _ => True
  | .literal item => item.head? ≠ some 0x6E

instance (top : Top) : Decidable top.mismatch := by
  cases top <;> unfold Top.mismatch <;> infer_instance

/-- A member as the grammar lists it: the key is a string literal, and so is the
value when it starts with a quotation mark. -/
def Member.wf (m : Member) : Prop :=
  (∃ k, m.key = 0x22 :: k ∧ StrBody k) ∧ ∀ k, m.value = 0x22 :: k → StrBody k

end ApiEnvelope

namespace ApiEnvelope

/-! ## encoding/json: marshaling a `RequestEnvelope`

The struct is encoded field by field; the field `Body`, a `json.RawMessage`, is
its own marshaler, and the encoder passes what it returns through
`appendCompact`. -/

/-- A byte that is neither escaped nor the start of an escaped sequence. -/
def kept (c : Nat) : Prop := c ≠ 0x3C ∧ c ≠ 0x3E ∧ c ≠ 0x26 ∧ c ≠ 0xE2

/-- A byte that stands for itself between tokens: it is copied as it is. -/
def copied (c : Nat) : Prop := kept c ∧ c ≠ 0x22 ∧ isSpace c = false

/-- The call `json.Marshal(env)` for a `RequestEnvelope`: the members `method`
and `body` in the order of the fields, the body compacted; a body that is not
valid JSON makes the call fail with a `MarshalerError`. -/
def MarshalEnvelope (env : RequestEnvelope) : Res Str :=
  match compact (RawMessage.MarshalJSON env.Body) with
  | .ok body =>
    .ok (lit "\x7b\"method\":" ++ appendString [] env.Method ++ lit ",\"body\":" ++ body
      ++ lit "\x7d")
  | .err msg => .err (lit "json: error calling MarshalJSON for type json.RawMessage: " ++ msg)
  | .fuel => .fuel

/-! ## The value of a JSON text -/

/-- The escaping `appendCompact` does inside a string, as a relation between the
bytes between the quotation marks before and after it: the bytes `<`, `>`, `&`
become the escapes `\u003c`, `\u003e`, `\u0026`, the encodings `E2 80 A8` and
`E2 80 A9` of U+2028 and U+2029 become `\u2028` and `\u2029`, every other byte
and every escape sequence stays as it is. -/
inductive StrCompacts : Str → Str → Prop where
  | nil : StrCompacts [] []
  | special {c : Nat} {t ct : Str} : c = 0x3C ∨ c = 0x3E ∨ c = 0x26 → StrCompacts t ct →
      StrCompacts (c :: t) (0x5C :: 0x75 :: 0x30 :: 0x30 :: hex (c / 16) :: hex (c % 16) :: ct)
  | line {b2 : Nat} {t ct : Str} : b2 = 0xA8 ∨ b2 = 0xA9 → StrCompacts t ct →
      StrCompacts (0xE2 :: 0x80 :: b2 :: t)
        (0x5C :: 0x75 :: 0x32 :: 0x30 :: 0x32 :: hex (b2 % 16) :: ct)
  | keep {c : Nat} {t ct : Str} : c ≠ 0x3C → c ≠ 0x3E → c ≠ 0x26 → c ≠ 0x5C →
      ¬ (c = 0xE2 ∧ ∃ b2 r, t = 0x80 :: b2 :: r ∧ (b2 = 0xA8 ∨ b2 = 0xA9)) →
      StrCompacts t ct → StrCompacts (c :: t) (c :: ct)
  | escape {e : Nat} {t ct : Str} :
      e = 0x22 ∨ e = 0x5C ∨ e = 0x2F ∨ e = 0x62 ∨ e = 0x66 ∨ e = 0x6E ∨ e = 0x72 ∨ e = 0x74 →
      StrCompacts t ct → StrCompacts (0x5C :: e :: t) (0x5C :: e :: ct)
  | unicode {a b c d : Nat} {t ct : Str} : StrCompacts t ct →
      StrCompacts (0x5C :: 0x75 :: a :: b :: c :: d :: t) (0x5C :: 0x75 :: a :: b :: c :: d :: ct)

/-- A JSON value: what a JSON text stands for once the space between its tokens
is dropped and its string literals are decoded.  A number is kept as its text
and the members of an object in their order, so that two texts with the same
value decode alike into any Go value. -/
inductive JValue where
  | null
  | bool (b : Bool)
  | number (text : Str)
  | string (s : Str)
  | array (items : List JValue)
  | object (members : List (Str × JValue))

/-- The value of a part of a JSON text, along the grammar: `Denotes part p x` says
that the text `p` of kind `part` stands for `x`; the members of an object from
the first key on stand for the object, the rest of an array after an element for
the array of the elements that follow. -/
inductive Denotes : Part → Str → JValue → Prop where
  | string {k s : Str} : StrBody k → unquoteBytes (0x22 :: k) = some s →
      Denotes .value (0x22 :: k) (.string s)
  | number {s : Str} : IsNumber s → Denotes .value s (.number s)
  | litTrue : Denotes .value [0x74, 0x72, 0x75, 0x65] (.bool true)
  | litFalse : Denotes .value [0x66, 0x61, 0x6C, 0x73, 0x65] (.bool false)
  | litNull : Denotes .value [0x6E, 0x75, 0x6C, 0x6C] .null
  | emptyObject {ws : Str} : IsWs ws → Denotes .value (0x7B :: (ws ++ [0x7D])) (.object [])
  | object {ws p : Str} {kvs : List (Str × JValue)} : IsWs ws →
      Denotes .members p (.object kvs) → Denotes .value (0x7B :: (ws ++ p)) (.object kvs)
  | emptyArray {ws : Str} : IsWs ws → Denotes .value (0x5B :: (ws ++ [0x5D])) (.array [])
  | array {ws v p : Str} {x : JValue} {xs : List JValue} : IsWs ws → Denotes .value v x →
      Denotes .elements p (.array xs) →
      Denotes .value (0x5B :: (ws ++ (v ++ p))) (.array (x :: xs))
  | lastMember {k ws1 ws2 v ws3 key : Str} {x : JValue} : StrBody k →
      unquoteBytes (0x22 :: k) = some key → IsWs ws1 → IsWs ws2 → IsWs ws3 →
      Denotes .value v x →
      Denotes .members (0x22 :: (k ++ (ws1 ++ 0x3A :: (ws2 ++ (v ++ (ws3 ++ [0x7D]))))))
        (.object [(key, x)])
  | consMember {k ws1 ws2 v ws3 ws4 p key : Str} {x : JValue} {kvs : List (Str × JValue)} :
      StrBody k → unquoteBytes (0x22 :: k) = some key → IsWs ws1 → IsWs ws2 → IsWs ws3 →
      IsWs ws4 → Denotes .value v x → Denotes .members p (.object kvs) →
      Denotes .members
        (0x22 :: (k ++ (ws1 ++ 0x3A :: (ws2 ++ (v ++ (ws3 ++ 0x2C :: (ws4 ++ p)))))))
        (.object ((key, x) :: kvs))
  | endElements {ws : Str} : IsWs ws → Denotes .elements (ws ++ [0x5D]) (.array [])
  | consElement {ws1 ws2 v p : Str} {x : JValue} {xs : List JValue} : IsWs ws1 → IsWs ws2 →
      Denotes .value v x → Denotes .elements p (.array xs) →
      Denotes .elements (ws1 ++ 0x2C :: (ws2 ++ (v ++ p))) (.array (x :: xs))

end ApiEnvelope

namespace ApiEnvelope

/-! ## The JSON value of a Go value -/

/-- The number a run of decimal digits stands for, after the digits read so far
have given `acc`; `none` if a byte is not a digit. -/
def natValueFrom (acc : Nat) : Str → Option Nat
  | [] => some acc
  | c :: s => if 0x30 ≤ c ∧ c ≤ 0x39 then natValueFrom (acc * 10 + (c - 0x30)) s else none

/-- The number a decimal numeral stands for. -/
def natValue (s : Str) : Option Nat := if s = [] then none else natValueFrom 0 s

/-- The integer a decimal numeral with an optional minus sign stands for. -/
def intValue (t : Str) : Option Int :=
  match t with
  | 0x2D :: ds => (natValue ds).map (fun k => -(k : Int))
  | ds => (natValue ds).map (fun k => (k : Int))

/-- A byte of ASCII that may stand in the JSON name of a struct field: a letter, a
digit or a punctuation mark `isValidTag` lets through, which leaves out the
quotation mark, the apostrophe, the comma, the backslash and the backquote. -/
def isTagByte (c : Nat) : Bool :=
  decide (0x20 ≤ c ∧ c ≤ 0x7E ∧ c ≠ 0x22 ∧ c ≠ 0x27 ∧ c ≠ 0x2C ∧ c ≠ 0x5C ∧ c ≠ 0x60)

/-- A name encoding/json accepts as the JSON name of a struct field (the name in
the tag if `isValidTag` holds for it, or else the name of the Go field): not
empty, valid UTF-8, its ASCII bytes as `isTagByte` says.  Outside ASCII the check
that a rune is a letter or a digit is not made: every name Go accepts is accepted
here. -/
def validName (name : Str) : Bool :=
  !name.isEmpty && Valid name && name.all (fun c => decide (0x80 ≤ c) || isTagByte c)

/-- Whether a text is a JSON number, by the scanner. -/
def isNumberText (t : Str) : Bool :=
  match t with
  | [] => false
  | c :: s =>
    match numStart c with
    | some st => decide (scanNumber st s = .ok [])
    | none => false

/-- The group of six bits a character of the base64 alphabet stands for. -/
def decodeStd (c : Nat) : Option Nat :=
  if 0x41 ≤ c ∧ c ≤ 0x5A then some (c - 0x41)
  else if 0x61 ≤ c ∧ c ≤ 0x7A then some (c - 0x61 + 26)
  else if 0x30 ≤ c ∧ c ≤ 0x39 then some (c - 0x30 + 52)
  else if c = 0x2B then some 62
  else if c = 0x2F then some 63
  else none

/-- The bytes a base64 text with padding stands for (RFC 4648, section 4): every
four characters give three bytes; the last four may end in one `=`, for two
bytes, or in two, for one byte, and the bits left over are then zero. -/
def base64Value : Str → Option Str
  | [] => some []
  | c1 :: c2 :: c3 :: c4 :: rest =>
    match decodeStd c1, decodeStd c2 with
    | some v1, some v2 =>
      if rest = [] ∧ c3 = 0x3D ∧ c4 = 0x3D then
        if v2 % 16 = 0 then some [v1 * 4 + v2 / 16] else none
      else
        match decodeStd c3 with
        | some v3 =>
          if rest = [] ∧ c4 = 0x3D then
            if v3 % 4 = 0 then some [v1 * 4 + v2 / 16, v2 % 16 * 16 + v3 / 4] else none
          else
            match decodeStd c4, base64Value rest with
            | some v4, some out =>
              some ((v1 * 4 + v2 / 16) :: (v2 % 16 * 16 + v3 / 4) :: (v3 % 4 * 64 + v4) :: out)
            | _, _ => none
        | none => none
    | _, _ => none
  | _ => none

mutual
/-- A value Go can hold: the text of every finite float is a number, the bytes of
every byte slice are below 256, the keys of every map are distinct, and the names
of the fields of every struct are names encoding/json accepts. -/
def GoValue.wf : GoValue → Bool
  | .float text => isNumberText text
  | .slice elems => wfElems elems
  | .bytes data => data.all (fun c => decide (c < 256))
  | .map entries => decide ((entries.map Prod.fst).Nodup) && wfEntries entries
  | .struct fields => wfFields fields
  | _ => true
/-- The elements of a slice are values Go can hold. -/
def wfElems : List GoValue → Bool
  | [] => true
  | v :: vs => v.wf && wfElems vs
/-- The values of the entries of a map are values Go can hold. -/
def wfEntries : List (Str × GoValue) → Bool
  | [] => true
  | (_, v) :: es => v.wf && wfEntries es
/-- The fields of a struct have valid names and values Go can hold. -/
def wfFields : List (Str × GoValue) → Bool
  | [] => true
  | (name, v) :: fs => validName name && v.wf && wfFields fs
end

mutual
/-- The JSON value a Go value is serialised as: `Encodes v x` says that `x` is
the value of `v` in JSON.  An integer is a number whose text is its decimal
numeral; a string is itself with every byte that is not part of a well-formed
UTF-8 sequence replaced by U+FFFD; a slice is the array of its elements; a byte
slice is a string that is its bytes in base64; a map
is the object of its entries in the order of their keys; a struct is the object
of its fields in their order; a value with a `MarshalJSON` method is the value
of the text the method returns, with space around it allowed. -/
inductive Encodes : GoValue → JValue → Prop where
  | nil : Encodes .nil .null
  | bool (b : Bool) : Encodes (.bool b) (.bool b)
  | int {n : Int} {t : Str} : IsNumber t → intValue t = some n → Encodes (.int n) (.number t)
  | float (t : Str) : Encodes (.float t) (.number t)
  | string (s : Str) : Encodes (.string s) (.string (toValidUTF8 s))
  | slice {elems : List GoValue} {xs : List JValue} : EncodesElems elems xs →
      Encodes (.slice elems) (.array xs)
  | bytes {data s : Str} : base64Value s = some data → Encodes (.bytes data) (.string s)
  | map {entries sorted : List (Str × GoValue)} {kvs : List (Str × JValue)} :
      sorted.Perm entries → sorted.Pairwise (fun a b => strLe a.1 b.1 = true) →
      EncodesEntries sorted kvs → Encodes (.map entries) (.object kvs)
  | struct {fields : List (Str × GoValue)} {kvs : List (Str × JValue)} :
      EncodesFields fields kvs → Encodes (.struct fields) (.object kvs)
  | marshaler {typ m ws1 v ws2 : Str} {x : JValue} : m = ws1 ++ (v ++ ws2) → IsWs ws1 →
      IsWs ws2 → Denotes .value v x → Encodes (.marshaler typ (.ok m)) x
/-- The JSON values of the elements of a slice. -/
inductive EncodesElems : List GoValue → List JValue → Prop where
  | nil : EncodesElems [] []
  | cons {v : GoValue} {x : JValue} {vs : List GoValue} {xs : List JValue} : Encodes v x →
      EncodesElems vs xs → EncodesElems (v :: vs) (x :: xs)
/-- The members the entries of a map are serialised as: the key, as a string is
serialised, and the value. -/
inductive EncodesEntries : List (Str × GoValue) → List (Str × JValue) → Prop where
  | nil : EncodesEntries [] []
  | cons {k : Str} {v : GoValue} {x : JValue} {es : List (Str × GoValue)}
      {kvs : List (Str × JValue)} : Encodes v x → EncodesEntries es kvs →
      EncodesEntries ((k, v) :: es) ((toValidUTF8 k, x) :: kvs)
/-- The members the fields of a struct are serialised as: the name and the
value. -/
inductive EncodesFields : List (Str × GoValue) → List (Str × JValue) → Prop where
  | nil : EncodesFields [] []
  | cons {name : Str} {v : GoValue} {x : JValue} {fs : List (Str × GoValue)}
      {kvs : List (Str × JValue)} : Encodes v x → EncodesFields fs kvs →
      EncodesFields ((name, v) :: fs) ((name, x) :: kvs)
end

/-- A member as the encoders write it: a string literal for the name `kv.1`, a
colon and a text for the value `kv.2`. -/
def IsMember (item : Str) (kv : Str × JValue) : Prop :=
  ∃ k v, item = 0x22 :: (k ++ 0x3A :: v) ∧ StrBody k ∧ unquoteBytes (0x22 :: k) = some kv.1 ∧
    Denotes .value v kv.2

end ApiEnvelope

namespace ApiEnvelope

/-! ## unicode/utf8 -/

theorem DecodeRune_size_le (p : Str) : (DecodeRune p).2 ≤ p.length := by
  unfold DecodeRune
  split
  · simp
  · rename_i p0 t
    simp only
    split
    · simp
    · split
      · simp
      · split
        · simp
        · rename_i b1 t1
          split
          · simp
          · split
            · simp
            · split
              · simp
              · rename_i b2 t2
                split
                · simp
                · split
                  · simp
                  · split
                    · simp
                    · split <;> simp

theorem DecodeRune_size_pos (p : Str) (h : p ≠ []) : 1 ≤ (DecodeRune p).2 := by
  unfold DecodeRune
  split
  · exact absurd rfl h
  · simp only
    repeat' split
    all_goals simp

theorem first_ascii {b : Nat} (h : b < 0x80) : first b = 0xF0 := by
  unfold first; rw [if_pos h]
theorem first_cont {b : Nat} (h1 : 0x80 ≤ b) (h2 : b < 0xC2) : first b = 0xF1 := by
  unfold first; rw [if_neg (by omega), if_pos h2]
theorem first_two {b : Nat} (h1 : 0xC2 ≤ b) (h2 : b < 0xE0) : first b = 0x02 := by
  unfold first; rw [if_neg (by omega), if_neg (by omega), if_pos h2]
theorem first_E0 : first 0xE0 = 0x13 := by decide
theorem first_three {b : Nat} (h1 : 0xE1 ≤ b) (h2 : b < 0xF0) (h3 : b ≠ 0xED) : first b = 0x03 := by
  unfold first
  rw [if_neg (by omega), if_neg (by omega), if_neg (by omega), if_neg (by omega)]
  by_cases h : b < 0xED
  · rw [if_pos h]
  · rw [if_neg h, if_neg h3, if_pos h2]
theorem first_ED : first 0xED = 0x23 := by decide
theorem first_F0 : first 0xF0 = 0x34 := by decide
theorem first_four {b : Nat} (h1 : 0xF1 ≤ b) (h2 : b < 0xF4) : first b = 0x04 := by
  unfold first
  rw [if_neg (by omega), if_neg (by omega), if_neg (by omega), if_neg (by omega),
    if_neg (by omega), if_neg (by omega), if_neg (by omega), if_neg (by omega), if_pos h2]
theorem first_F4 : first 0xF4 = 0x44 := by decide
theorem first_big {b : Nat} (h1 : 0xF4 < b) : first b = 0xF1 := by
  unfold first
  rw [if_neg (by omega), if_neg (by omega), if_neg (by omega), if_neg (by omega),
    if_neg (by omega), if_neg (by omega), if_neg (by omega), if_neg (by omega), if_neg (by omega),
    if_neg (by omega)]

theorem EncodeRune_one {r : Nat} (h : r ≤ 0x7F) : EncodeRune r = [r] := by
  unfold EncodeRune; rw [if_pos h]
theorem EncodeRune_two {r : Nat} (h1 : 0x80 ≤ r) (h2 : r ≤ 0x7FF) :
    EncodeRune r = [0xC0 + r / 64, 0x80 + r % 64] := by
  unfold EncodeRune; rw [if_neg (by omega), if_pos h2]
theorem EncodeRune_three {r : Nat} (h1 : 0x800 ≤ r) (h2 : r ≤ 0xFFFF)
    (h3 : r < 0xD800 ∨ 0xDFFF < r) :
    EncodeRune r = [0xE0 + r / 4096, 0x80 + (r / 64) % 64, 0x80 + r % 64] := by
  unfold EncodeRune; rw [if_neg (by omega), if_neg (by omega), if_neg (by omega), if_pos h2]
theorem EncodeRune_four {r : Nat} (h1 : 0x10000 ≤ r) (h2 : r ≤ 0x10FFFF) :
    EncodeRune r = [0xF0 + r / 262144, 0x80 + (r / 4096) % 64, 0x80 + (r / 64) % 64,
      0x80 + r % 64] := by
  unfold EncodeRune
  rw [if_neg (by omega), if_neg (by omega), if_neg (by omega), if_neg (by omega)]

theorem encode_two (p0 b1 : Nat) (h1 : 0xC2 ≤ p0) (h2 : p0 < 0xE0) (h3 : 0x80 ≤ b1)
    (h4 : b1 ≤ 0xBF) : EncodeRune ((p0 % 32) * 64 + b1 % 64) = [p0, b1] := by
  rw [EncodeRune_two (by omega) (by omega)]
  congr 1
  · omega
  · congr 1; omega

theorem encode_three (p0 b1 b2 : Nat) (h1 : 0xE0 ≤ p0) (h2 : p0 < 0xF0) (h3 : 0x80 ≤ b1)
    (h4 : b1 ≤ 0xBF) (h5 : 0x80 ≤ b2) (h6 : b2 ≤ 0xBF) (h7 : p0 = 0xE0 → 0xA0 ≤ b1)
    (h8 : p0 = 0xED → b1 ≤ 0x9F) :
    EncodeRune ((p0 % 16) * 4096 + (b1 % 64) * 64 + b2 % 64) = [p0, b1, b2] := by
  rw [EncodeRune_three (by omega) (by omega) (by omega)]
  congr 1
  · omega
  · congr 1
    · omega
    · congr 1; omega

theorem encode_four (p0 b1 b2 b3 : Nat) (h1 : 0xF0 ≤ p0) (h2 : p0 ≤ 0xF4) (h3 : 0x80 ≤ b1)
    (h4 : b1 ≤ 0xBF) (h5 : 0x80 ≤ b2) (h6 : b2 ≤ 0xBF) (h9 : 0x80 ≤ b3) (h10 : b3 ≤ 0xBF)
    (h7 : p0 = 0xF0 → 0x90 ≤ b1) (h8 : p0 = 0xF4 → b1 ≤ 0x8F) :
    EncodeRune ((p0 % 8) * 262144 + (b1 % 64) * 4096 + (b2 % 64) * 64 + b3 % 64)
      = [p0, b1, b2, b3] := by
  rw [EncodeRune_four (by omega) (by omega)]
  congr 1
  · omega
  · congr 1
    · omega
    · congr 1
      · omega
      · congr 1; omega

theorem DecodeRune_ascii {p0 : Nat} (t : Str) (h : p0 < 0x80) : DecodeRune (p0 :: t) = (p0, 1) := by
  simp [DecodeRune, first_ascii h]

theorem DecodeRune_two {p0 b1 : Nat} (t : Str) (h1 : 0xC2 ≤ p0) (h2 : p0 < 0xE0)
    (h3 : 0x80 ≤ b1) (h4 : b1 ≤ 0xBF) :
    DecodeRune (p0 :: b1 :: t) = ((p0 % 32) * 64 + b1 % 64, 2) := by
  simp only [DecodeRune, first_two h1 h2]; norm_num [acceptRanges]
  rw [if_neg (by omega), if_neg (by omega)]

theorem DecodeRune_three {p0 b1 b2 : Nat} (t : Str) (h1 : 0xE0 ≤ p0) (h2 : p0 < 0xF0)
    (h3 : 0x80 ≤ b1) (h4 : b1 ≤ 0xBF) (h5 : 0x80 ≤ b2) (h6 : b2 ≤ 0xBF)
    (h7 : p0 = 0xE0 → 0xA0 ≤ b1) (h8 : p0 = 0xED → b1 ≤ 0x9F) :
    DecodeRune (p0 :: b1 :: b2 :: t) = ((p0 % 16) * 4096 + (b1 % 64) * 64 + b2 % 64, 3) := by
  by_cases e1 : p0 = 0xE0
  · subst e1
    simp only [DecodeRune, first_E0]; norm_num [acceptRanges]
    rw [if_neg (by omega), if_neg (by have := h7 rfl; omega), if_neg (by omega)]
  by_cases e2 : p0 = 0xED
  · subst e2
    simp only [DecodeRune, first_ED]; norm_num [acceptRanges]
    rw [if_neg (by omega), if_neg (by have := h8 rfl; omega), if_neg (by omega)]
  simp only [DecodeRune, first_three (b := p0) (by omega) h2 e2]; norm_num [acceptRanges]
  rw [if_neg (by omega), if_neg (by omega), if_neg (by omega)]

theorem DecodeRune_four {p0 b1 b2 b3 : Nat} (t : Str) (h1 : 0xF0 ≤ p0) (h2 : p0 ≤ 0xF4)
    (h3 : 0x80 ≤ b1) (h4 : b1 ≤ 0xBF) (h5 : 0x80 ≤ b2) (h6 : b2 ≤ 0xBF) (h9 : 0x80 ≤ b3)
    (h10 : b3 ≤ 0xBF) (h7 : p0 = 0xF0 → 0x90 ≤ b1) (h8 : p0 = 0xF4 → b1 ≤ 0x8F) :
    DecodeRune (p0 :: b1 :: b2 :: b3 :: t)
      = ((p0 % 8) * 262144 + (b1 % 64) * 4096 + (b2 % 64) * 64 + b3 % 64, 4) := by
  by_cases e1 : p0 = 0xF0
  · subst e1
    simp only [DecodeRune, first_F0]; norm_num [acceptRanges]
    rw [if_neg (by omega), if_neg (by have := h7 rfl; omega), if_neg (by omega), if_neg (by omega)]
  by_cases e2 : p0 = 0xF4
  · subst e2
    simp only [DecodeRune, first_F4]; norm_num [acceptRanges]
    rw [if_neg (by omega), if_neg (by have := h8 rfl; omega), if_neg (by omega), if_neg (by omega)]
  simp only [DecodeRune, first_four (b := p0) (by omega) (by omega)]; norm_num [acceptRanges]
  rw [if_neg (by omega), if_neg (by omega), if_neg (by omega), if_neg (by omega)]

theorem DecodeRune_cases (p0 : Nat) (t : Str) :
    (p0 < 0x80 ∧ DecodeRune (p0 :: t) = (p0, 1)) ∨
    (0x80 ≤ p0 ∧ DecodeRune (p0 :: t) = (RuneError, 1)) ∨
    (∃ b1 t1, t = b1 :: t1 ∧ 0xC2 ≤ p0 ∧ p0 < 0xE0 ∧ 0x80 ≤ b1 ∧ b1 ≤ 0xBF ∧
      DecodeRune (p0 :: t) = ((p0 % 32) * 64 + b1 % 64, 2)) ∨
    (∃ b1 b2 t2, t = b1 :: b2 :: t2 ∧ 0xE0 ≤ p0 ∧ p0 < 0xF0 ∧ 0x80 ≤ b1 ∧ b1 ≤ 0xBF ∧
      0x80 ≤ b2 ∧ b2 ≤ 0xBF ∧ (p0 = 0xE0 → 0xA0 ≤ b1) ∧ (p0 = 0xED → b1 ≤ 0x9F) ∧
      DecodeRune (p0 :: t) = ((p0 % 16) * 4096 + (b1 % 64) * 64 + b2 % 64, 3)) ∨
    (∃ b1 b2 b3 t3, t = b1 :: b2 :: b3 :: t3 ∧ 0xF0 ≤ p0 ∧ p0 ≤ 0xF4 ∧ 0x80 ≤ b1 ∧ b1 ≤ 0xBF ∧
      0x80 ≤ b2 ∧ b2 ≤ 0xBF ∧ 0x80 ≤ b3 ∧ b3 ≤ 0xBF ∧ (p0 = 0xF0 → 0x90 ≤ b1) ∧
      (p0 = 0xF4 → b1 ≤ 0x8F) ∧
      DecodeRune (p0 :: t)
        = ((p0 % 8) * 262144 + (b1 % 64) * 4096 + (b2 % 64) * 64 + b3 % 64, 4)) := by
  by_cases c1 : p0 < 0x80
  · left; exact ⟨c1, by simp [DecodeRune, first_ascii c1]⟩
  right
  by_cases c2 : p0 < 0xC2
  · left; exact ⟨by omega, by simp [DecodeRune, first_cont (by omega) c2]⟩
  by_cases c9 : 0xF4 < p0
  · left; exact ⟨by omega, by simp [DecodeRune, first_big c9]⟩
  by_cases c3 : p0 < 0xE0
  · -- two bytes
    have hf := first_two (b := p0) (by omega) c3
    cases t with
    | nil => left; exact ⟨by omega, by simp [DecodeRune, hf]⟩
    | cons b1 t1 =>
      by_cases hb : b1 < 0x80 ∨ 0xBF < b1
      · left; refine ⟨by omega, ?_⟩
        simp only [DecodeRune, hf]; norm_num [acceptRanges]
        intro _; omega
      · right; left
        refine ⟨b1, t1, rfl, by omega, c3, by omega, by omega, ?_⟩
        simp only [DecodeRune, hf]; norm_num [acceptRanges]
        rw [if_neg (by omega), if_neg hb]
  by_cases c4 : p0 < 0xF0
  · -- three bytes
    have hf : first p0 % 8 = 3 ∧ (acceptRanges (first p0 / 16) = (0x80, 0xBF) ∧ p0 ≠ 0xE0 ∧ p0 ≠ 0xED
        ∨ acceptRanges (first p0 / 16) = (0xA0, 0xBF) ∧ p0 = 0xE0
        ∨ acceptRanges (first p0 / 16) = (0x80, 0x9F) ∧ p0 = 0xED) ∧ ¬ (0xF0 ≤ first p0) := by
      by_cases e1 : p0 = 0xE0
      · subst e1; simp [first_E0, acceptRanges]
      by_cases e2 : p0 = 0xED
      · subst e2; simp [first_ED, acceptRanges]
      rw [first_three (by omega) c4 e2]; simp [acceptRanges, e1, e2]
    obtain ⟨hsz, hacc, hnf⟩ := hf
    cases t with
    | nil => left; refine ⟨by omega, ?_⟩; simp [DecodeRune, hnf, hsz]
    | cons b1 t1 =>
      by_cases hb : b1 < (acceptRanges (first p0 / 16)).1 ∨ (acceptRanges (first p0 / 16)).2 < b1
      · left; refine ⟨by omega, ?_⟩
        simp only [DecodeRune, if_neg hnf, hsz, if_pos hb]
        split_ifs <;> first | rfl | omega
      cases t1 with
      | nil => left; refine ⟨by omega, ?_⟩; simp [DecodeRune, hnf, hsz]
      | cons b2 t2 =>
        by_cases hb2 : b2 < 0x80 ∨ 0xBF < b2
        · left; refine ⟨by omega, ?_⟩
          simp only [DecodeRune, if_neg hnf, hsz, if_neg hb, if_pos hb2]
          split_ifs <;> first | rfl | omega
        · right; right; left
          refine ⟨b1, b2, t2, rfl, by omega, c4, ?_, ?_, by omega, by omega, ?_, ?_, ?_⟩
          · rcases hacc with ⟨h, _⟩ | ⟨h, _⟩ | ⟨h, _⟩ <;> rw [h] at hb <;> simp at hb <;> omega
          · rcases hacc with ⟨h, _⟩ | ⟨h, _⟩ | ⟨h, _⟩ <;> rw [h] at hb <;> simp at hb <;> omega
          · rcases hacc with ⟨h, _⟩ | ⟨h, _⟩ | ⟨h, _⟩ <;> rw [h] at hb <;> simp at hb <;> omega
          · rcases hacc with ⟨h, _⟩ | ⟨h, _⟩ | ⟨h, _⟩ <;> rw [h] at hb <;> simp at hb <;> omega
          · simp only [DecodeRune, if_neg hnf, hsz, if_neg hb, if_neg hb2]
            simp
  · -- four bytes
    have hf : first p0 % 8 = 4 ∧ (acceptRanges (first p0 / 16) = (0x80, 0xBF) ∧ p0 ≠ 0xF0 ∧ p0 ≠ 0xF4
        ∨ acceptRanges (first p0 / 16) = (0x90, 0xBF) ∧ p0 = 0xF0
        ∨ acceptRanges (first p0 / 16) = (0x80, 0x8F) ∧ p0 = 0xF4) ∧ ¬ (0xF0 ≤ first p0) := by
      by_cases e1 : p0 = 0xF0
      · subst e1; simp [first_F0, acceptRanges]
      by_cases e2 : p0 = 0xF4
      · subst e2; simp [first_F4, acceptRanges]
      rw [first_four (by omega) (by omega)]; simp [acceptRanges, e1, e2]
    obtain ⟨hsz, hacc, hnf⟩ := hf
    cases t with
    | nil => left; refine ⟨by omega, ?_⟩; simp [DecodeRune, hnf, hsz]
    | cons b1 t1 =>
      by_cases hb : b1 < (acceptRanges (first p0 / 16)).1 ∨ (acceptRanges (first p0 / 16)).2 < b1
      · left; refine ⟨by omega, ?_⟩
        simp only [DecodeRune, if_neg hnf, hsz, if_pos hb]
        split_ifs <;> first | rfl | omega
      cases t1 with
      | nil => left; refine ⟨by omega, ?_⟩; simp [DecodeRune, hnf, hsz]
      | cons b2 t2 =>
        by_cases hb2 : b2 < 0x80 ∨ 0xBF < b2
        · left; refine ⟨by omega, ?_⟩
          simp only [DecodeRune, if_neg hnf, hsz, if_neg hb, if_pos hb2]
          split_ifs <;> first | rfl | omega
        cases t2 with
        | nil => left; refine ⟨by omega, ?_⟩; simp [DecodeRune, hnf, hsz]
        | cons b3 t3 =>
          by_cases hb3 : b3 < 0x80 ∨ 0xBF < b3
          · left; refine ⟨by omega, ?_⟩
            simp only [DecodeRune, if_neg hnf, hsz, if_neg hb, if_neg hb2, if_pos hb3]
            split_ifs <;> first | rfl | omega
          · right; right; right
            refine ⟨b1, b2, b3, t3, rfl, by omega, by omega, ?_, ?_, by omega, by omega,
              by omega, by omega, ?_, ?_, ?_⟩
            · rcases hacc with ⟨h, _⟩ | ⟨h, _⟩ | ⟨h, _⟩ <;> rw [h] at hb <;> simp at hb <;> omega
            · rcases hacc with ⟨h, _⟩ | ⟨h, _⟩ | ⟨h, _⟩ <;> rw [h] at hb <;> simp at hb <;> omega
            · rcases hacc with ⟨h, _⟩ | ⟨h, _⟩ | ⟨h, _⟩ <;> rw [h] at hb <;> simp at hb <;> omega
            · rcases hacc with ⟨h, _⟩ | ⟨h, _⟩ | ⟨h, _⟩ <;> rw [h] at hb <;> simp at hb <;> omega
            · simp only [DecodeRune, if_neg hnf, hsz, if_neg hb, if_neg hb2, if_neg hb3]
              simp

theorem DecodeRune_take (p : Str) : DecodeRune (p.take UTFMax) = DecodeRune p := by
  cases p with
  | nil => rfl
  | cons p0 t =>
    have hT : (p0 :: t).take UTFMax = p0 :: t.take 3 := rfl
    rw [hT]
    rcases DecodeRune_cases p0 t with ⟨h, e⟩ | ⟨h, e⟩ | ⟨b1, t1, rfl, h1, h2, h3, h4, e⟩ |
      ⟨b1, b2, t2, rfl, h1, h2, h3, h4, h5, h6, h7, h8, e⟩ |
      ⟨b1, b2, b3, t3, rfl, h1, h2, h3, h4, h5, h6, h9, h10, h7, h8, e⟩
    · rw [e, DecodeRune_ascii _ h]
    · rw [e]
      rcases DecodeRune_cases p0 (t.take 3) with ⟨h', e'⟩ | ⟨h', e'⟩ |
        ⟨b1, t1, ht, h1, h2, h3, h4, e'⟩ |
        ⟨b1, b2, t2, ht, h1, h2, h3, h4, h5, h6, h7, h8, e'⟩ |
        ⟨b1, b2, b3, t3, ht, h1, h2, h3, h4, h5, h6, h9, h10, h7, h8, e'⟩
      · omega
      · exact e'
      · exfalso
        cases t with
        | nil => simp at ht
        | cons c1 u1 =>
          simp at ht
          obtain ⟨rfl, _⟩ := ht
          rw [DecodeRune_two _ h1 h2 h3 h4] at e
          simp at e
      · exfalso
        match t, ht with
        | c1 :: c2 :: u, ht =>
          simp at ht
          obtain ⟨rfl, rfl, _⟩ := ht
          rw [DecodeRune_three _ h1 h2 h3 h4 h5 h6 h7 h8] at e
          simp at e
        | [c1], ht => simp at ht
        | [], ht => simp at ht
      · exfalso
        match t, ht with
        | c1 :: c2 :: c3 :: u, ht =>
          simp at ht
          obtain ⟨rfl, rfl, rfl, _⟩ := ht
          rw [DecodeRune_four _ h1 h2 h3 h4 h5 h6 h9 h10 h7 h8] at e
          simp at e
        | [c1, c2], ht => simp at ht
        | [c1], ht => simp at ht
        | [], ht => simp at ht
    · rw [e]; exact DecodeRune_two _ h1 h2 h3 h4
    · rw [e]; exact DecodeRune_three _ h1 h2 h3 h4 h5 h6 h7 h8
    · rw [e]; exact DecodeRune_four _ h1 h2 h3 h4 h5 h6 h9 h10 h7 h8

end ApiEnvelope

namespace ApiEnvelope

/-! ## encoding/json: strings -/

theorem length_drop_cons_le (b : Nat) (rest : Str) (k : Nat) (hk : 1 ≤ k) :
    ((b :: rest).drop k).length ≤ rest.length := by
  simp only [List.length_drop, List.length_cons]; omega

theorem appendStringLoop_fuel (f g : Nat) (s : Str) (hf : s.length ≤ f) (hg : s.length ≤ g) :
    appendStringLoop f s = appendStringLoop g s := by
  induction f generalizing g s with
  | zero =>
    cases s with
    | nil => cases g <;> simp [appendStringLoop]
    | cons b rest => simp at hf
  | succ f ih =>
    cases s with
    | nil => cases g <;> simp [appendStringLoop]
    | cons b rest =>
      cases g with
      | zero => simp at hg
      | succ g =>
        simp only [List.length_cons, Nat.add_le_add_iff_right] at hf hg
        have key : ∀ X : Str, X.length ≤ rest.length →
            appendStringLoop f X = appendStringLoop g X :=
          fun X hX => ih g X (by omega) (by omega)
        simp only [appendStringLoop]
        rw [key rest (le_refl _), key _ (length_drop_cons_le b rest _
          (DecodeRune_size_pos _ (by simp [UTFMax])))]

theorem toValidUTF8Loop_fuel (f g : Nat) (s : Str) (hf : s.length ≤ f) (hg : s.length ≤ g) :
    toValidUTF8Loop f s = toValidUTF8Loop g s := by
  induction f generalizing g s with
  | zero =>
    cases s with
    | nil => cases g <;> simp [toValidUTF8Loop]
    | cons b rest => simp at hf
  | succ f ih =>
    cases s with
    | nil => cases g <;> simp [toValidUTF8Loop]
    | cons b rest =>
      cases g with
      | zero => simp at hg
      | succ g =>
        simp only [List.length_cons, Nat.add_le_add_iff_right] at hf hg
        have key : ∀ X : Str, X.length ≤ rest.length →
            toValidUTF8Loop f X = toValidUTF8Loop g X :=
          fun X hX => ih g X (by omega) (by omega)
        simp only [toValidUTF8Loop]
        rw [key rest (le_refl _), key _ (length_drop_cons_le b rest _
          (DecodeRune_size_pos _ (by simp)))]

theorem unquoteLoop_fuel (f g : Nat) (s : Str) (hf : s.length ≤ f) (hg : s.length ≤ g) :
    unquoteLoop f s = unquoteLoop g s := by
  induction f generalizing g s with
  | zero =>
    cases s with
    | nil => cases g <;> simp [unquoteLoop]
    | cons b rest => simp at hf
  | succ f ih =>
    cases s with
    | nil => cases g <;> simp [unquoteLoop]
    | cons b rest =>
      cases g with
      | zero => simp at hg
      | succ g =>
        simp only [List.length_cons, Nat.add_le_add_iff_right] at hf hg
        have key : ∀ X : Str, X.length ≤ rest.length →
            unquoteLoop f X = unquoteLoop g X :=
          fun X hX => ih g X (by omega) (by omega)
        simp only [unquoteLoop]
        rw [key rest (le_refl _), key _ (length_drop_cons_le b rest _
          (DecodeRune_size_pos _ (by simp))),
          key ((b :: rest).drop 6) (length_drop_cons_le b rest 6 (by omega)),
          key (((b :: rest).drop 6).drop 6) (by simp only [List.length_drop, List.length_cons]; omega)]
        cases rest with
        | nil => rfl
        | cons e rest1 =>
          simp only
          rw [key rest1 (by simp)]

theorem hexVal_hex (n : Nat) (h : n < 16) : hexVal (hex n) = some n := by
  unfold hex hexVal
  by_cases h10 : n < 10
  · rw [if_pos h10, if_pos (by omega)]; congr 1; omega
  · rw [if_neg h10, if_neg (by omega), if_pos (by omega)]; congr 1; omega

theorem unquoteLoop_safe (c : Nat) (X : Str) (h : htmlSafeSet c = true) :
    unquoteLoop (c :: X).length (c :: X) = (unquoteLoop X.length X).map (c :: ·) := by
  simp only [htmlSafeSet, decide_eq_true_eq] at h
  simp only [List.length_cons, unquoteLoop, RuneSelf]
  rw [if_neg (by omega), if_neg (by omega), if_pos (by omega)]

theorem unquoteLoop_esc_self (g e : Nat) (X : Str) (hg : X.length + 2 ≤ g)
    (he : e = 0x22 ∨ e = 0x5C) :
    unquoteLoop g (0x5C :: e :: X) = (unquoteLoop X.length X).map (e :: ·) := by
  obtain ⟨g, rfl⟩ : ∃ g', g = g' + 1 := ⟨g - 1, by omega⟩
  simp only [unquoteLoop, ↓reduceIte]
  rw [if_pos (by omega), unquoteLoop_fuel g X.length X (by omega) (le_refl _)]

theorem unquoteLoop_esc_ctl (g e out : Nat) (X : Str) (hg : X.length + 2 ≤ g)
    (he : e = 0x62 ∧ out = 0x08 ∨ e = 0x66 ∧ out = 0x0C ∨ e = 0x6E ∧ out = 0x0A ∨
      e = 0x72 ∧ out = 0x0D ∨ e = 0x74 ∧ out = 0x09) :
    unquoteLoop g (0x5C :: e :: X) = (unquoteLoop X.length X).map (out :: ·) := by
  obtain ⟨g, rfl⟩ : ∃ g', g = g' + 1 := ⟨g - 1, by omega⟩
  rw [← unquoteLoop_fuel g X.length X (by omega) (le_refl _)]
  rcases he with ⟨rfl, rfl⟩ | ⟨rfl, rfl⟩ | ⟨rfl, rfl⟩ | ⟨rfl, rfl⟩ | ⟨rfl, rfl⟩ <;>
    simp [unquoteLoop]

theorem unquoteLoop_esc_u (g a b c d r : Nat) (X : Str) (hg : X.length + 6 ≤ g)
    (hr : getu4 (0x5C :: 0x75 :: a :: b :: c :: d :: X) = some r) (hs : IsSurrogate r = false) :
    unquoteLoop g (0x5C :: 0x75 :: a :: b :: c :: d :: X)
      = (unquoteLoop X.length X).map (EncodeRune r ++ ·) := by
  obtain ⟨g, rfl⟩ : ∃ g', g = g' + 1 := ⟨g - 1, by omega⟩
  rw [← unquoteLoop_fuel g X.length X (by omega) (le_refl _)]
  simp [unquoteLoop, hr, hs]

theorem unquoteLoop_escapeByte (b : Nat) (X : Str) (hb : b < 0x80) (h : htmlSafeSet b = false) :
    unquoteLoop (escapeByte b ++ X).length (escapeByte b ++ X)
      = (unquoteLoop X.length X).map (b :: ·) := by
  simp only [htmlSafeSet, decide_eq_false_iff_not] at h
  unfold escapeByte
  split_ifs with h1 h2 h3 h4 h5 h6
  · exact unquoteLoop_esc_self _ b X (by simp) (by omega)
  · subst h2; exact unquoteLoop_esc_ctl _ _ _ X (by simp) (by simp)
  · subst h3; exact unquoteLoop_esc_ctl _ _ _ X (by simp) (by simp)
  · subst h4; exact unquoteLoop_esc_ctl _ _ _ X (by simp) (by simp)
  · subst h5; exact unquoteLoop_esc_ctl _ _ _ X (by simp) (by simp)
  · subst h6; exact unquoteLoop_esc_ctl _ _ _ X (by simp) (by simp)
  · have hr : getu4 (0x5C :: 0x75 :: 0x30 :: 0x30 :: hex (b / 16) :: hex (b % 16) :: X) = some b := by
      simp only [getu4]
      rw [hexVal_hex _ (by omega), hexVal_hex _ (by omega)]
      have h0 : hexVal 0x30 = some 0 := by decide
      rw [h0]
      simp only [Option.some.injEq]
      omega
    have := unquoteLoop_esc_u (escapeByte b ++ X).length _ _ _ _ b X (by simp [escapeByte, *]) hr
      (by simp [IsSurrogate]; omega)
    rw [EncodeRune_one (by omega)] at this
    simpa [escapeByte, *] using this

theorem unquoteLoop_fffd (X : Str) :
    unquoteLoop ([0x5C, 0x75, 0x66, 0x66, 0x66, 0x64] ++ X).length
        ([0x5C, 0x75, 0x66, 0x66, 0x66, 0x64] ++ X)
      = (unquoteLoop X.length X).map ([0xEF, 0xBF, 0xBD] ++ ·) := by
  have hr : getu4 (0x5C :: 0x75 :: 0x66 :: 0x66 :: 0x66 :: 0x64 :: X) = some 0xFFFD := by
    simp [getu4, hexVal]
  have := unquoteLoop_esc_u ([0x5C, 0x75, 0x66, 0x66, 0x66, 0x64] ++ X).length _ _ _ _ _ X
    (by simp) hr (by decide)
  have he : EncodeRune 0xFFFD = [0xEF, 0xBF, 0xBD] := by decide
  rw [he] at this
  exact this

theorem unquoteLoop_202x (r : Nat) (X : Str) (hr : r = 0x2028 ∨ r = 0x2029) :
    unquoteLoop ([0x5C, 0x75, 0x32, 0x30, 0x32, hex (r % 16)] ++ X).length
        ([0x5C, 0x75, 0x32, 0x30, 0x32, hex (r % 16)] ++ X)
      = (unquoteLoop X.length X).map (EncodeRune r ++ ·) := by
  have hg : getu4 (0x5C :: 0x75 :: 0x32 :: 0x30 :: 0x32 :: hex (r % 16) :: X) = some r := by
    rcases hr with rfl | rfl <;> simp [getu4, hexVal, hex]
  exact unquoteLoop_esc_u _ _ _ _ _ _ X (by simp) hg
    (by rcases hr with rfl | rfl <;> decide)

theorem unquoteLoop_multi (g c : Nat) (rest : Str) (h80 : 0x80 ≤ c) :
    unquoteLoop (g + 1) (c :: rest)
      = (unquoteLoop g ((c :: rest).drop (DecodeRune (c :: rest)).2)).map
          (EncodeRune (DecodeRune (c :: rest)).1 ++ ·) := by
  simp only [unquoteLoop, RuneSelf]
  rw [if_neg (by omega), if_neg (by omega), if_neg (by omega)]

/-- A well-formed multi-byte sequence: what `DecodeRune` says about it wherever it
is followed by other bytes. -/
theorem DecodeRune_chunk (p0 : Nat) (t : Str)
    (hv : ¬((DecodeRune (p0 :: t)).1 = RuneError ∧ (DecodeRune (p0 :: t)).2 = 1)) :
    EncodeRune (DecodeRune (p0 :: t)).1 = (p0 :: t).take (DecodeRune (p0 :: t)).2 ∧
    ((p0 :: t).take (DecodeRune (p0 :: t)).2).length = (DecodeRune (p0 :: t)).2 ∧
    ∀ X, DecodeRune ((p0 :: t).take (DecodeRune (p0 :: t)).2 ++ X) = DecodeRune (p0 :: t) := by
  rcases DecodeRune_cases p0 t with ⟨h, e⟩ | ⟨h, e⟩ | ⟨b1, t1, rfl, h1, h2, h3, h4, e⟩ |
    ⟨b1, b2, t2, rfl, h1, h2, h3, h4, h5, h6, h7, h8, e⟩ |
    ⟨b1, b2, b3, t3, rfl, h1, h2, h3, h4, h5, h6, h9, h10, h7, h8, e⟩
  · rw [e]
    refine ⟨by simpa using EncodeRune_one (by omega), by simp, fun X => ?_⟩
    simpa using DecodeRune_ascii X h
  · rw [e] at hv; simp at hv
  · rw [e]
    refine ⟨by simpa using encode_two p0 b1 h1 h2 h3 h4, by simp, fun X => ?_⟩
    simpa using DecodeRune_two X h1 h2 h3 h4
  · rw [e]
    refine ⟨by simpa using encode_three p0 b1 b2 h1 h2 h3 h4 h5 h6 h7 h8, by simp, fun X => ?_⟩
    simpa using DecodeRune_three X h1 h2 h3 h4 h5 h6 h7 h8
  · rw [e]
    refine ⟨by simpa using encode_four p0 b1 b2 b3 h1 h2 h3 h4 h5 h6 h9 h10 h7 h8, by simp,
      fun X => ?_⟩
    simpa using DecodeRune_four X h1 h2 h3 h4 h5 h6 h9 h10 h7 h8

theorem unquoteLoop_copy (p0 : Nat) (t X : Str) (h80 : 0x80 ≤ p0)
    (hv : ¬((DecodeRune (p0 :: t)).1 = RuneError ∧ (DecodeRune (p0 :: t)).2 = 1)) :
    unquoteLoop ((p0 :: t).take (DecodeRune (p0 :: t)).2 ++ X).length
        ((p0 :: t).take (DecodeRune (p0 :: t)).2 ++ X)
      = (unquoteLoop X.length X).map ((p0 :: t).take (DecodeRune (p0 :: t)).2 ++ ·) := by
  obtain ⟨h1, h2, h3⟩ := DecodeRune_chunk p0 t hv
  have hpos := DecodeRune_size_pos (p0 :: t) (by simp)
  obtain ⟨n, hn⟩ : ∃ n, (DecodeRune (p0 :: t)).2 = n + 1 := ⟨_, (Nat.sub_add_cancel hpos).symm⟩
  have hc : (p0 :: t).take (DecodeRune (p0 :: t)).2 ++ X = p0 :: (t.take n ++ X) := by
    rw [hn]; rfl
  have hlen : (t.take n ++ X).length = n + X.length := by
    have := h2; rw [hn] at this; simp at this; simp; omega
  have h3X := h3 X
  have hd : (p0 :: (t.take n ++ X)).drop (DecodeRune (p0 :: t)).2 = X := by
    rw [← hc]
    conv => lhs; arg 1; rw [← h2]
    exact List.drop_left _ _
  rw [hc] at h3X ⊢
  rw [List.length_cons, unquoteLoop_multi _ _ _ h80, h3X, hd,
    unquoteLoop_fuel _ X.length X (by rw [hlen]; omega) (le_refl _), h1]

theorem unquoteLoop_appendStringLoop (s : Str) :
    unquoteLoop (appendStringLoop s.length s).length (appendStringLoop s.length s)
      = some (toValidUTF8Loop s.length s) := by
  suffices H : ∀ n (s : Str), s.length = n →
      unquoteLoop (appendStringLoop s.length s).length (appendStringLoop s.length s)
        = some (toValidUTF8Loop s.length s) from H _ s rfl
  intro n
  induction n using Nat.strong_induction_on with
  | _ n ih =>
    intro s h
    subst h
    cases s with
    | nil => simp [appendStringLoop, toValidUTF8Loop, unquoteLoop]
    | cons b rest =>
      have ihr := ih rest.length (by simp) rest rfl
      simp only [List.length_cons, appendStringLoop, toValidUTF8Loop]
      rw [DecodeRune_take]
      by_cases hb : b < RuneSelf
      · rw [if_pos hb]
        have hb' : b < 0x80 := hb
        rw [DecodeRune_ascii rest hb']
        have hbe : b ≠ RuneError := by simp [RuneError]; omega
        simp only [List.take_succ_cons, List.take_zero, List.drop_succ_cons, List.drop_zero]
        by_cases hs : htmlSafeSet b = true
        · rw [if_pos hs]
          have := unquoteLoop_safe b (appendStringLoop rest.length rest) hs
          simp only [List.singleton_append]
          rw [this, ihr]; simp [hbe]
        · rw [if_neg hs]
          have := unquoteLoop_escapeByte b (appendStringLoop rest.length rest) hb'
            (by simpa using hs)
          rw [this, ihr]; simp [hbe]
      · rw [if_neg hb]
        have hb' : 0x80 ≤ b := by simp [RuneSelf] at hb; omega
        by_cases hv : (DecodeRune (b :: rest)).1 = RuneError ∧ (DecodeRune (b :: rest)).2 = 1
        · rw [if_pos hv, if_pos hv]
          rw [unquoteLoop_fffd, ihr]; rfl
        · rw [if_neg hv, if_neg hv]
          obtain ⟨h1, h2, h3⟩ := DecodeRune_chunk b rest hv
          have hpos := DecodeRune_size_pos (b :: rest) (by simp)
          have hle := length_drop_cons_le b rest _ hpos
          have ihd := ih ((b :: rest).drop (DecodeRune (b :: rest)).2).length
            (by simp only [List.length_cons]; omega) _ rfl
          rw [appendStringLoop_fuel rest.length _ _ hle (le_refl _),
            toValidUTF8Loop_fuel rest.length _ _ hle (le_refl _)]
          by_cases h2x : (DecodeRune (b :: rest)).1 = 0x2028 ∨ (DecodeRune (b :: rest)).1 = 0x2029
          · rw [if_pos h2x, unquoteLoop_202x _ _ h2x, ihd, h1]; rfl
          · rw [if_neg h2x, unquoteLoop_copy b rest _ hb' hv, ihd]; rfl

theorem unquoteScan_fuel (f g : Nat) (s : Str) (hf : s.length ≤ f) (hg : s.length ≤ g) :
    unquoteScan f s = unquoteScan g s := by
  induction f generalizing g s with
  | zero =>
    cases s with
    | nil => cases g <;> simp [unquoteScan]
    | cons b rest => simp at hf
  | succ f ih =>
    cases s with
    | nil => cases g <;> simp [unquoteScan]
    | cons b rest =>
      cases g with
      | zero => simp at hg
      | succ g =>
        simp only [List.length_cons, Nat.add_le_add_iff_right] at hf hg
        have key : ∀ X : Str, X.length ≤ rest.length →
            unquoteScan f X = unquoteScan g X :=
          fun X hX => ih g X (by omega) (by omega)
        simp only [unquoteScan]
        rw [key rest (le_refl _), key _ (length_drop_cons_le b rest _
          (DecodeRune_size_pos _ (by simp)))]

theorem unquoteLoop_plain (g c : Nat) (rest : Str) (h1 : c ≠ 0x5C) (h2 : c ≠ 0x22)
    (h3 : ¬ c < 0x20) (h4 : c < 0x80) :
    unquoteLoop (g + 1) (c :: rest) = (unquoteLoop g rest).map (c :: ·) := by
  simp only [unquoteLoop, RuneSelf]
  rw [if_neg h1, if_neg (by omega), if_pos h4]

theorem unquoteScan_spec (t : Str) :
    unquoteScan t.length t ≤ t.length ∧
    unquoteLoop t.length t
      = (unquoteLoop (t.drop (unquoteScan t.length t)).length (t.drop (unquoteScan t.length t))).map
          (t.take (unquoteScan t.length t) ++ ·) := by
  suffices H : ∀ n (t : Str), t.length = n →
      unquoteScan t.length t ≤ t.length ∧
      unquoteLoop t.length t
        = (unquoteLoop (t.drop (unquoteScan t.length t)).length
            (t.drop (unquoteScan t.length t))).map
            (t.take (unquoteScan t.length t) ++ ·) from H _ t rfl
  intro n
  induction n using Nat.strong_induction_on with
  | _ n ih =>
    intro t h
    subst h
    cases t with
    | nil => simp [unquoteScan, unquoteLoop]
    | cons c rest =>
      simp only [List.length_cons, unquoteScan]
      by_cases h1 : c = 0x5C ∨ c = 0x22 ∨ c < 0x20
      · rw [if_pos h1]; simp
      rw [if_neg h1]
      by_cases h2 : c < RuneSelf
      · rw [if_pos h2]
        obtain ⟨ih1, ih2⟩ := ih rest.length (by simp) rest rfl
        refine ⟨by omega, ?_⟩
        rw [unquoteLoop_plain _ c rest (by omega) (by omega) (by omega) h2, ih2]
        rw [Nat.add_comm 1, List.drop_succ_cons, List.take_succ_cons]
        cases unquoteLoop _ (rest.drop (unquoteScan rest.length rest)) <;> simp
      · rw [if_neg h2]
        by_cases hv : (DecodeRune (c :: rest)).1 = RuneError ∧ (DecodeRune (c :: rest)).2 = 1
        · rw [if_pos hv]; simp
        rw [if_neg hv]
        obtain ⟨e1, e2, e3⟩ := DecodeRune_chunk c rest hv
        have hpos := DecodeRune_size_pos (c :: rest) (by simp)
        have hle := length_drop_cons_le c rest _ hpos
        have hsz := DecodeRune_size_le (c :: rest)
        obtain ⟨ih1, ih2⟩ := ih ((c :: rest).drop (DecodeRune (c :: rest)).2).length
          (by simp only [List.length_cons]; omega) _ rfl
        rw [unquoteScan_fuel rest.length _ _ hle (le_refl _)]
        refine ⟨?_, ?_⟩
        · have : ((c :: rest).drop (DecodeRune (c :: rest)).2).length
              = (c :: rest).length - (DecodeRune (c :: rest)).2 := List.length_drop _ _
          simp only [List.length_cons] at this hsz ⊢
          omega
        · rw [unquoteLoop_multi _ _ _ (by simp [RuneSelf] at h2; omega),
            unquoteLoop_fuel rest.length _ _ hle (le_refl _), ih2, e1]
          rw [← List.drop_drop, List.take_add]
          cases unquoteLoop _ _ <;> simp

theorem unquoteBytes_quoted (t : Str) :
    unquoteBytes ([0x22] ++ t ++ [0x22]) = unquoteLoop t.length t := by
  unfold unquoteBytes
  have hlen : ([0x22] ++ t ++ [0x22]).length = t.length + 2 := by simp
  have ht : (([0x22] ++ t ++ [0x22]).drop 1).take (([0x22] ++ t ++ [0x22]).length - 2) = t := by
    rw [hlen]; simp
  have hl : ([0x22] ++ t ++ [0x22]).getLast? = some 0x22 := by
    rw [List.getLast?_append]; simp
  rw [if_neg (by rw [hl, hlen]; simp)]
  simp only [ht]
  obtain ⟨h1, h2⟩ := unquoteScan_spec t
  by_cases hr : unquoteScan t.length t = t.length
  · rw [if_pos hr, h2, hr]; simp [unquoteLoop]
  · rw [if_neg hr, h2]
    rw [unquoteLoop_fuel t.length _ _ (by simp) (le_refl _)]

theorem unquoteBytes_appendString (m : Str) :
    unquoteBytes (appendString [] m) = some (toValidUTF8 m) := by
  have : appendString [] m = [0x22] ++ appendStringLoop m.length m ++ [0x22] := by
    simp [appendString]
  rw [this, unquoteBytes_quoted, unquoteLoop_appendStringLoop]; rfl

theorem validLoop_fuel (f g : Nat) (s : Str) (hf : s.length ≤ f) (hg : s.length ≤ g) :
    validLoop f s = validLoop g s := by
  induction f generalizing g s with
  | zero =>
    cases s with
    | nil => cases g <;> simp [validLoop]
    | cons b rest => simp at hf
  | succ f ih =>
    cases s with
    | nil => cases g <;> simp [validLoop]
    | cons b rest =>
      cases g with
      | zero => simp at hg
      | succ g =>
        simp only [List.length_cons, Nat.add_le_add_iff_right] at hf hg
        simp only [validLoop]
        rw [ih g _ (le_trans (length_drop_cons_le b rest _
          (DecodeRune_size_pos _ (by simp))) hf) (le_trans (length_drop_cons_le b rest _
          (DecodeRune_size_pos _ (by simp))) hg)]

theorem toValidUTF8_of_Valid (s : Str) (h : Valid s = true) : toValidUTF8 s = s := by
  suffices H : ∀ n (s : Str), s.length = n → validLoop s.length s = true →
      toValidUTF8Loop s.length s = s from H _ s rfl h
  intro n
  induction n using Nat.strong_induction_on with
  | _ n ih =>
    intro s hn hv
    subst hn
    cases s with
    | nil => rfl
    | cons b rest =>
      simp only [List.length_cons, validLoop, toValidUTF8Loop] at hv ⊢
      by_cases hx : (DecodeRune (b :: rest)).1 = RuneError ∧ (DecodeRune (b :: rest)).2 = 1
      · rw [if_pos hx] at hv; simp at hv
      · rw [if_neg hx] at hv
        rw [if_neg hx]
        have hle := length_drop_cons_le b rest _ (DecodeRune_size_pos (b :: rest) (by simp))
        rw [validLoop_fuel rest.length _ _ hle (le_refl _)] at hv
        rw [toValidUTF8Loop_fuel rest.length _ _ hle (le_refl _),
          ih _ (by simp only [List.length_cons]; omega) _ rfl hv]
        exact List.take_append_drop _ _

theorem DecodeRune_chunk_high (p0 : Nat) (t : Str) (h80 : 0x80 ≤ p0)
    (hv : ¬((DecodeRune (p0 :: t)).1 = RuneError ∧ (DecodeRune (p0 :: t)).2 = 1)) :
    ∀ c ∈ (p0 :: t).take (DecodeRune (p0 :: t)).2, 0x80 ≤ c := by
  rcases DecodeRune_cases p0 t with ⟨h, e⟩ | ⟨h, e⟩ | ⟨b1, t1, rfl, h1, h2, h3, h4, e⟩ |
    ⟨b1, b2, t2, rfl, h1, h2, h3, h4, h5, h6, h7, h8, e⟩ |
    ⟨b1, b2, b3, t3, rfl, h1, h2, h3, h4, h5, h6, h9, h10, h7, h8, e⟩
  · omega
  · rw [e] at hv; simp at hv
  · rw [e]; intro c hc; simp at hc; rcases hc with rfl | rfl <;> omega
  · rw [e]; intro c hc; simp at hc; rcases hc with rfl | rfl | rfl <;> omega
  · rw [e]; intro c hc; simp at hc; rcases hc with rfl | rfl | rfl | rfl <;> omega

theorem scanString_high (chunk X : Str) (h : ∀ c ∈ chunk, 0x80 ≤ c) :
    scanString .inString (chunk ++ X) = scanString .inString X := by
  induction chunk with
  | nil => rfl
  | cons c cs ih =>
    have hc := h c (by simp)
    simp only [List.cons_append, scanString]
    rw [if_neg (by omega), if_neg (by omega), if_neg (by omega)]
    exact ih (fun d hd => h d (by simp [hd]))

theorem scanString_safe (c : Nat) (X : Str) (h : htmlSafeSet c = true) :
    scanString .inString (c :: X) = scanString .inString X := by
  simp only [htmlSafeSet, decide_eq_true_eq] at h
  simp only [scanString]
  rw [if_neg (by omega), if_neg (by omega), if_neg (by omega)]

theorem scanString_u4 (a b c d : Nat) (X : Str) (ha : isHex a = true) (hb : isHex b = true)
    (hc : isHex c = true) (hd : isHex d = true) :
    scanString .inString (0x5C :: 0x75 :: a :: b :: c :: d :: X) = scanString .inString X := by
  simp [scanString, ha, hb, hc, hd]

theorem isHex_hex (n : Nat) (h : n < 16) : isHex (hex n) = true := by
  unfold hex isHex
  split_ifs <;> simp <;> omega

theorem scanString_escapeByte (b : Nat) (X : Str) (hb : b < 0x80) :
    scanString .inString (escapeByte b ++ X) = scanString .inString X := by
  unfold escapeByte
  split_ifs with h1 h2 h3 h4 h5 h6
  · rcases h1 with rfl | rfl <;> simp [scanString]
  · simp [scanString]
  · simp [scanString]
  · simp [scanString]
  · simp [scanString]
  · simp [scanString]
  · exact scanString_u4 _ _ _ _ X (by decide) (by decide) (isHex_hex _ (by omega))
      (isHex_hex _ (by omega))

theorem scanString_appendStringLoop (s X : Str) :
    scanString .inString (appendStringLoop s.length s ++ X) = scanString .inString X := by
  suffices H : ∀ n (s : Str), s.length = n →
      scanString .inString (appendStringLoop s.length s ++ X) = scanString .inString X from
    H _ s rfl
  intro n
  induction n using Nat.strong_induction_on with
  | _ n ih =>
    intro s h
    subst h
    cases s with
    | nil => simp [appendStringLoop]
    | cons b rest =>
      have ihr := ih rest.length (by simp) rest rfl
      simp only [List.length_cons, appendStringLoop]
      rw [DecodeRune_take]
      by_cases hb : b < RuneSelf
      · rw [if_pos hb]
        by_cases hs : htmlSafeSet b = true
        · rw [if_pos hs]
          simp only [List.singleton_append, List.cons_append, List.nil_append]
          rw [scanString_safe b _ hs, ihr]
        · rw [if_neg hs, List.append_assoc, scanString_escapeByte b _ hb, ihr]
      · rw [if_neg hb]
        have hb' : 0x80 ≤ b := by simp [RuneSelf] at hb; omega
        by_cases hv : (DecodeRune (b :: rest)).1 = RuneError ∧ (DecodeRune (b :: rest)).2 = 1
        · rw [if_pos hv]
          simp only [List.cons_append, List.nil_append]
          rw [scanString_u4 _ _ _ _ _ (by decide) (by decide) (by decide) (by decide), ihr]
        · rw [if_neg hv]
          have hpos := DecodeRune_size_pos (b :: rest) (by simp)
          have hle := length_drop_cons_le b rest _ hpos
          have ihd := ih ((b :: rest).drop (DecodeRune (b :: rest)).2).length
            (by simp only [List.length_cons]; omega) _ rfl
          rw [appendStringLoop_fuel rest.length _ _ hle (le_refl _)]
          by_cases h2x : (DecodeRune (b :: rest)).1 = 0x2028 ∨ (DecodeRune (b :: rest)).1 = 0x2029
          · rw [if_pos h2x]
            simp only [List.cons_append, List.nil_append]
            rw [scanString_u4 _ _ _ _ _ (by decide) (by decide) (by decide)
              (isHex_hex _ (by omega)), ihd]
          · rw [if_neg h2x, List.append_assoc,
              scanString_high _ _ (DecodeRune_chunk_high b rest hb' hv), ihd]

end ApiEnvelope

namespace ApiEnvelope

/-! ## The scanner and the grammar: whitespace, literals, strings, numbers -/

theorem isSpace_iff (c : Nat) : isSpace c = true ↔ (c = 0x20 ∨ c = 0x09 ∨ c = 0x0A ∨ c = 0x0D) := by
  simp only [isSpace, decide_eq_true_eq]; omega

theorem skipSpace_ws (ws s : Str) (h : IsWs ws) : skipSpace (ws ++ s) = skipSpace s := by
  induction ws with
  | nil => rfl
  | cons c ws ih =>
    have hc := (isSpace_iff c).2 (h c (by simp))
    simp only [List.cons_append, skipSpace, hc, if_true]
    exact ih (fun x hx => h x (by simp [hx]))

theorem skipSpace_cons {c : Nat} (s : Str) (h : isSpace c = false) :
    skipSpace (c :: s) = c :: s := by
  simp [skipSpace, h]

theorem skipSpace_decomp (s : Str) :
    ∃ ws, IsWs ws ∧ s = ws ++ skipSpace s ∧ ∀ c r, skipSpace s = c :: r → isSpace c = false := by
  induction s with
  | nil => exact ⟨[], by simp [IsWs], rfl, by simp [skipSpace]⟩
  | cons c s ih =>
    by_cases hc : isSpace c = true
    · obtain ⟨ws, h1, h2, h3⟩ := ih
      refine ⟨c :: ws, ?_, ?_, ?_⟩
      · intro x hx
        rcases List.mem_cons.1 hx with rfl | hx
        · exact (isSpace_iff _).1 hc
        · exact h1 x hx
      · simp only [skipSpace, hc, if_true, List.cons_append]; rw [← h2]
      · simpa only [skipSpace, hc, if_true] using h3
    · refine ⟨[], by simp [IsWs], ?_, ?_⟩
      · simp [skipSpace, hc]
      · intro x r hx
        simp only [skipSpace, hc] at hx
        simp at hx
        rw [← hx.1]; simpa using hc

theorem consumed_append (p r : Str) : consumed (p ++ r) r = p := by
  simp [consumed]

theorem scanLiteral_ok (name : String) (expected s r : Str) :
    scanLiteral name expected s = .ok r ↔ s = expected ++ r := by
  induction expected generalizing s with
  | nil => simp [scanLiteral]
  | cons x xs ih =>
    cases s with
    | nil => simp [scanLiteral]
    | cons c s =>
      simp only [scanLiteral]
      by_cases hc : c = x
      · subst hc; simp [ih]
      · simp [hc]

theorem StrBody_scan {k : Str} (h : StrBody k) (t : Str) :
    scanString .inString (k ++ t) = .ok t := by
  induction h with
  | close => simp [scanString]
  | plain h1 h2 h3 _ ih =>
    simp only [List.cons_append, scanString]
    rw [if_neg h2, if_neg h3, if_neg (by omega)]; exact ih
  | escape he _ ih =>
    simp only [List.cons_append, scanString, ↓reduceIte]
    rcases he with rfl | rfl | rfl | rfl | rfl | rfl | rfl | rfl <;> simpa using ih
  | unicode ha hb hc hd _ ih =>
    simp only [List.cons_append]
    simpa [scanString, ha, hb, hc, hd] using ih

theorem scan_StrBody (s r : Str) (h : scanString .inString s = .ok r) :
    ∃ k, s = k ++ r ∧ StrBody k := by
  suffices H : ∀ n (s : Str), s.length = n → scanString .inString s = .ok r →
      ∃ k, s = k ++ r ∧ StrBody k from H _ s rfl h
  intro n
  induction n using Nat.strong_induction_on with
  | _ n ih =>
    intro s hn h
    subst hn
    cases s with
    | nil => simp [scanString] at h
    | cons c s =>
      simp only [scanString] at h
      by_cases h1 : c = 0x22
      · rw [if_pos h1] at h
        injection h with h; subst h; subst h1
        exact ⟨[0x22], rfl, .close⟩
      rw [if_neg h1] at h
      by_cases h2 : c = 0x5C
      · rw [if_pos h2] at h
        subst h2
        cases s with
        | nil => simp [scanString] at h
        | cons e s =>
          simp only [scanString] at h
          by_cases he : e = 0x62 ∨ e = 0x66 ∨ e = 0x6E ∨ e = 0x72 ∨ e = 0x74 ∨ e = 0x5C ∨ e = 0x2F
              ∨ e = 0x22
          · rw [if_pos he] at h
            obtain ⟨k, hk, hb⟩ := ih s.length (by simp; omega) s rfl h
            exact ⟨0x5C :: e :: k, by simp [hk], .escape (by omega) hb⟩
          · rw [if_neg he] at h
            by_cases hu : e = 0x75
            · rw [if_pos hu] at h
              subst hu
              match s, h with
              | [], h => simp [scanString] at h
              | [a], h => simp only [scanString] at h; split_ifs at h
              | [a, b], h => simp only [scanString] at h; split_ifs at h
              | [a, b, c], h => simp only [scanString] at h; split_ifs at h
              | a :: b :: c :: d :: s', h =>
                simp only [scanString] at h
                by_cases ha : isHex a = true
                · by_cases hb : isHex b = true
                  · by_cases hc : isHex c = true
                    · by_cases hd : isHex d = true
                      · simp only [ha, hb, hc, hd, if_true] at h
                        obtain ⟨k, hk, hkb⟩ := ih s'.length (by simp; omega) s' rfl h
                        exact ⟨0x5C :: 0x75 :: a :: b :: c :: d :: k, by simp [hk],
                          .unicode ha hb hc hd hkb⟩
                      · simp [ha, hb, hc, hd] at h
                    · simp [ha, hb, hc] at h
                  · simp [ha, hb] at h
                · simp [ha] at h
            · rw [if_neg hu] at h; cases h
      · rw [if_neg h2] at h
        by_cases h3 : c < 0x20
        · rw [if_pos h3] at h; cases h
        · rw [if_neg h3] at h
          obtain ⟨k, hk, hb⟩ := ih s.length (by simp) s rfl h
          exact ⟨c :: k, by simp [hk], .plain (by omega) h1 h2 hb⟩

theorem isDigit_iff (c : Nat) : isDigit c = true ↔ (0x30 ≤ c ∧ c ≤ 0x39) := by
  simp [isDigit]

theorem IsDigits_nil : IsDigits [] := by simp [IsDigits]

theorem IsDigits_cons {c : Nat} {ds : Str} : IsDigits (c :: ds) ↔ (0x30 ≤ c ∧ c ≤ 0x39) ∧ IsDigits ds := by
  simp [IsDigits]

/-! ### Inversion of `NumTail` on a non-empty text -/

theorem NumTail_e0_cons {c : Nat} {p : Str} :
    NumTail .e0 (c :: p) ↔ (0x30 ≤ c ∧ c ≤ 0x39) ∧ NumTail .e0 p := by
  simp [NumTail, IsDigits_cons]

theorem NumTail_eSign_cons {c : Nat} {p : Str} :
    NumTail .eSign (c :: p) ↔ (0x30 ≤ c ∧ c ≤ 0x39) ∧ NumTail .e0 p := by
  simp [NumTail, IsDigits_cons]

theorem NumTail_e_cons {c : Nat} {p : Str} :
    NumTail .e (c :: p) ↔
      ((c = 0x2B ∨ c = 0x2D) ∧ NumTail .eSign p) ∨ ((0x30 ≤ c ∧ c ≤ 0x39) ∧ NumTail .e0 p) := by
  constructor
  · rintro ⟨sgn, ds, h, hs, hne, hd⟩
    rcases hs with rfl | rfl | rfl
    · right
      cases ds with
      | nil => exact absurd rfl hne
      | cons d ds =>
        simp at h; obtain ⟨rfl, rfl⟩ := h
        exact ⟨(IsDigits_cons.1 hd).1, (IsDigits_cons.1 hd).2⟩
    · left; simp at h; obtain ⟨rfl, rfl⟩ := h; exact ⟨Or.inl rfl, hne, hd⟩
    · left; simp at h; obtain ⟨rfl, rfl⟩ := h; exact ⟨Or.inr rfl, hne, hd⟩
  · rintro (⟨hc, hne, hd⟩ | ⟨hc, hd⟩)
    · exact ⟨[c], p, rfl, by rcases hc with rfl | rfl <;> simp, hne, hd⟩
    · exact ⟨[], c :: p, rfl, Or.inl rfl, by simp, IsDigits_cons.2 ⟨hc, hd⟩⟩

theorem IsExp_cons {c : Nat} {p : Str} : IsExp (c :: p) ↔ (c = 0x65 ∨ c = 0x45) ∧ NumTail .e p := by
  constructor
  · rintro ⟨e, sgn, ds, h, he, hs, hne, hd⟩
    simp at h; obtain ⟨rfl, rfl⟩ := h
    exact ⟨he, sgn, ds, rfl, hs, hne, hd⟩
  · rintro ⟨he, sgn, ds, rfl, hs, hne, hd⟩
    exact ⟨c, sgn, ds, rfl, he, hs, hne, hd⟩

theorem not_IsExp_nil : ¬ IsExp [] := by
  rintro ⟨e, sgn, ds, h, _⟩; simp at h

theorem NumTail_dot0_cons {c : Nat} {p : Str} :
    NumTail .dot0 (c :: p) ↔
      ((0x30 ≤ c ∧ c ≤ 0x39) ∧ NumTail .dot0 p) ∨ ((c = 0x65 ∨ c = 0x45) ∧ NumTail .e p) := by
  constructor
  · rintro ⟨ds, exp, h, hd, he⟩
    cases ds with
    | cons d ds =>
      simp at h; obtain ⟨rfl, rfl⟩ := h
      exact Or.inl ⟨(IsDigits_cons.1 hd).1, ds, exp, rfl, (IsDigits_cons.1 hd).2, he⟩
    | nil =>
      simp at h; subst h
      rcases he with he | he
      · cases he
      · exact Or.inr (IsExp_cons.1 he)
  · rintro (⟨hc, ds, exp, rfl, hd, he⟩ | ⟨hc, he⟩)
    · exact ⟨c :: ds, exp, rfl, IsDigits_cons.2 ⟨hc, hd⟩, he⟩
    · exact ⟨[], c :: p, rfl, IsDigits_nil, Or.inr (IsExp_cons.2 ⟨hc, he⟩)⟩

theorem NumTail_dot_cons {c : Nat} {p : Str} :
    NumTail .dot (c :: p) ↔ (0x30 ≤ c ∧ c ≤ 0x39) ∧ NumTail .dot0 p := by
  constructor
  · rintro ⟨ds, exp, h, hne, hd, he⟩
    cases ds with
    | nil => exact absurd rfl hne
    | cons d ds =>
      simp at h; obtain ⟨rfl, rfl⟩ := h
      exact ⟨(IsDigits_cons.1 hd).1, ds, exp, rfl, (IsDigits_cons.1 hd).2, he⟩
  · rintro ⟨hc, ds, exp, rfl, hd, he⟩
    exact ⟨c :: ds, exp, rfl, by simp, IsDigits_cons.2 ⟨hc, hd⟩, he⟩

theorem NumTail_zero_cons {c : Nat} {p : Str} :
    NumTail .zero (c :: p) ↔ (c = 0x2E ∧ NumTail .dot p) ∨ ((c = 0x65 ∨ c = 0x45) ∧ NumTail .e p) := by
  constructor
  · rintro ⟨frac, exp, h, hf, he⟩
    rcases hf with rfl | ⟨ds, rfl, hne, hd⟩
    · simp at h; subst h
      rcases he with he | he
      · cases he
      · exact Or.inr (IsExp_cons.1 he)
    · simp at h; obtain ⟨rfl, rfl⟩ := h
      exact Or.inl ⟨rfl, ds, exp, rfl, hne, hd, he⟩
  · rintro (⟨rfl, ds, exp, rfl, hne, hd, he⟩ | ⟨hc, he⟩)
    · exact ⟨0x2E :: ds, exp, rfl, Or.inr ⟨ds, rfl, hne, hd⟩, he⟩
    · exact ⟨[], c :: p, rfl, Or.inl rfl, Or.inr (IsExp_cons.2 ⟨hc, he⟩)⟩

theorem NumTail_one_cons {c : Nat} {p : Str} :
    NumTail .one (c :: p) ↔
      ((0x30 ≤ c ∧ c ≤ 0x39) ∧ NumTail .one p) ∨ (c = 0x2E ∧ NumTail .dot p) ∨
        ((c = 0x65 ∨ c = 0x45) ∧ NumTail .e p) := by
  constructor
  · rintro ⟨ds, frac, exp, h, hd, hf, he⟩
    cases ds with
    | cons d ds =>
      simp at h; obtain ⟨rfl, rfl⟩ := h
      exact Or.inl ⟨(IsDigits_cons.1 hd).1, ds, frac, exp, rfl, (IsDigits_cons.1 hd).2, hf, he⟩
    | nil =>
      right
      exact NumTail_zero_cons.1 ⟨frac, exp, by simpa using h, hf, he⟩
  · rintro (⟨hc, ds, frac, exp, rfl, hd, hf, he⟩ | h)
    · exact ⟨c :: ds, frac, exp, rfl, IsDigits_cons.2 ⟨hc, hd⟩, hf, he⟩
    · obtain ⟨frac, exp, h, hf, he⟩ := NumTail_zero_cons.2 h
      exact ⟨[], frac, exp, by simpa using h, IsDigits_nil, hf, he⟩

theorem NumTail_neg_cons {c : Nat} {p : Str} :
    NumTail .neg (c :: p) ↔
      (c = 0x30 ∧ NumTail .zero p) ∨ ((0x31 ≤ c ∧ c ≤ 0x39) ∧ NumTail .one p) := by
  constructor
  · rintro ⟨int, frac, exp, h, hi, hf, he⟩
    rcases hi with rfl | ⟨d, ds, rfl, h1, h2, hd⟩
    · simp at h; obtain ⟨rfl, rfl⟩ := h
      exact Or.inl ⟨rfl, frac, exp, rfl, hf, he⟩
    · simp at h; obtain ⟨rfl, rfl⟩ := h
      exact Or.inr ⟨⟨h1, h2⟩, ds, frac, exp, rfl, hd, hf, he⟩
  · rintro (⟨rfl, frac, exp, rfl, hf, he⟩ | ⟨hc, ds, frac, exp, rfl, hd, hf, he⟩)
    · exact ⟨[0x30], frac, exp, rfl, Or.inl rfl, hf, he⟩
    · exact ⟨c :: ds, frac, exp, rfl, Or.inr ⟨c, ds, rfl, hc.1, hc.2, hd⟩, hf, he⟩

theorem NumTail_nil (st : NumState) :
    NumTail st [] ↔ (st = .zero ∨ st = .one ∨ st = .dot0 ∨ st = .e0) := by
  cases st with
  | neg =>
    refine ⟨?_, by simp⟩
    rintro ⟨int, frac, exp, h, hi, _⟩
    have h1 : int = [] := by
      cases int with
      | nil => rfl
      | cons a b => simp at h
    subst h1
    rcases hi with h | ⟨c, ds, h, _⟩ <;> cases h
  | zero => exact ⟨fun _ => by simp, fun _ => ⟨[], [], rfl, Or.inl rfl, Or.inl rfl⟩⟩
  | one => exact ⟨fun _ => by simp, fun _ => ⟨[], [], [], rfl, IsDigits_nil, Or.inl rfl, Or.inl rfl⟩⟩
  | dot =>
    refine ⟨?_, by simp⟩
    rintro ⟨ds, exp, h, hne, _⟩
    cases ds with
    | nil => exact absurd rfl hne
    | cons a b => simp at h
  | dot0 => exact ⟨fun _ => by simp, fun _ => ⟨[], [], rfl, IsDigits_nil, Or.inl rfl⟩⟩
  | e =>
    refine ⟨?_, by simp⟩
    rintro ⟨sgn, ds, h, _, hne, _⟩
    cases ds with
    | nil => exact absurd rfl hne
    | cons a b => simp at h
  | eSign =>
    refine ⟨?_, by simp⟩
    rintro ⟨hne, _⟩
    exact absurd rfl hne
  | e0 => exact ⟨fun _ => by simp, fun _ => IsDigits_nil⟩

theorem scanNumber_sound (st : NumState) (s r : Str) (h : scanNumber st s = .ok r) :
    ∃ p, s = p ++ r ∧ NumTail st p := by
  induction s generalizing st with
  | nil =>
    cases st <;> simp [scanNumber] at h <;> subst h <;>
      exact ⟨[], rfl, (NumTail_nil _).2 (by simp)⟩
  | cons c s ih =>
    have stop : ∀ st', (st' = .zero ∨ st' = .one ∨ st' = .dot0 ∨ st' = .e0) →
        Res.ok (c :: s) = Res.ok r → ∃ p, c :: s = p ++ r ∧ NumTail st' p := by
      intro st' hst he
      injection he with he
      exact ⟨[], by simp [he], (NumTail_nil _).2 hst⟩
    have step : ∀ st' st'', scanNumber st'' s = .ok r → (∀ p, NumTail st'' p → NumTail st' (c :: p)) →
        ∃ p, c :: s = p ++ r ∧ NumTail st' p := by
      intro st' st'' he hp
      obtain ⟨p, h1, h2⟩ := ih st'' he
      exact ⟨c :: p, by simp [h1], hp p h2⟩
    cases st with
    | neg =>
      simp only [scanNumber] at h
      split_ifs at h with h1 h2
      · exact step _ _ h (fun p hp => NumTail_neg_cons.2 (Or.inl ⟨h1, hp⟩))
      · exact step _ _ h (fun p hp => NumTail_neg_cons.2 (Or.inr ⟨h2, hp⟩))
    | zero =>
      simp only [scanNumber] at h
      split_ifs at h with h1 h2
      · exact step _ _ h (fun p hp => NumTail_zero_cons.2 (Or.inl ⟨h1, hp⟩))
      · exact step _ _ h (fun p hp => NumTail_zero_cons.2 (Or.inr ⟨h2, hp⟩))
      · exact stop _ (by simp) h
    | one =>
      simp only [scanNumber] at h
      split_ifs at h with h1 h2 h3
      · exact step _ _ h (fun p hp => NumTail_one_cons.2 (Or.inl ⟨(isDigit_iff c).1 h1, hp⟩))
      · exact step _ _ h (fun p hp => NumTail_one_cons.2 (Or.inr (Or.inl ⟨h2, hp⟩)))
      · exact step _ _ h (fun p hp => NumTail_one_cons.2 (Or.inr (Or.inr ⟨h3, hp⟩)))
      · exact stop _ (by simp) h
    | dot =>
      simp only [scanNumber] at h
      split_ifs at h with h1
      · exact step _ _ h (fun p hp => NumTail_dot_cons.2 ⟨(isDigit_iff c).1 h1, hp⟩)
    | dot0 =>
      simp only [scanNumber] at h
      split_ifs at h with h1 h2
      · exact step _ _ h (fun p hp => NumTail_dot0_cons.2 (Or.inl ⟨(isDigit_iff c).1 h1, hp⟩))
      · exact step _ _ h (fun p hp => NumTail_dot0_cons.2 (Or.inr ⟨h2, hp⟩))
      · exact stop _ (by simp) h
    | e =>
      simp only [scanNumber] at h
      split_ifs at h with h1 h2
      · exact step _ _ h (fun p hp => NumTail_e_cons.2 (Or.inl ⟨h1, hp⟩))
      · exact step _ _ h (fun p hp => NumTail_e_cons.2 (Or.inr ⟨(isDigit_iff c).1 h2, hp⟩))
    | eSign =>
      simp only [scanNumber] at h
      split_ifs at h with h1
      · exact step _ _ h (fun p hp => NumTail_eSign_cons.2 ⟨(isDigit_iff c).1 h1, hp⟩)
    | e0 =>
      simp only [scanNumber] at h
      split_ifs at h with h1
      · exact step _ _ h (fun p hp => NumTail_e0_cons.2 ⟨(isDigit_iff c).1 h1, hp⟩)
      · exact stop _ (by simp) h

theorem scanNumber_stop (st : NumState) (t : Str)
    (hst : st = .zero ∨ st = .one ∨ st = .dot0 ∨ st = .e0) (ht : Follows t) :
    scanNumber st t = .ok t := by
  cases t with
  | nil => rcases hst with rfl | rfl | rfl | rfl <;> rfl
  | cons c t =>
    have hc : ¬ numCont c := ht c rfl
    simp only [numCont, not_or, not_and, not_le] at hc
    obtain ⟨h1, h2, h3, h4⟩ := hc
    have hd : ¬ isDigit c = true := by rw [isDigit_iff]; omega
    rcases hst with rfl | rfl | rfl | rfl <;> simp only [scanNumber] <;>
      simp [hd, h2, h3, h4]

theorem scanNumber_complete (st : NumState) (p t : Str) (h : NumTail st p) (ht : Follows t) :
    scanNumber st (p ++ t) = .ok t := by
  induction p generalizing st with
  | nil => exact scanNumber_stop st t ((NumTail_nil st).1 h) ht
  | cons c p ih =>
    have nd : ∀ {x : Nat}, ¬ (0x30 ≤ x ∧ x ≤ 0x39) → ¬ isDigit x = true := by
      intro x hx; rw [isDigit_iff]; exact hx
    cases st with
    | neg =>
      simp only [List.cons_append, scanNumber]
      rcases NumTail_neg_cons.1 h with ⟨rfl, hp⟩ | ⟨hc, hp⟩
      · rw [if_pos rfl]; exact ih _ hp
      · rw [if_neg (by omega), if_pos hc]; exact ih _ hp
    | zero =>
      simp only [List.cons_append, scanNumber]
      rcases NumTail_zero_cons.1 h with ⟨rfl, hp⟩ | ⟨hc, hp⟩
      · rw [if_pos rfl]; exact ih _ hp
      · rw [if_neg (by omega), if_pos hc]; exact ih _ hp
    | one =>
      simp only [List.cons_append, scanNumber]
      rcases NumTail_one_cons.1 h with ⟨hc, hp⟩ | ⟨rfl, hp⟩ | ⟨hc, hp⟩
      · rw [if_pos ((isDigit_iff c).2 hc)]; exact ih _ hp
      · rw [if_neg (by decide), if_pos rfl]; exact ih _ hp
      · rw [if_neg (nd (by omega)), if_neg (by omega), if_pos hc]; exact ih _ hp
    | dot =>
      simp only [List.cons_append, scanNumber]
      obtain ⟨hc, hp⟩ := NumTail_dot_cons.1 h
      rw [if_pos ((isDigit_iff c).2 hc)]; exact ih _ hp
    | dot0 =>
      simp only [List.cons_append, scanNumber]
      rcases NumTail_dot0_cons.1 h with ⟨hc, hp⟩ | ⟨hc, hp⟩
      · rw [if_pos ((isDigit_iff c).2 hc)]; exact ih _ hp
      · rw [if_neg (nd (by omega)), if_pos hc]; exact ih _ hp
    | e =>
      simp only [List.cons_append, scanNumber]
      rcases NumTail_e_cons.1 h with ⟨hc, hp⟩ | ⟨hc, hp⟩
      · rw [if_pos hc]; exact ih _ hp
      · rw [if_neg (by omega), if_pos ((isDigit_iff c).2 hc)]; exact ih _ hp
    | eSign =>
      simp only [List.cons_append, scanNumber]
      obtain ⟨hc, hp⟩ := NumTail_eSign_cons.1 h
      rw [if_pos ((isDigit_iff c).2 hc)]; exact ih _ hp
    | e0 =>
      simp only [List.cons_append, scanNumber]
      obtain ⟨hc, hp⟩ := NumTail_e0_cons.1 h
      rw [if_pos ((isDigit_iff c).2 hc)]; exact ih _ hp

theorem IsNumber_iff (s : Str) :
    IsNumber s ↔ ∃ c p st, s = c :: p ∧ numStart c = some st ∧ NumTail st p := by
  constructor
  · rintro ⟨sign, int, frac, exp, rfl, hs, hi, hf, he⟩
    rcases hs with rfl | rfl
    · rcases hi with rfl | ⟨c, ds, rfl, h1, h2, hd⟩
      · exact ⟨0x30, frac ++ exp, .zero, by simp, by decide, frac, exp, rfl, hf, he⟩
      · refine ⟨c, ds ++ (frac ++ exp), .one, by simp, ?_, ds, frac, exp, rfl, hd, hf, he⟩
        simp only [numStart]
        rw [if_neg (by omega), if_neg (by omega), if_pos ⟨h1, h2⟩]
    · exact ⟨0x2D, int ++ (frac ++ exp), .neg, by simp, by decide, int, frac, exp, rfl, hi, hf, he⟩
  · rintro ⟨c, p, st, rfl, hst, hp⟩
    simp only [numStart] at hst
    split_ifs at hst with h1 h2 h3
    · injection hst with hst; subst hst; subst h1
      obtain ⟨int, frac, exp, rfl, hi, hf, he⟩ := hp
      exact ⟨[0x2D], int, frac, exp, by simp, Or.inr rfl, hi, hf, he⟩
    · injection hst with hst; subst hst; subst h2
      obtain ⟨frac, exp, rfl, hf, he⟩ := hp
      exact ⟨[], [0x30], frac, exp, by simp, Or.inl rfl, Or.inl rfl, hf, he⟩
    · injection hst with hst; subst hst
      obtain ⟨ds, frac, exp, rfl, hd, hf, he⟩ := hp
      exact ⟨[], c :: ds, frac, exp, by simp, Or.inl rfl, Or.inr ⟨c, ds, rfl, h3.1, h3.2, hd⟩,
        hf, he⟩

end ApiEnvelope

namespace ApiEnvelope

/-! ## The scanner accepts exactly the grammar -/

theorem skipSpace_eq_cons {s : Str} {c : Nat} {r : Str} (h : skipSpace s = c :: r) :
    ∃ ws, IsWs ws ∧ s = ws ++ c :: r := by
  obtain ⟨ws, h1, h2, _⟩ := skipSpace_decomp s
  exact ⟨ws, h1, by rw [← h]; exact h2⟩

theorem scan_sound (f : Nat) :
    (∀ d s r, scanValue f d s = .ok r → ∃ p, s = p ++ r ∧ Gram .value d p []) ∧
    (∀ d s ms r, scanMembers f d s = .ok (ms, r) → ∃ p, s = p ++ r ∧ Gram .members d p ms) ∧
    (∀ d s r, scanElements f d s = .ok r → ∃ p, s = p ++ r ∧ Gram .elements d p []) := by
  induction f with
  | zero =>
    refine ⟨?_, ?_, ?_⟩
    · intro d s r h; simp [scanValue] at h
    · intro d s ms r h; simp [scanMembers] at h
    · intro d s r h; simp [scanElements] at h
  | succ f ih =>
    obtain ⟨ihV, ihM, ihE⟩ := ih
    refine ⟨?_, ?_, ?_⟩
    · intro d s r h
      cases s with
      | nil => simp [scanValue] at h
      | cons c s =>
        simp only [scanValue] at h
        split_ifs at h with h1 h2 h3 h4 h5 h6 h7 h8 h9 h10 h11
        · -- object
          subst h1
          generalize hsk : skipSpace s = sk at h
          cases sk with
          | nil => simp at h
          | cons c1 s1 =>
            obtain ⟨ws, hws, rfl⟩ := skipSpace_eq_cons hsk
            simp only at h
            split_ifs at h with hc
            · injection h with h; subst h; subst hc
              exact ⟨0x7B :: (ws ++ [0x7D]), by simp, .emptyObject (by omega) hws⟩
            · generalize hm : scanMembers f (d + 1) (c1 :: s1) = res at h
              cases res with
              | ok x =>
                obtain ⟨ms, r'⟩ := x
                simp only at h
                injection h with h; subst h
                obtain ⟨p, hp, hg⟩ := ihM _ _ _ _ hm
                exact ⟨0x7B :: (ws ++ p), by simp [hp], .object (by omega) hws hg⟩
              | err m => simp at h
              | fuel => simp at h
        · -- array
          subst h3
          generalize hsk : skipSpace s = sk at h
          cases sk with
          | nil => simp at h
          | cons c1 s1 =>
            obtain ⟨ws, hws, rfl⟩ := skipSpace_eq_cons hsk
            simp only at h
            split_ifs at h with hc
            · injection h with h; subst h; subst hc
              exact ⟨0x5B :: (ws ++ [0x5D]), by simp, .emptyArray (by omega) hws⟩
            · generalize hm : scanValue f (d + 1) (c1 :: s1) = res at h
              cases res with
              | ok r1 =>
                simp only at h
                obtain ⟨v, hv, hgv⟩ := ihV _ _ _ hm
                obtain ⟨p, hp, hgp⟩ := ihE _ _ _ h
                exact ⟨0x5B :: (ws ++ (v ++ p)), by simp [hv, hp],
                  .array (by omega) hws hgv hgp⟩
              | err m => simp at h
              | fuel => simp at h
        · subst h5
          obtain ⟨k, hk, hb⟩ := scan_StrBody _ _ h
          exact ⟨0x22 :: k, by simp [hk], .string hb⟩
        · subst h6
          obtain ⟨p, hp, ht⟩ := scanNumber_sound _ _ _ h
          exact ⟨0x2D :: p, by simp [hp],
            .number ((IsNumber_iff _).2 ⟨_, _, _, rfl, by decide, ht⟩)⟩
        · subst h7
          obtain ⟨p, hp, ht⟩ := scanNumber_sound _ _ _ h
          exact ⟨0x30 :: p, by simp [hp],
            .number ((IsNumber_iff _).2 ⟨_, _, _, rfl, by decide, ht⟩)⟩
        · obtain ⟨p, hp, ht⟩ := scanNumber_sound _ _ _ h
          refine ⟨c :: p, by simp [hp], .number ((IsNumber_iff _).2 ⟨_, _, _, rfl, ?_, ht⟩)⟩
          simp only [numStart]
          rw [if_neg h6, if_neg h7, if_pos h8]
        · subst h9
          rw [scanLiteral_ok] at h
          exact ⟨[0x74, 0x72, 0x75, 0x65], by simp [h], .litTrue⟩
        · subst h10
          rw [scanLiteral_ok] at h
          exact ⟨[0x66, 0x61, 0x6C, 0x73, 0x65], by simp [h], .litFalse⟩
        · subst h11
          rw [scanLiteral_ok] at h
          exact ⟨[0x6E, 0x75, 0x6C, 0x6C], by simp [h], .litNull⟩
    · intro d s ms r h
      cases s with
      | nil => simp [scanMembers] at h
      | cons c s =>
        simp only [scanMembers] at h
        split_ifs at h with hq
        have hq' : c = 0x22 := by simpa using hq
        subst hq'
        generalize h1 : scanString .inString s = res1 at h
        cases res1 with
        | err m => simp at h
        | fuel => simp at h
        | ok r1 =>
          obtain ⟨k, rfl, hk⟩ := scan_StrBody _ _ h1
          simp only [consumed_append] at h
          generalize hsk : skipSpace r1 = sk at h
          cases sk with
          | nil => simp at h
          | cons c2 r2 =>
            obtain ⟨ws1, hws1, rfl⟩ := skipSpace_eq_cons hsk
            simp only at h
            split_ifs at h with hc2
            have hc2' : c2 = 0x3A := by simpa using hc2
            subst hc2'
            obtain ⟨ws2, hws2, h2, _⟩ := skipSpace_decomp r2
            generalize hv : scanValue f d (skipSpace r2) = res2 at h
            cases res2 with
            | err m => simp at h
            | fuel => simp at h
            | ok r3 =>
              obtain ⟨v, hv1, hgv⟩ := ihV _ _ _ hv
              simp only at h
              rw [hv1, consumed_append] at h
              generalize hsk3 : skipSpace r3 = sk3 at h
              cases sk3 with
              | nil => simp at h
              | cons c4 r4 =>
                obtain ⟨ws3, hws3, rfl⟩ := skipSpace_eq_cons hsk3
                simp only at h
                split_ifs at h with hc4 hc5
                · subst hc4
                  obtain ⟨ws4, hws4, h4, _⟩ := skipSpace_decomp r4
                  generalize hm : scanMembers f d (skipSpace r4) = res3 at h
                  cases res3 with
                  | err m => simp at h
                  | fuel => simp at h
                  | ok x =>
                    obtain ⟨ms', r'⟩ := x
                    simp only at h
                    injection h with h
                    injection h with hms hr
                    subst hms; subst hr
                    obtain ⟨p, hp, hgp⟩ := ihM _ _ _ _ hm
                    refine ⟨0x22 :: (k ++ (ws1 ++ 0x3A :: (ws2 ++ (v ++ (ws3 ++ 0x2C :: (ws4 ++ p)))))),
                      ?_, .consMember hk hws1 hws2 hws3 hws4 hgv hgp⟩
                    rw [h2, hv1, h4, hp]; simp
                · subst hc5
                  injection h with h
                  injection h with hms hr
                  subst hms; subst hr
                  refine ⟨0x22 :: (k ++ (ws1 ++ 0x3A :: (ws2 ++ (v ++ (ws3 ++ [0x7D]))))),
                    ?_, .lastMember hk hws1 hws2 hws3 hgv⟩
                  rw [h2, hv1]; simp
    · intro d s r h
      simp only [scanElements] at h
      generalize hsk : skipSpace s = sk at h
      cases sk with
      | nil => simp at h
      | cons c4 r4 =>
        obtain ⟨ws1, hws1, rfl⟩ := skipSpace_eq_cons hsk
        simp only at h
        split_ifs at h with hc4 hc5
        · subst hc4
          obtain ⟨ws2, hws2, h2, _⟩ := skipSpace_decomp r4
          generalize hv : scanValue f d (skipSpace r4) = res at h
          cases res with
          | err m => simp at h
          | fuel => simp at h
          | ok r1 =>
            simp only at h
            obtain ⟨v, hv1, hgv⟩ := ihV _ _ _ hv
            obtain ⟨p, hp, hgp⟩ := ihE _ _ _ h
            refine ⟨ws1 ++ 0x2C :: (ws2 ++ (v ++ p)), ?_, .consElement hws1 hws2 hgv hgp⟩
            rw [h2, hv1, hp]; simp
        · subst hc5
          injection h with h; subst h
          exact ⟨ws1 ++ [0x5D], by simp, .endElements hws1⟩

theorem isSpace_false_of {c : Nat} (h : c ≠ 0x20 ∧ c ≠ 0x09 ∧ c ≠ 0x0A ∧ c ≠ 0x0D) :
    isSpace c = false := by
  rw [← Bool.not_eq_true, isSpace_iff]; omega

theorem skipSpace_ws_cons {ws : Str} {c : Nat} (s : Str) (h : IsWs ws) (hc : isSpace c = false) :
    skipSpace (ws ++ c :: s) = c :: s := by
  rw [skipSpace_ws _ _ h, skipSpace_cons _ hc]

theorem Follows_ws_cons {ws : Str} {c : Nat} (t : Str) (h : IsWs ws) (hc : ¬ numCont c) :
    Follows (ws ++ c :: t) := by
  intro x hx
  cases ws with
  | nil => simp at hx; subst hx; exact hc
  | cons w ws =>
    simp at hx; subst hx
    have := h w (by simp)
    simp only [numCont]; omega

theorem IsNumber_head {s : Str} (h : IsNumber s) :
    ∃ c p, s = c :: p ∧ (c = 0x2D ∨ (0x30 ≤ c ∧ c ≤ 0x39)) := by
  obtain ⟨c, p, st, rfl, hst, _⟩ := (IsNumber_iff s).1 h
  refine ⟨c, p, rfl, ?_⟩
  simp only [numStart] at hst
  split_ifs at hst <;> omega

/-- The first byte of a value: one of `"`, `-`, a digit, `t`, `f`, `n`, `{`, `[`. -/
theorem Gram_value_head {d : Nat} {p : Str} {ms : List Member} (h : Gram .value d p ms) :
    ∃ c p', p = c :: p' ∧ (c = 0x22 ∨ c = 0x2D ∨ (0x30 ≤ c ∧ c ≤ 0x39) ∨ c = 0x74 ∨ c = 0x66 ∨
      c = 0x6E ∨ c = 0x7B ∨ c = 0x5B) := by
  cases h with
  | string _ => exact ⟨_, _, rfl, by simp⟩
  | number hn =>
    obtain ⟨c, p, rfl, hc⟩ := IsNumber_head hn
    exact ⟨c, p, rfl, by omega⟩
  | litTrue => exact ⟨_, _, rfl, by simp⟩
  | litFalse => exact ⟨_, _, rfl, by simp⟩
  | litNull => exact ⟨_, _, rfl, by simp⟩
  | emptyObject _ _ => exact ⟨_, _, rfl, by simp⟩
  | object _ _ _ => exact ⟨_, _, rfl, by simp⟩
  | emptyArray _ _ => exact ⟨_, _, rfl, by simp⟩
  | array _ _ _ _ => exact ⟨_, _, rfl, by simp⟩

theorem Gram_members_head {d : Nat} {p : Str} {ms : List Member} (h : Gram .members d p ms) :
    ∃ p', p = 0x22 :: p' := by
  cases h with
  | lastMember _ _ _ _ _ => exact ⟨_, rfl⟩
  | consMember _ _ _ _ _ _ _ => exact ⟨_, rfl⟩

theorem Gram_elements_follows {d : Nat} {p : Str} {ms : List Member} (h : Gram .elements d p ms)
    (t : Str) : Follows (p ++ t) := by
  cases h with
  | endElements hws =>
    simp only [List.append_assoc, List.singleton_append]
    exact Follows_ws_cons _ hws (by simp [numCont])
  | consElement hws _ _ _ =>
    simp only [List.append_assoc, List.cons_append]
    exact Follows_ws_cons _ hws (by simp [numCont])

theorem value_head_facts {c : Nat} (h : c = 0x22 ∨ c = 0x2D ∨ (0x30 ≤ c ∧ c ≤ 0x39) ∨ c = 0x74 ∨
    c = 0x66 ∨ c = 0x6E ∨ c = 0x7B ∨ c = 0x5B) :
    isSpace c = false ∧ c ≠ 0x7D ∧ c ≠ 0x5D := by
  refine ⟨isSpace_false_of (by omega), by omega, by omega⟩

theorem Gram_complete {part : Part} {d : Nat} {p : Str} {ms : List Member}
    (h : Gram part d p ms) : ∀ t f, p.length < f →
      (part = .value → Follows t → scanValue f d (p ++ t) = .ok t) ∧
      (part = .members → scanMembers f d (p ++ t) = .ok (ms, t)) ∧
      (part = .elements → scanElements f d (p ++ t) = .ok t) := by
  induction h with
  | string hk =>
    intro t f hf
    refine ⟨fun _ _ => ?_, nofun, nofun⟩
    obtain ⟨f, rfl⟩ : ∃ f', f = f' + 1 := ⟨f - 1, by omega⟩
    simp only [List.cons_append, scanValue]
    simpa using StrBody_scan hk t
  | number hn =>
    intro t f hf
    refine ⟨fun _ ht => ?_, nofun, nofun⟩
    obtain ⟨f, rfl⟩ : ∃ f', f = f' + 1 := ⟨f - 1, by omega⟩
    obtain ⟨c, p, st, rfl, hst, hp⟩ := (IsNumber_iff _).1 hn
    have hs := scanNumber_complete st p t hp ht
    simp only [numStart] at hst
    simp only [List.cons_append, scanValue]
    split_ifs at hst with h1 h2 h3
    · injection hst with hst; subst hst; subst h1; simpa using hs
    · injection hst with hst; subst hst; subst h2; simpa using hs
    · injection hst with hst; subst hst
      rw [if_neg (by omega), if_neg (by omega), if_neg (by omega), if_neg h1, if_neg h2,
        if_pos h3]
      exact hs
  | litTrue =>
    intro t f hf
    refine ⟨fun _ _ => ?_, nofun, nofun⟩
    obtain ⟨f, rfl⟩ : ∃ f', f = f' + 1 := ⟨f - 1, by omega⟩
    simp [scanValue, scanLiteral]
  | litFalse =>
    intro t f hf
    refine ⟨fun _ _ => ?_, nofun, nofun⟩
    obtain ⟨f, rfl⟩ : ∃ f', f = f' + 1 := ⟨f - 1, by omega⟩
    simp [scanValue, scanLiteral]
  | litNull =>
    intro t f hf
    refine ⟨fun _ _ => ?_, nofun, nofun⟩
    obtain ⟨f, rfl⟩ : ∃ f', f = f' + 1 := ⟨f - 1, by omega⟩
    simp [scanValue, scanLiteral]
  | emptyObject hd hws =>
    intro t f hf
    refine ⟨fun _ _ => ?_, nofun, nofun⟩
    obtain ⟨f, rfl⟩ : ∃ f', f = f' + 1 := ⟨f - 1, by omega⟩
    simp only [List.cons_append, List.append_assoc, List.nil_append, List.singleton_append]
    simp only [scanValue, ↓reduceIte, Nat.reduceEqDiff]
    rw [if_neg (Nat.not_le.2 hd), skipSpace_ws_cons _ hws (by decide)]
    simp
  | object hd hws hm ih =>
    intro t f hf
    refine ⟨fun _ _ => ?_, nofun, nofun⟩
    obtain ⟨f, rfl⟩ : ∃ f', f = f' + 1 := ⟨f - 1, by omega⟩
    obtain ⟨p', rfl⟩ := Gram_members_head hm
    have := (ih t f (by simp at hf ⊢; omega)).2.1 rfl
    simp only [List.cons_append, List.append_assoc, List.nil_append, List.singleton_append] at this ⊢
    simp only [scanValue, ↓reduceIte, Nat.reduceEqDiff]
    rw [if_neg (Nat.not_le.2 hd), skipSpace_ws_cons _ hws (by decide)]
    simp only
    rw [if_neg (by decide), this]
  | emptyArray hd hws =>
    intro t f hf
    refine ⟨fun _ _ => ?_, nofun, nofun⟩
    obtain ⟨f, rfl⟩ : ∃ f', f = f' + 1 := ⟨f - 1, by omega⟩
    simp only [List.cons_append, List.append_assoc, List.nil_append, List.singleton_append]
    simp only [scanValue, ↓reduceIte, Nat.reduceEqDiff]
    rw [if_neg (Nat.not_le.2 hd), skipSpace_ws_cons _ hws (by decide)]
    simp
  | array hd hws hv he ihv ihe =>
    intro t f hf
    refine ⟨fun _ _ => ?_, nofun, nofun⟩
    obtain ⟨f, rfl⟩ : ∃ f', f = f' + 1 := ⟨f - 1, by omega⟩
    obtain ⟨c, v', rfl, hc⟩ := Gram_value_head hv
    obtain ⟨hc1, hc2, hc3⟩ := value_head_facts hc
    simp only [List.length_cons, List.length_append] at hf
    have h1 := (ihv (_ ++ t) f (by simp; omega)).1 rfl (Gram_elements_follows he t)
    have h2 := (ihe t f (by omega)).2.2 rfl
    simp only [List.cons_append, List.append_assoc, List.nil_append, List.singleton_append] at h1 ⊢
    simp only [scanValue, ↓reduceIte, Nat.reduceEqDiff]
    rw [if_neg (Nat.not_le.2 hd), skipSpace_ws_cons _ hws hc1]
    simp only
    rw [if_neg hc3, h1]
    exact h2
  | @lastMember d k ws1 ws2 v ws3 hk hws1 hws2 hws3 hv ihv =>
    intro t f hf
    refine ⟨nofun, fun _ => ?_, nofun⟩
    obtain ⟨f, rfl⟩ : ∃ f', f = f' + 1 := ⟨f - 1, by omega⟩
    obtain ⟨c, v', rfl, hc⟩ := Gram_value_head hv
    obtain ⟨hc1, hc2, hc3⟩ := value_head_facts hc
    simp only [List.length_cons, List.length_append] at hf
    have h1 := (ihv (ws3 ++ ([0x7D] ++ t)) f (by simp; omega)).1 rfl
      (Follows_ws_cons t hws3 (by simp [numCont]))
    simp only [List.cons_append, List.append_assoc, List.nil_append, List.singleton_append] at h1 ⊢
    simp only [scanMembers]
    rw [if_neg (by simp), StrBody_scan hk _]
    simp only [consumed_append]
    rw [skipSpace_ws_cons _ hws1 (by decide)]
    simp only
    rw [if_neg (by simp), skipSpace_ws_cons _ hws2 hc1, h1]
    simp only
    rw [skipSpace_ws_cons _ hws3 (by decide)]
    have hcons : consumed (c :: (v' ++ (ws3 ++ 0x7D :: t))) (ws3 ++ 0x7D :: t) = c :: v' :=
      consumed_append (c :: v') _
    simp [hcons]
  | @consMember d k ws1 ws2 v ws3 ws4 p ms hk hws1 hws2 hws3 hws4 hv hm ihv ihm =>
    intro t f hf
    refine ⟨nofun, fun _ => ?_, nofun⟩
    obtain ⟨f, rfl⟩ : ∃ f', f = f' + 1 := ⟨f - 1, by omega⟩
    obtain ⟨c, v', rfl, hc⟩ := Gram_value_head hv
    obtain ⟨hc1, hc2, hc3⟩ := value_head_facts hc
    obtain ⟨p', rfl⟩ := Gram_members_head hm
    simp only [List.length_cons, List.length_append] at hf
    have h1 := (ihv (ws3 ++ (0x2C :: (ws4 ++ (0x22 :: p' ++ t)))) f (by simp; omega)).1 rfl
      (Follows_ws_cons _ hws3 (by simp [numCont]))
    have h2 := (ihm t f (by simp; omega)).2.1 rfl
    simp only [List.cons_append, List.append_assoc, List.nil_append, List.singleton_append] at h1 h2 ⊢
    simp only [scanMembers]
    rw [if_neg (by simp), StrBody_scan hk _]
    simp only [consumed_append]
    rw [skipSpace_ws_cons _ hws1 (by decide)]
    simp only
    rw [if_neg (by simp), skipSpace_ws_cons _ hws2 hc1, h1]
    simp only
    rw [skipSpace_ws_cons _ hws3 (by decide)]
    simp only [↓reduceIte]
    rw [skipSpace_ws_cons _ hws4 (by decide), h2]
    have hcons : consumed (c :: (v' ++ (ws3 ++ 0x2C :: (ws4 ++ 0x22 :: (p' ++ t)))))
        (ws3 ++ 0x2C :: (ws4 ++ 0x22 :: (p' ++ t))) = c :: v' :=
      consumed_append (c :: v') _
    simp [hcons]
  | endElements hws =>
    intro t f hf
    refine ⟨nofun, nofun, fun _ => ?_⟩
    obtain ⟨f, rfl⟩ : ∃ f', f = f' + 1 := ⟨f - 1, by omega⟩
    simp only [List.cons_append, List.append_assoc, List.nil_append, List.singleton_append]
    simp only [scanElements]
    rw [skipSpace_ws_cons _ hws (by decide)]
    simp
  | consElement hws1 hws2 hv he ihv ihe =>
    intro t f hf
    refine ⟨nofun, nofun, fun _ => ?_⟩
    obtain ⟨f, rfl⟩ : ∃ f', f = f' + 1 := ⟨f - 1, by omega⟩
    obtain ⟨c, v', rfl, hc⟩ := Gram_value_head hv
    obtain ⟨hc1, hc2, hc3⟩ := value_head_facts hc
    simp only [List.length_cons, List.length_append] at hf
    have h1 := (ihv (_ ++ t) f (by simp; omega)).1 rfl (Gram_elements_follows he t)
    have h2 := (ihe t f (by omega)).2.2 rfl
    simp only [List.cons_append, List.append_assoc, List.nil_append, List.singleton_append] at h1 ⊢
    simp only [scanElements]
    rw [skipSpace_ws_cons _ hws1 (by decide)]
    simp only [↓reduceIte]
    rw [skipSpace_ws_cons _ hws2 hc1, h1]
    exact h2

end ApiEnvelope

namespace ApiEnvelope

/-! ## The document parser -/

theorem scanString_ne_fuel (st : StrState) (s : Str) : scanString st s ≠ .fuel := by
  induction s generalizing st with
  | nil => cases st <;> simp [scanString]
  | cons c s ih =>
    cases st <;> simp only [scanString] <;> split_ifs <;> first | exact ih _ | simp

theorem scanNumber_ne_fuel (st : NumState) (s : Str) : scanNumber st s ≠ .fuel := by
  induction s generalizing st with
  | nil => cases st <;> simp [scanNumber]
  | cons c s ih =>
    cases st <;> simp only [scanNumber] <;> split_ifs <;> first | exact ih _ | simp

theorem scanLiteral_ne_fuel (name : String) (expected s : Str) :
    scanLiteral name expected s ≠ .fuel := by
  induction expected generalizing s with
  | nil => simp [scanLiteral]
  | cons x xs ih =>
    cases s with
    | nil => simp [scanLiteral]
    | cons c s => simp only [scanLiteral]; split_ifs <;> first | exact ih _ | simp

theorem skipSpace_length_le (s : Str) : (skipSpace s).length ≤ s.length := by
  induction s with
  | nil => simp [skipSpace]
  | cons c s ih =>
    simp only [skipSpace]; split_ifs
    · simp only [List.length_cons]; omega
    · simp

theorem scan_adequate (f : Nat) :
    (∀ d s, s.length < f → scanValue f d s ≠ .fuel) ∧
    (∀ d s, s.length < f → scanMembers f d s ≠ .fuel) ∧
    (∀ d s, s.length < f → scanElements f d s ≠ .fuel) := by
  induction f with
  | zero => exact ⟨fun _ _ h => by omega, fun _ _ h => by omega, fun _ _ h => by omega⟩
  | succ f ih =>
    obtain ⟨ihV, ihM, ihE⟩ := ih
    have sV := (scan_sound f).1
    refine ⟨?_, ?_, ?_⟩
    · intro d s hs h
      cases s with
      | nil => simp [scanValue] at h
      | cons c s =>
        simp only [List.length_cons] at hs
        simp only [scanValue] at h
        split_ifs at h with h1 h2 h3 h4 h5 h6 h7 h8 h9 h10 h11
        · generalize hsk : skipSpace s = sk at h
          have hl := skipSpace_length_le s
          rw [hsk] at hl
          cases sk with
          | nil => simp at h
          | cons c1 s1 =>
            simp only at h
            split_ifs at h with hc
            generalize hm : scanMembers f (d + 1) (c1 :: s1) = res at h
            cases res with
            | ok x => simp at h
            | err m => simp at h
            | fuel => exact ihM _ _ (by omega) hm
        · generalize hsk : skipSpace s = sk at h
          have hl := skipSpace_length_le s
          rw [hsk] at hl
          cases sk with
          | nil => simp at h
          | cons c1 s1 =>
            simp only at h
            split_ifs at h with hc
            generalize hm : scanValue f (d + 1) (c1 :: s1) = res at h
            cases res with
            | ok r1 =>
              simp only at h
              obtain ⟨p, hp, _⟩ := sV _ _ _ hm
              have : r1.length ≤ (c1 :: s1).length := by rw [hp]; simp
              exact ihE _ _ (by omega) h
            | err m => simp at h
            | fuel => exact ihV _ _ (by omega) hm
        · exact scanString_ne_fuel _ _ h
        · exact scanNumber_ne_fuel _ _ h
        · exact scanNumber_ne_fuel _ _ h
        · exact scanNumber_ne_fuel _ _ h
        · exact scanLiteral_ne_fuel _ _ _ h
        · exact scanLiteral_ne_fuel _ _ _ h
        · exact scanLiteral_ne_fuel _ _ _ h
    · intro d s hs h
      cases s with
      | nil => simp [scanMembers] at h
      | cons c s =>
        simp only [List.length_cons] at hs
        simp only [scanMembers] at h
        split_ifs at h with hq
        generalize h1 : scanString .inString s = res1 at h
        cases res1 with
        | err m => simp at h
        | fuel => exact scanString_ne_fuel _ _ h1
        | ok r1 =>
          obtain ⟨k, hk1, _⟩ := scan_StrBody _ _ h1
          have l1 : r1.length ≤ s.length := by rw [hk1]; simp
          simp only at h
          generalize hsk : skipSpace r1 = sk at h
          have l2 := skipSpace_length_le r1
          rw [hsk] at l2
          cases sk with
          | nil => simp at h
          | cons c2 r2 =>
            simp only at h
            split_ifs at h with hc2
            have l3 := skipSpace_length_le r2
            simp only [List.length_cons] at l2
            generalize hv : scanValue f d (skipSpace r2) = res2 at h
            cases res2 with
            | err m => simp at h
            | fuel => exact ihV _ _ (by omega) hv
            | ok r3 =>
              obtain ⟨v, hv1, _⟩ := sV _ _ _ hv
              have l4 : r3.length ≤ (skipSpace r2).length := by rw [hv1]; simp
              simp only at h
              generalize hsk3 : skipSpace r3 = sk3 at h
              have l5 := skipSpace_length_le r3
              rw [hsk3] at l5
              cases sk3 with
              | nil => simp at h
              | cons c4 r4 =>
                simp only at h
                simp only [List.length_cons] at l5
                have l6 := skipSpace_length_le r4
                split_ifs at h with hc4 hc5
                · generalize hm : scanMembers f d (skipSpace r4) = res3 at h
                  cases res3 with
                  | err m => simp at h
                  | fuel => exact ihM _ _ (by omega) hm
                  | ok x => simp at h
    · intro d s hs h
      simp only [scanElements] at h
      generalize hsk : skipSpace s = sk at h
      have l1 := skipSpace_length_le s
      rw [hsk] at l1
      cases sk with
      | nil => simp at h
      | cons c4 r4 =>
        simp only at h
        simp only [List.length_cons] at l1
        have l2 := skipSpace_length_le r4
        split_ifs at h with hc4 hc5
        · generalize hv : scanValue f d (skipSpace r4) = res at h
          cases res with
          | err m => simp at h
          | fuel => exact ihV _ _ (by omega) hv
          | ok r1 =>
            simp only at h
            obtain ⟨v, hv1, _⟩ := sV _ _ _ hv
            have l3 : r1.length ≤ (skipSpace r4).length := by rw [hv1]; simp
            exact ihE _ _ (by omega) h

theorem skipSpace_all_ws {ws : Str} (h : IsWs ws) : skipSpace ws = [] := by
  have := skipSpace_ws ws [] h
  simpa [skipSpace] using this

theorem skipSpace_eq_nil {s : Str} (h : skipSpace s = []) : IsWs s := by
  obtain ⟨ws, h1, h2, _⟩ := skipSpace_decomp s
  rw [h, List.append_nil] at h2
  rw [h2]; exact h1

theorem IsWs_follows {ws : Str} (h : IsWs ws) : Follows ws := by
  intro c hc
  cases ws with
  | nil => simp at hc
  | cons w ws =>
    simp at hc; subst hc
    have := h w (by simp)
    simp only [numCont]; omega

theorem TopShape_gram {v : Str} {top : Top} (h : TopShape v top) : Gram .value 0 v [] := by
  cases h with
  | emptyObject hws => exact .emptyObject (by decide) hws
  | object hws hm => exact .object (by decide) hws hm
  | array hg => exact hg
  | literal _ _ hg => exact hg

theorem Gram_value_top {v : Str} {ms : List Member} (h : Gram .value 0 v ms) :
    ∃ top, TopShape v top := by
  obtain ⟨c, v', rfl, hc⟩ := Gram_value_head h
  cases h with
  | string hk => exact ⟨_, .literal (by decide) (by decide) (.string hk)⟩
  | number hn =>
    obtain ⟨c', p, e, hc'⟩ := IsNumber_head hn
    injection e with e1 e2; subst e1
    exact ⟨_, .literal (by omega) (by omega) (.number hn)⟩
  | litTrue => exact ⟨_, .literal (by decide) (by decide) .litTrue⟩
  | litFalse => exact ⟨_, .literal (by decide) (by decide) .litFalse⟩
  | litNull => exact ⟨_, .literal (by decide) (by decide) .litNull⟩
  | emptyObject hd hws => exact ⟨_, .emptyObject hws⟩
  | object hd hws hm => exact ⟨_, .object hws hm⟩
  | emptyArray hd hws => exact ⟨_, .array (.emptyArray hd hws)⟩
  | array hd hws hv he => exact ⟨_, .array (.array hd hws hv he)⟩

theorem parseDocument_complete {ws1 v ws2 : Str} {top : Top} (h1 : IsWs ws1) (h2 : IsWs ws2)
    (hs : TopShape v top) : parseDocument (ws1 ++ (v ++ ws2)) = .ok top := by
  obtain ⟨c, v', rfl, hc⟩ := Gram_value_head (TopShape_gram hs)
  obtain ⟨hc1, _, _⟩ := value_head_facts hc
  unfold parseDocument
  simp only [List.cons_append]
  rw [skipSpace_ws_cons _ h1 hc1]
  simp only
  cases hs with
  | @emptyObject ws hws =>
    simp only [List.append_assoc, List.singleton_append, ↓reduceIte]
    rw [skipSpace_ws_cons _ hws (by decide)]
    simp [skipSpace_all_ws h2]
  | @object ws p ms hws hm =>
    obtain ⟨p', rfl⟩ := Gram_members_head hm
    have := (Gram_complete hm ws2 (ws1 ++ 0x7B :: (ws ++ 0x22 :: p' ++ ws2)).length
      (by simp; omega)).2.1 rfl
    simp only [List.append_assoc, List.cons_append, ↓reduceIte] at this ⊢
    rw [skipSpace_ws_cons _ hws (by decide)]
    simp only
    rw [if_neg (by decide), this]
    simp [skipSpace_all_ws h2]
  | array hg =>
    have := (Gram_complete hg ws2 ((ws1 ++ 0x5B :: (v' ++ ws2)).length + 1)
      (by simp; omega)).1 rfl (IsWs_follows h2)
    simp only [List.cons_append] at this
    rw [if_neg (by decide), this]
    simp only [skipSpace_all_ws h2, ↓reduceIte]
    rw [show (0x5B :: (v' ++ ws2)) = (0x5B :: v') ++ ws2 by simp, consumed_append]
  | literal hc7 hc5 hg =>
    have := (Gram_complete hg ws2 ((ws1 ++ c :: (v' ++ ws2)).length + 1)
      (by simp; omega)).1 rfl (IsWs_follows h2)
    simp only [List.cons_append] at this
    rw [if_neg hc7, this]
    simp only [skipSpace_all_ws h2]
    rw [if_neg hc5, show (c :: (v' ++ ws2)) = (c :: v') ++ ws2 by simp, consumed_append]

theorem parseDocument_sound {data : Str} {top : Top} (h : parseDocument data = .ok top) :
    ∃ ws1 v ws2, IsWs ws1 ∧ IsWs ws2 ∧ data = ws1 ++ (v ++ ws2) ∧ TopShape v top := by
  unfold parseDocument at h
  simp only at h
  generalize hsk : skipSpace data = sk at h
  cases sk with
  | nil => simp at h
  | cons c s1 =>
    obtain ⟨ws1, hws1, hdata⟩ := skipSpace_eq_cons hsk
    simp only at h
    by_cases hc : c = 0x7B
    · subst hc
      simp only [if_true] at h
      generalize hsk1 : skipSpace s1 = sk1 at h
      cases sk1 with
      | nil => simp at h
      | cons c1 s2 =>
        obtain ⟨ws, hws, rfl⟩ := skipSpace_eq_cons hsk1
        simp only at h
        split_ifs at h with hc1
        · subst hc1
          generalize hsk2 : skipSpace s2 = sk2 at h
          cases sk2 with
          | nil =>
            simp only at h
            injection h with h; subst h
            exact ⟨ws1, 0x7B :: (ws ++ [0x7D]), s2, hws1, skipSpace_eq_nil hsk2,
              by simp [hdata], .emptyObject hws⟩
          | cons c2 s3 => simp at h
        · generalize hm : scanMembers data.length 1 (c1 :: s2) = res at h
          cases res with
          | err m => simp at h
          | fuel => simp at h
          | ok x =>
            obtain ⟨ms, r⟩ := x
            simp only at h
            generalize hsk2 : skipSpace r = sk2 at h
            cases sk2 with
            | nil =>
              simp only at h
              injection h with h; subst h
              obtain ⟨p, hp, hg⟩ := (scan_sound _).2.1 _ _ _ _ hm
              exact ⟨ws1, 0x7B :: (ws ++ p), r, hws1, skipSpace_eq_nil hsk2,
                by simp [hdata, hp], .object hws hg⟩
            | cons c2 s3 => simp at h
    · simp only [if_neg hc] at h
      generalize hv : scanValue (data.length + 1) 0 (c :: s1) = res at h
      cases res with
      | err m => simp at h
      | fuel => simp at h
      | ok r =>
        simp only at h
        generalize hsk2 : skipSpace r = sk2 at h
        cases sk2 with
        | cons c2 s3 => simp at h
        | nil =>
          simp only at h
          injection h with h
          obtain ⟨v, hv1, hg⟩ := (scan_sound _).1 _ _ _ hv
          obtain ⟨c', v', rfl, _⟩ := Gram_value_head hg
          have hcc : c' = c := by simp at hv1; exact hv1.1.symm
          subst hcc
          rw [hv1, consumed_append] at h
          refine ⟨ws1, c' :: v', r, hws1, skipSpace_eq_nil hsk2, by rw [hdata, hv1], ?_⟩
          split_ifs at h with hb
          · subst hb; subst h; exact .array hg
          · subst h; exact .literal hc hb hg

theorem parseDocument_ne_fuel (data : Str) : parseDocument data ≠ .fuel := by
  intro h
  unfold parseDocument at h
  simp only at h
  generalize hsk : skipSpace data = sk at h
  have l0 := skipSpace_length_le data
  rw [hsk] at l0
  cases sk with
  | nil => simp at h
  | cons c s1 =>
    simp only [List.length_cons] at l0
    simp only at h
    by_cases hc : c = 0x7B
    · simp only [if_pos hc] at h
      generalize hsk1 : skipSpace s1 = sk1 at h
      have l1 := skipSpace_length_le s1
      rw [hsk1] at l1
      cases sk1 with
      | nil => simp at h
      | cons c1 s2 =>
        simp only at h
        split_ifs at h with hc1
        · generalize hsk2 : skipSpace s2 = sk2 at h
          cases sk2 <;> simp at h
        · generalize hm : scanMembers data.length 1 (c1 :: s2) = res at h
          cases res with
          | err m => simp at h
          | fuel => exact (scan_adequate _).2.1 _ _ (by omega) hm
          | ok x =>
            simp only at h
            generalize hsk2 : skipSpace x.2 = sk2 at h
            cases sk2 <;> simp at h
    · simp only [if_neg hc] at h
      generalize hv : scanValue (data.length + 1) 0 (c :: s1) = res at h
      cases res with
      | err m => simp at h
      | fuel => exact (scan_adequate _).1 _ _ (by simp only [List.length_cons]; omega) hv
      | ok r =>
        simp only at h
        generalize hsk2 : skipSpace r = sk2 at h
        cases sk2 <;> simp at h

theorem parseDocument_ok_iff (data : Str) : (∃ top, parseDocument data = .ok top) ↔ JsonText data := by
  constructor
  · rintro ⟨top, h⟩
    obtain ⟨ws1, v, ws2, h1, h2, h3, h4⟩ := parseDocument_sound h
    exact ⟨ws1, v, ws2, h1, h2, TopShape_gram h4, h3⟩
  · rintro ⟨ws1, v, ws2, h1, h2, h3, rfl⟩
    obtain ⟨top, ht⟩ := Gram_value_top h3
    exact ⟨top, parseDocument_complete h1 h2 ht⟩

theorem parseDocument_err_of_not_JsonText {data : Str} (h : ¬ JsonText data) :
    ∃ msg, parseDocument data = .err msg := by
  cases hp : parseDocument data with
  | ok top => exact absurd ((parseDocument_ok_iff data).1 ⟨top, hp⟩) h
  | err msg => exact ⟨msg, rfl⟩
  | fuel => exact absurd hp (parseDocument_ne_fuel data)

end ApiEnvelope

namespace ApiEnvelope

theorem hexVal_of_isHex {a : Nat} (h : isHex a = true) : ∃ x, hexVal a = some x := by
  unfold isHex at h
  unfold hexVal
  simp only [decide_eq_true_eq] at h
  split_ifs
  · exact ⟨_, rfl⟩
  · exact ⟨_, rfl⟩
  · exact ⟨_, rfl⟩
  · omega

theorem StrBody_ne_nil {k : Str} (h : StrBody k) : k ≠ [] := by
  cases h <;> simp

theorem StrBody_cons_inv {c : Nat} {k : Str} (h : StrBody (c :: k)) :
    (c = 0x22 ∧ k = []) ∨
    (0x20 ≤ c ∧ c ≠ 0x22 ∧ c ≠ 0x5C ∧ StrBody k) ∨
    (c = 0x5C ∧ ∃ e k1, k = e :: k1 ∧ e ≠ 0x75 ∧
      (e = 0x22 ∨ e = 0x5C ∨ e = 0x2F ∨ e = 0x62 ∨ e = 0x66 ∨ e = 0x6E ∨ e = 0x72 ∨ e = 0x74) ∧
      StrBody k1) ∨
    (c = 0x5C ∧ ∃ a b c d k1, k = 0x75 :: a :: b :: c :: d :: k1 ∧ isHex a = true ∧
      isHex b = true ∧ isHex c = true ∧ isHex d = true ∧ StrBody k1) := by
  cases h with
  | close => exact .inl ⟨rfl, rfl⟩
  | plain h1 h2 h3 h4 => exact .inr (.inl ⟨h1, h2, h3, h4⟩)
  | escape he h1 => exact .inr (.inr (.inl ⟨rfl, _, _, rfl, by omega, he, h1⟩))
  | unicode ha hb hc hd h1 => exact .inr (.inr (.inr ⟨rfl, _, _, _, _, _, rfl, ha, hb, hc, hd, h1⟩))

theorem append_quote_eq_cons {rest k1 : Str} {x : Nat} (h : rest ++ [0x22] = x :: k1)
    (hk : k1 ≠ []) : ∃ rest1, rest = x :: rest1 ∧ rest1 ++ [0x22] = k1 := by
  cases rest with
  | nil => simp at h; exact absurd h.2 hk
  | cons y rest1 =>
    simp only [List.cons_append, List.cons.injEq] at h
    exact ⟨rest1, by rw [h.1], h.2⟩

theorem StrBody_high {chunk X : Str} (hc : ∀ c ∈ chunk, 0x80 ≤ c) (h : StrBody (chunk ++ X)) :
    StrBody X := by
  induction chunk with
  | nil => exact h
  | cons c cs ih =>
    have h80 := hc c (by simp)
    rcases StrBody_cons_inv h with ⟨h1, _⟩ | ⟨_, _, _, h4⟩ | ⟨h1, _⟩ | ⟨h1, _⟩
    · omega
    · exact ih (fun c hm => hc c (by simp [hm])) h4
    · omega
    · omega

theorem getu4_some_inv {s : Str} {r : Nat} (h : getu4 s = some r) :
    ∃ a b c d s2, s = 0x5C :: 0x75 :: a :: b :: c :: d :: s2 := by
  unfold getu4 at h
  split at h
  · exact ⟨_, _, _, _, _, rfl⟩
  · cases h

theorem getu4_of_isHex {a b c d : Nat} (s2 : Str) (ha : isHex a = true) (hb : isHex b = true)
    (hc : isHex c = true) (hd : isHex d = true) :
    ∃ r, getu4 (0x5C :: 0x75 :: a :: b :: c :: d :: s2) = some r := by
  obtain ⟨x, hx⟩ := hexVal_of_isHex ha
  obtain ⟨y, hy⟩ := hexVal_of_isHex hb
  obtain ⟨z, hz⟩ := hexVal_of_isHex hc
  obtain ⟨w, hw⟩ := hexVal_of_isHex hd
  refine ⟨((x * 16 + y) * 16 + z) * 16 + w, ?_⟩
  simp only [getu4, hx, hy, hz, hw]

theorem unquoteLoop_total (t : Str) (h : StrBody (t ++ [0x22])) (f : Nat) (hf : t.length ≤ f) :
    ∃ s, unquoteLoop f t = some s := by
  suffices H : ∀ n (t : Str), t.length = n → StrBody (t ++ [0x22]) → ∀ f, t.length ≤ f →
      ∃ s, unquoteLoop f t = some s from H _ t rfl h f hf
  intro n
  induction n using Nat.strong_induction_on with
  | _ n ih =>
    intro t hn h f hf
    cases t with
    | nil => cases f <;> exact ⟨[], by simp [unquoteLoop]⟩
    | cons c rest =>
      cases f with
      | zero => simp at hf
      | succ g =>
        simp only [List.length_cons] at hf hn
        have hg : rest.length ≤ g := by omega
        have step : ∀ (u : Str) (pre : Str → Str), u.length ≤ rest.length → StrBody (u ++ [0x22]) →
            ∃ s, (unquoteLoop g u).map pre = some s := by
          intro u pre hu hb
          obtain ⟨s, hs⟩ := ih u.length (by omega) u rfl hb g (by omega)
          exact ⟨pre s, by rw [hs]; rfl⟩
        rw [List.cons_append] at h
        rcases StrBody_cons_inv h with ⟨_, h2⟩ | ⟨h1, h2, h3, h4⟩ |
          ⟨h1, e, k1, hk, hne, he, hb⟩ | ⟨h1, a, b, c1, d, k1, hk, ha, hb, hc, hd, hbody⟩
        · simp at h2
        · by_cases h80 : c < 0x80
          · rw [unquoteLoop_plain g c rest h3 h2 (by omega) h80]
            exact step rest _ le_rfl h4
          · simp only [unquoteLoop, RuneSelf]
            rw [if_neg h3, if_neg (by omega), if_neg h80]
            have hle := DecodeRune_size_le (c :: rest)
            have hhigh : ∀ x ∈ (c :: rest).take (DecodeRune (c :: rest)).2, 0x80 ≤ x := by
              by_cases hv : (DecodeRune (c :: rest)).1 = RuneError ∧ (DecodeRune (c :: rest)).2 = 1
              · rw [hv.2]; intro x hx; simp at hx; omega
              · exact DecodeRune_chunk_high c rest (by omega) hv
            have hpos := DecodeRune_size_pos (c :: rest) (by simp)
            apply step
            · simp only [List.length_drop, List.length_cons]; omega
            · apply StrBody_high hhigh
              rw [← List.append_assoc, List.take_append_drop]
              exact h
        · subst h1
          obtain ⟨rest1, rfl, rfl⟩ := append_quote_eq_cons hk (StrBody_ne_nil hb)
          simp only [unquoteLoop, if_true]
          have hl : rest1.length ≤ (e :: rest1).length := by simp
          rcases he with rfl | rfl | rfl | rfl | rfl | rfl | rfl | rfl <;>
            simp only [Nat.reduceEqDiff, or_true, true_or, or_false, false_or, if_true, if_false,
              ↓reduceIte] <;>
            exact step rest1 _ hl hb
        · subst h1
          obtain ⟨r1, rfl, hk1⟩ := append_quote_eq_cons hk (by simp)
          obtain ⟨r2, rfl, hk2⟩ := append_quote_eq_cons hk1 (by simp)
          obtain ⟨r3, rfl, hk3⟩ := append_quote_eq_cons hk2 (by simp)
          obtain ⟨r4, rfl, hk4⟩ := append_quote_eq_cons hk3 (by simp)
          obtain ⟨r5, rfl, rfl⟩ := append_quote_eq_cons hk4 (StrBody_ne_nil hbody)
          obtain ⟨rr, hrr⟩ := getu4_of_isHex r5 ha hb hc hd
          simp only [unquoteLoop, if_true, Nat.reduceEqDiff, or_self, if_false, ↓reduceIte, hrr,
            List.drop_succ_cons, List.drop_zero]
          have hl : r5.length ≤ (0x75 :: a :: b :: c1 :: d :: r5).length := by
            simp only [List.length_cons]; omega
          split_ifs with hs hdec
          · cases hg4 : getu4 r5 with
            | none => rw [hg4] at hdec; simp [utf16DecodeRune] at hdec
            | some r2 =>
              obtain ⟨a2, b2, c2, d2, s2, rfl⟩ := getu4_some_inv hg4
              simp only [List.drop_succ_cons, List.drop_zero]
              apply step
              · simp only [List.length_cons]; omega
              · rcases StrBody_cons_inv hbody with ⟨h1, _⟩ | ⟨_, _, h3, _⟩ |
                  ⟨_, e, k1, hk, hne, _, _⟩ | ⟨_, _, _, _, _, k1, hk, _, _, _, _, hb2⟩
                · cases h1
                · exact absurd rfl h3
                · injection hk with hk1 hk2
                  exact absurd hk1.symm hne
                · injection hk with _ hk
                  injection hk with _ hk
                  injection hk with _ hk
                  injection hk with _ hk
                  injection hk with _ hk
                  subst hk; exact hb2
          · exact step r5 _ hl hbody
          · exact step r5 _ hl hbody

theorem StrBody_interior {k : Str} (h : StrBody k) : ∃ t, k = t ++ [0x22] := by
  induction h with
  | close => exact ⟨[], rfl⟩
  | plain _ _ _ _ ih => obtain ⟨t, rfl⟩ := ih; exact ⟨_ :: t, rfl⟩
  | escape _ _ ih => obtain ⟨t, rfl⟩ := ih; exact ⟨_ :: _ :: t, rfl⟩
  | unicode _ _ _ _ _ ih => obtain ⟨t, rfl⟩ := ih; exact ⟨_ :: _ :: _ :: _ :: _ :: _ :: t, rfl⟩

theorem unquoteBytes_total {k : Str} (h : StrBody k) : ∃ s, unquoteBytes (0x22 :: k) = some s := by
  obtain ⟨t, rfl⟩ := StrBody_interior h
  have := unquoteBytes_quoted t
  simp only [List.singleton_append, List.cons_append, List.nil_append] at this
  rw [this]
  exact unquoteLoop_total t h _ le_rfl

theorem Gram_string_inv {d : Nat} {k : Str} {ms : List Member} (h : Gram .value d (0x22 :: k) ms) :
    StrBody k := by
  cases h with
  | string hk => exact hk
  | number hn =>
    obtain ⟨c, p, e, hc⟩ := IsNumber_head hn
    injection e with e1 e2; omega

/-- Every member the grammar lists has a string literal as key and a value of the
grammar, and its value is a contiguous part of the text. -/
theorem Gram_members_wf {part : Part} {d : Nat} {p : Str} {ms : List Member}
    (h : Gram part d p ms) :
    ∀ m ∈ ms, (∃ k, m.key = 0x22 :: k ∧ StrBody k) ∧ Gram .value d m.value [] ∧
      ∃ pre post, p = pre ++ (m.value ++ post) := by
  induction h with
  | @lastMember d k ws1 ws2 v ws3 hk _ _ _ hv _ =>
    intro m hm
    simp only [List.mem_singleton] at hm
    subst hm
    exact ⟨⟨_, rfl, hk⟩, hv, ⟨0x22 :: (k ++ (ws1 ++ 0x3A :: ws2)), ws3 ++ [0x7D], by simp⟩⟩
  | @consMember d k ws1 ws2 v ws3 ws4 p ms hk _ _ _ _ hv _ _ ih =>
    intro m hm
    rcases List.mem_cons.1 hm with rfl | hm
    · exact ⟨⟨_, rfl, hk⟩, hv,
        ⟨0x22 :: (k ++ (ws1 ++ 0x3A :: ws2)), ws3 ++ 0x2C :: (ws4 ++ p), by simp⟩⟩
    · obtain ⟨h1, h2, pre, post, hp⟩ := ih m hm
      refine ⟨h1, h2, ?_⟩
      rw [hp]
      exact ⟨0x22 :: (k ++ (ws1 ++ 0x3A :: (ws2 ++ (v ++ (ws3 ++ 0x2C :: (ws4 ++ pre)))))), post,
        by simp⟩
  | _ => nofun

theorem Gram_members_Member_wf {part : Part} {d : Nat} {p : Str} {ms : List Member}
    (h : Gram part d p ms) : ∀ m ∈ ms, m.wf := by
  intro m hm
  obtain ⟨h1, h2, _⟩ := Gram_members_wf h m hm
  refine ⟨h1, fun k hk => ?_⟩
  rw [hk] at h2
  exact Gram_string_inv h2

theorem saveError_ne_none (d : decodeState) (e : GoError) : (d.saveError e).savedError ≠ none := by
  unfold decodeState.saveError; split <;> simp_all

theorem saveError_keep (d : decodeState) (e : GoError) (h : d.savedError ≠ none) :
    d.saveError e = d := by
  unfold decodeState.saveError; split <;> simp_all

theorem saveError_env (d : decodeState) (e : GoError) : (d.saveError e).env = d.env := by
  unfold decodeState.saveError; split <;> rfl

theorem storeMethod_bad (d : decodeState) (item : Str) (hb : badMethodValue item) :
    storeMethod d item = some (d.saveError (fieldTypeError item)) := by
  unfold storeMethod
  split
  · rename_i heq; exact absurd heq hb.1
  · rename_i heq; exact absurd heq hb.2
  · rfl

theorem storeMethod_total (d : decodeState) (item : Str) (h : ∀ k, item = 0x22 :: k → StrBody k) :
    ∃ d1, storeMethod d item = some d1 ∧ d1.env.Body = d.env.Body ∧
      (d.savedError ≠ none → d1.savedError = d.savedError) ∧
      (badMethodValue item → d1.savedError ≠ none) ∧
      (¬ badMethodValue item → d1.savedError = d.savedError) := by
  by_cases hb : badMethodValue item
  · refine ⟨_, storeMethod_bad d item hb, ?_, ?_, fun _ => saveError_ne_none _ _,
      fun h => absurd hb h⟩
    · rw [saveError_env]
    · intro hne; rw [saveError_keep _ _ hne]
  · cases item with
    | nil => exact absurd ⟨by simp, by simp⟩ hb
    | cons c rest =>
      by_cases h22 : c = 0x22
      · subst h22
        obtain ⟨s, hs⟩ := unquoteBytes_total (h rest rfl)
        simp only [storeMethod, List.head?_cons, hs]
        exact ⟨_, rfl, rfl, fun _ => rfl, fun h => absurd h hb, fun _ => rfl⟩
      · by_cases h6e : c = 0x6E
        · subst h6e
          exact ⟨_, rfl, rfl, fun _ => rfl, fun h => absurd h hb, fun _ => rfl⟩
        · exact absurd ⟨by simpa using h22, by simpa using h6e⟩ hb

theorem Member.wf_unquote {m : Member} (h : m.wf) : ∃ s, unquoteBytes m.key = some s := by
  obtain ⟨⟨k, hk, hb⟩, _⟩ := h
  rw [hk]; exact unquoteBytes_total hb

theorem decodeMember_field (d : decodeState) (m : Member) (h : m.wf) :
    decodeMember d m =
      match m.field with
      | some .Method => storeMethod d m.value
      | some .Body => some (storeBody d m.value)
      | none => some d := by
  obtain ⟨s, hs⟩ := Member.wf_unquote h
  simp only [decodeMember, Member.field, hs, Option.some_bind] <;>
    rcases lookupField s with _ | (_ | _) <;> rfl

/-- The effect of one member on the decoder state. -/
theorem decodeMember_total (d : decodeState) (m : Member) (h : m.wf) :
    ∃ d1, decodeMember d m = some d1 ∧
      (m.field = none → d1 = d) ∧
      (m.field = some .Body → d1 = storeBody d m.value) ∧
      (m.field ≠ some .Body → d1.env.Body = d.env.Body) ∧
      (m.field ≠ some .Method → d1.savedError = d.savedError ∧ d1.env.Method = d.env.Method) ∧
      (d.savedError ≠ none → d1.savedError = d.savedError) ∧
      (m.field = some .Method → badMethodValue m.value → d1.savedError ≠ none) ∧
      (¬ (m.field = some .Method ∧ badMethodValue m.value) → d1.savedError = d.savedError) := by
  rw [decodeMember_field d m h]
  cases hf : m.field with
  | none => exact ⟨d, rfl, by simp⟩
  | some f =>
    cases f with
    | Body => exact ⟨_, rfl, by simp [storeBody]⟩
    | Method =>
      obtain ⟨d1, h1, h2, h3, h4, h5⟩ := storeMethod_total d m.value h.2
      refine ⟨d1, h1, by simp, by simp, fun _ => h2, by simp, h3, fun _ => h4, ?_⟩
      intro hn; exact h5 (fun hb => hn ⟨rfl, hb⟩)

theorem getLast?_cons_map {α β : Type} (f : α → β) (a : α) (l : List α) (b : β) :
    ((a :: l).getLast?.map f).getD b = (l.getLast?.map f).getD (f a) := by
  cases l with
  | nil => rfl
  | cons x xs =>
    rw [List.getLast?_cons_cons]
    cases h : (x :: xs).getLast? with
    | none => simp at h
    | some y => rfl

/-- The loop over the members of an object returns, and its effect on the
envelope and on the saved error is that of the members that select a field. -/
theorem decodeMembers_total (ms : List Member) (hwf : ∀ m ∈ ms, m.wf) (d : decodeState) :
    ∃ d1, decodeMembers d ms = some d1 ∧
      d1.env.Body = (((ms.filter (fun m => decide (m.field = some .Body))).getLast?).map
        Member.value).getD d.env.Body ∧
      ((∀ m ∈ ms, m.field ≠ some .Method) →
        d1.savedError = d.savedError ∧ d1.env.Method = d.env.Method) ∧
      (d.savedError ≠ none → d1.savedError = d.savedError) ∧
      (d.savedError = none →
        (d1.savedError ≠ none ↔ ∃ m ∈ ms, m.field = some .Method ∧ badMethodValue m.value)) := by
  induction ms generalizing d with
  | nil => exact ⟨d, rfl, rfl, fun _ => ⟨rfl, rfl⟩, fun _ => rfl, fun h => by simp [h]⟩
  | cons m ms ih =>
    obtain ⟨d1, e1, a1, a2, a3, a4, a5, a6, a7⟩ := decodeMember_total d m (hwf m (by simp))
    obtain ⟨d2, e2, b1, b2, b3, b4⟩ := ih (fun x hx => hwf x (by simp [hx])) d1
    refine ⟨d2, by simp only [decodeMembers, e1]; exact e2, ?_, ?_, ?_, ?_⟩
    · rw [b1]
      by_cases hb : m.field = some .Body
      · rw [List.filter_cons_of_pos (by simpa using hb), getLast?_cons_map, a2 hb]; rfl
      · rw [List.filter_cons_of_neg (by simpa using hb), a3 hb]
    · intro hno
      obtain ⟨c1, c2⟩ := a4 (hno m (by simp))
      obtain ⟨c3, c4⟩ := b2 (fun x hx => hno x (by simp [hx]))
      exact ⟨c3.trans c1, c4.trans c2⟩
    · intro hne
      have h1 := a5 hne
      rw [b3 (by rw [h1]; exact hne), h1]
    · intro hnone
      by_cases hbad : m.field = some .Method ∧ badMethodValue m.value
      · have h1 := a6 hbad.1 hbad.2
        rw [b3 h1]
        exact ⟨fun _ => ⟨m, by simp, hbad⟩, fun _ => h1⟩
      · have h1 := a7 hbad
        rw [b4 (h1.trans hnone)]
        constructor
        · rintro ⟨x, hx, hx2⟩; exact ⟨x, by simp [hx], hx2⟩
        · rintro ⟨x, hx, hx2⟩
          rcases List.mem_cons.1 hx with rfl | hx
          · exact absurd hx2 hbad
          · exact ⟨x, hx, hx2⟩

/-- Members that select no field do not take part in the decoding. -/
theorem decodeMembers_filter (ms : List Member) (hwf : ∀ m ∈ ms, m.wf) (d : decodeState) :
    decodeMembers d ms = decodeMembers d (ms.filter (fun m => m.field.isSome)) := by
  induction ms generalizing d with
  | nil => rfl
  | cons m ms ih =>
    have hm := hwf m (by simp)
    have ih1 := fun d => ih (fun x hx => hwf x (by simp [hx])) d
    cases hf : m.field with
    | none =>
      obtain ⟨d1, e1, a1, _⟩ := decodeMember_total d m hm
      rw [List.filter_cons_of_neg (by simp [hf])]
      simp only [decodeMembers, e1]
      rw [a1 hf]; exact ih1 d
    | some f =>
      rw [List.filter_cons_of_pos (by simp [hf])]
      simp only [decodeMembers]
      cases decodeMember d m with
      | none => rfl
      | some d1 => exact ih1 d1

theorem TopShape_members_wf {v : Str} {ms : List Member} (hs : TopShape v (.object ms)) :
    ∀ m ∈ ms, m.wf := by
  cases hs with
  | emptyObject _ => intro m hm; cases hm
  | object _ hg => exact Gram_members_Member_wf hg

/-- The decoding of a well-formed top-level value returns, and saves an error
exactly when the value does not fit the envelope. -/
theorem decodeTop_total {v : Str} {top : Top} (hs : TopShape v top) (d : decodeState)
    (hd : d.savedError = none) :
    ∃ d1, decodeTop d top = some d1 ∧ (d1.savedError ≠ none ↔ top.mismatch) := by
  cases top with
  | object ms =>
    obtain ⟨d1, e1, _, _, _, h4⟩ := decodeMembers_total ms (TopShape_members_wf hs) d
    exact ⟨d1, e1, h4 hd⟩
  | array item =>
    exact ⟨_, rfl, by simp [Top.mismatch, saveError_ne_none]⟩
  | literal item =>
    cases hs with
    | literal h7b h5b hg =>
      rename_i c v1
      simp only [decodeTop, List.head?_cons, Top.mismatch]
      by_cases h6e : c = 0x6E
      · subst h6e
        exact ⟨d, rfl, by simp [hd]⟩
      · by_cases h22 : c = 0x22
        · subst h22
          obtain ⟨s, hs⟩ := unquoteBytes_total (Gram_string_inv hg)
          simp only [hs]
          exact ⟨_, rfl, by simp [saveError_ne_none]⟩
        · refine ⟨d.saveError (topTypeError (c :: v1)), ?_, by simp [saveError_ne_none, h6e]⟩
          split
          · rename_i heq; injection heq with heq; exact absurd heq h6e
          · rename_i heq; injection heq with heq; exact absurd heq h22
          · rfl

theorem OpenEnvelope_read_failed (data : Str) (e : GoError) :
    OpenEnvelope ⟨data, some e⟩
      = some (none, some (.withStack (.withMessage e (lit "request read failed")))) := by
  simp [OpenEnvelope, ReadAll, Wrap]

theorem OpenEnvelope_syntax {data : Str} {msg : Str} (h : parseDocument data = .err msg) :
    OpenEnvelope ⟨data, none⟩
      = some (none, some (.withStack (.withMessage (.foreign msg)
          (lit "request unmarshal failed")))) := by
  simp [OpenEnvelope, ReadAll, Unmarshal, h, Wrap]

theorem OpenEnvelope_decoded {data : Str} {top : Top} {d : decodeState}
    (h : parseDocument data = .ok top) (hd : decodeTop ⟨⟨[], []⟩, none⟩ top = some d) :
    OpenEnvelope ⟨data, none⟩ =
      match d.savedError with
      | some e => some (none, some (.withStack (.withMessage e (lit "request unmarshal failed"))))
      | none => some (some d.env, none) := by
  simp only [OpenEnvelope, ReadAll, Unmarshal, h, hd]
  cases d.savedError <;> simp [Wrap]

/-- The outcome of `OpenEnvelope` on a JSON text read without error. -/
theorem OpenEnvelope_text {ws1 v ws2 : Str} {top : Top} (h1 : IsWs ws1) (h2 : IsWs ws2)
    (hs : TopShape v top) :
    ∃ d, decodeTop ⟨⟨[], []⟩, none⟩ top = some d ∧ (d.savedError ≠ none ↔ top.mismatch) ∧
      OpenEnvelope ⟨ws1 ++ (v ++ ws2), none⟩ =
        match d.savedError with
        | some e =>
          some (none, some (.withStack (.withMessage e (lit "request unmarshal failed"))))
        | none => some (some d.env, none) := by
  obtain ⟨d, e1, e2⟩ := decodeTop_total hs ⟨⟨[], []⟩, none⟩ rfl
  exact ⟨d, e1, e2, OpenEnvelope_decoded (parseDocument_complete h1 h2 hs) e1⟩

/-- The function `OpenEnvelope` returns on every reader, with exactly one of its
two results `nil`. -/
theorem OpenEnvelope_returns (r : Reader) :
    (∃ env, OpenEnvelope r = some (some env, none)) ∨ (∃ e, OpenEnvelope r = some (none, some e)) := by
  obtain ⟨data, err⟩ := r
  cases err with
  | some e => exact .inr ⟨_, OpenEnvelope_read_failed data e⟩
  | none =>
    cases hp : parseDocument data with
    | err msg => exact .inr ⟨_, OpenEnvelope_syntax hp⟩
    | fuel => exact absurd hp (parseDocument_ne_fuel data)
    | ok top =>
      obtain ⟨ws1, v, ws2, h1, h2, rfl, hs⟩ := parseDocument_sound hp
      obtain ⟨d, _, _, e3⟩ := OpenEnvelope_text h1 h2 hs
      rw [e3]
      cases d.savedError with
      | none => exact .inl ⟨_, rfl⟩
      | some e => exact .inr ⟨_, rfl⟩

/-- A text that is well formed at some depth is well formed at every smaller one. -/
theorem Gram_depth_mono {part : Part} {d : Nat} {p : Str} {ms : List Member}
    (h : Gram part d p ms) : ∀ d1, d1 ≤ d → Gram part d1 p ms := by
  induction h with
  | string hk => intro d1 _; exact .string hk
  | number hn => intro d1 _; exact .number hn
  | litTrue => intro d1 _; exact .litTrue
  | litFalse => intro d1 _; exact .litFalse
  | litNull => intro d1 _; exact .litNull
  | emptyObject hd hws => intro d1 hle; exact .emptyObject (by omega) hws
  | object hd hws _ ih => intro d1 hle; exact .object (by omega) hws (ih _ (by omega))
  | emptyArray hd hws => intro d1 hle; exact .emptyArray (by omega) hws
  | array hd hws _ _ ih1 ih2 =>
    intro d1 hle; exact .array (by omega) hws (ih1 _ (by omega)) (ih2 _ (by omega))
  | lastMember hk h1 h2 h3 _ ih => intro d1 hle; exact .lastMember hk h1 h2 h3 (ih _ hle)
  | consMember hk h1 h2 h3 h4 _ _ ih1 ih2 =>
    intro d1 hle; exact .consMember hk h1 h2 h3 h4 (ih1 _ hle) (ih2 _ hle)
  | endElements hws => intro d1 _; exact .endElements hws
  | consElement h1 h2 _ _ ih1 ih2 => intro d1 hle; exact .consElement h1 h2 (ih1 _ hle) (ih2 _ hle)

theorem IsWs_nil : IsWs [] := by intro c hc; cases hc

theorem Gram_JsonText {d : Nat} {v : Str} (h : Gram .value d v []) : JsonText v :=
  ⟨[], v, [], IsWs_nil, IsWs_nil, Gram_depth_mono h 0 (Nat.zero_le d), by simp⟩

theorem not_JsonText_of_err {data : Str} {msg : Str} (h : parseDocument data = .err msg) :
    ¬ JsonText data := by
  intro hj
  obtain ⟨top, ht⟩ := (parseDocument_ok_iff data).2 hj
  rw [h] at ht; cases ht

theorem JsonText_of_ok {data : Str} {top : Top} (h : parseDocument data = .ok top) :
    JsonText data := (parseDocument_ok_iff data).1 ⟨top, h⟩

/-- The shape of a text without space around it, from the run of the scanner. -/
theorem TopShape_of_parse {v : Str} {top : Top} (h : parseDocument v = .ok top)
    (hh : skipSpace v = v) (hl : ∀ c, v.getLast? = some c → isSpace c = false) :
    TopShape v top := by
  obtain ⟨ws1, v1, ws2, h1, h2, rfl, hs⟩ := parseDocument_sound h
  obtain ⟨c, v2, rfl, hc⟩ := Gram_value_head (TopShape_gram hs)
  obtain ⟨hc1, _, _⟩ := value_head_facts hc
  have e1 : ws1 = [] := by
    simp only [List.cons_append] at hh
    rw [skipSpace_ws_cons _ h1 hc1] at hh
    have := congrArg List.length hh
    simp only [List.length_append, List.length_cons] at this
    exact List.eq_nil_of_length_eq_zero (by omega)
  subst e1
  have e2 : ws2 = [] := by
    by_contra hne
    have hlast := hl (ws2.getLast hne) (by
      rw [List.nil_append, List.getLast?_append_of_ne_nil _ hne, List.getLast?_eq_getLast _ hne])
    have := (isSpace_iff _).2 (h2 _ (List.getLast_mem hne))
    rw [this] at hlast; cases hlast
  subst e2
  simpa using hs

end ApiEnvelope

namespace ApiEnvelope

/-! ## Compaction of a valid text -/

theorem compactLoop_fuel (f g : Nat) (i e : Bool) (s : Str) (hf : s.length ≤ f)
    (hg : s.length ≤ g) : compactLoop f i e s = compactLoop g i e s := by
  induction f generalizing g i e s with
  | zero =>
    cases s with
    | nil => cases g <;> simp [compactLoop]
    | cons b rest => simp at hf
  | succ f ih =>
    cases s with
    | nil => cases g <;> simp [compactLoop]
    | cons c rest =>
      cases g with
      | zero => simp at hg
      | succ g =>
        simp only [List.length_cons, Nat.add_le_add_iff_right] at hf hg
        have key : ∀ i e, compactLoop f i e rest = compactLoop g i e rest :=
          fun i e => ih g i e rest hf hg
        cases rest with
        | nil => simp only [compactLoop, key]
        | cons b1 r1 =>
          cases r1 with
          | nil => simp only [compactLoop, key]
          | cons b2 rest2 =>
            simp only [List.length_cons] at hf hg
            have key2 : ∀ i e, compactLoop f i e rest2 = compactLoop g i e rest2 :=
              fun i e => ih g i e rest2 (by omega) (by omega)
            simp only [compactLoop, key, key2]

theorem compactLoop_kept (f : Nat) (i e : Bool) (c : Nat) (rest : Str) (h : kept c) :
    compactLoop (f + 1) i e (c :: rest) =
      if i = false ∧ isSpace c = true then
        compactLoop f (if e then i else if c = 0x22 then !i else i)
          (i && !e && decide (c = 0x5C)) rest
      else c :: compactLoop f (if e then i else if c = 0x22 then !i else i)
          (i && !e && decide (c = 0x5C)) rest := by
  obtain ⟨h1, h2, h3, h4⟩ := h
  have hs : ¬ (c = 0x3C ∨ c = 0x3E ∨ c = 0x26) := by omega
  cases rest with
  | nil => simp only [compactLoop, if_neg hs]
  | cons b1 r1 =>
    cases r1 with
    | nil => simp only [compactLoop, if_neg hs]
    | cons b2 rest2 =>
      simp only [compactLoop, if_neg hs]
      rw [if_neg (by intro hh; exact h4 hh.1)]

theorem compactLoop_in (f c : Nat) (rest : Str) (h : kept c) (h1 : c ≠ 0x22) (h2 : c ≠ 0x5C) :
    compactLoop (f + 1) true false (c :: rest) = c :: compactLoop f true false rest := by
  rw [compactLoop_kept _ _ _ _ _ h]
  simp [h1, h2]

theorem compactLoop_in_quote (f : Nat) (rest : Str) :
    compactLoop (f + 1) true false (0x22 :: rest) = 0x22 :: compactLoop f false false rest := by
  rw [compactLoop_kept _ _ _ _ _ (by simp [kept])]
  simp

theorem compactLoop_in_back (f e : Nat) (rest : Str) (h : kept e) :
    compactLoop (f + 1 + 1) true false (0x5C :: e :: rest)
      = 0x5C :: e :: compactLoop f true false rest := by
  rw [compactLoop_kept _ _ _ _ _ (by simp [kept])]
  simp only [Bool.true_eq_false, false_and, if_false, Bool.false_eq_true, Nat.reduceEqDiff,
    Bool.not_false, Bool.and_self, decide_True]
  rw [compactLoop_kept _ _ _ _ _ h]
  simp

theorem compactLoop_in_special (f c : Nat) (rest : Str) (h : c = 0x3C ∨ c = 0x3E ∨ c = 0x26) :
    compactLoop (f + 1) true false (c :: rest)
      = [0x5C, 0x75, 0x30, 0x30, hex (c / 16), hex (c % 16)] ++ compactLoop f true false rest := by
  have h1 : c ≠ 0x22 := by omega
  have h2 : c ≠ 0x5C := by omega
  simp only [compactLoop, if_pos h]
  simp [h1, h2]

theorem compactLoop_in_line (f b2 : Nat) (rest : Str) (h : b2 = 0xA8 ∨ b2 = 0xA9) :
    compactLoop (f + 1) true false (0xE2 :: 0x80 :: b2 :: rest)
      = [0x5C, 0x75, 0x32, 0x30, 0x32, hex (b2 % 16)] ++ compactLoop f true false rest := by
  simp only [compactLoop]
  rw [if_neg (by omega), if_pos ⟨trivial, trivial, h⟩]

theorem compactLoop_in_E2 (f : Nat) (rest : Str)
    (h : ¬ ∃ b2 rest2, rest = 0x80 :: b2 :: rest2 ∧ (b2 = 0xA8 ∨ b2 = 0xA9)) :
    compactLoop (f + 1) true false (0xE2 :: rest) = 0xE2 :: compactLoop f true false rest := by
  cases rest with
  | nil => simp [compactLoop]
  | cons b1 r1 =>
    cases r1 with
    | nil => simp [compactLoop]
    | cons b2 rest2 =>
      simp only [compactLoop]
      rw [if_neg (by omega), if_neg, if_neg (by simp)]
      · simp
      · rintro ⟨_, rfl, hb⟩
        exact h ⟨b2, rest2, rfl, hb⟩

theorem compactLoop_out (f c : Nat) (rest : Str) (h : kept c) (h1 : c ≠ 0x22)
    (h2 : isSpace c = false) :
    compactLoop (f + 1) false false (c :: rest) = c :: compactLoop f false false rest := by
  rw [compactLoop_kept _ _ _ _ _ h]
  simp [h1, h2]

theorem compactLoop_out_quote (f : Nat) (rest : Str) :
    compactLoop (f + 1) false false (0x22 :: rest) = 0x22 :: compactLoop f true false rest := by
  rw [compactLoop_kept _ _ _ _ _ (by simp [kept])]
  simp [isSpace]

theorem compactLoop_out_space (f c : Nat) (rest : Str) (h : isSpace c = true) :
    compactLoop (f + 1) false false (c :: rest) = compactLoop f false false rest := by
  have hc := (isSpace_iff c).1 h
  rw [compactLoop_kept _ _ _ _ _ (by simp only [kept]; omega)]
  have h1 : c ≠ 0x22 := by omega
  simp [h, h1]

theorem isHex_kept {a : Nat} (h : isHex a = true) : kept a ∧ a ≠ 0x22 ∧ a ≠ 0x5C := by
  unfold isHex at h
  simp only [decide_eq_true_eq] at h
  simp only [kept]; omega

theorem StrBody_append_head {k t rest2 : Str} {b1 b2 : Nat} (hk : StrBody k) (h1 : 0x80 ≤ b1)
    (h : k ++ t = b1 :: b2 :: rest2) : ∃ r, k = b1 :: b2 :: r := by
  cases k with
  | nil => exact absurd rfl (StrBody_ne_nil hk)
  | cons x k1 =>
    simp only [List.cons_append, List.cons.injEq] at h
    obtain ⟨rfl, h⟩ := h
    rcases StrBody_cons_inv hk with ⟨hx, _⟩ | ⟨_, _, _, h4⟩ | ⟨hx, _⟩ | ⟨hx, _⟩
    · omega
    · cases k1 with
      | nil => exact absurd rfl (StrBody_ne_nil h4)
      | cons y r =>
        simp only [List.cons_append, List.cons.injEq] at h
        exact ⟨r, by rw [h.1]⟩
    · omega
    · omega

/-- Compaction of the rest of a string: a string body again, and the loop goes on
outside the string after it. -/
theorem compact_StrBody (k : Str) (hb : StrBody k) :
    ∃ ck, StrBody ck ∧ (∃ t ct, k = t ++ [0x22] ∧ ck = ct ++ [0x22] ∧ StrCompacts t ct) ∧
      ∀ t f, (k ++ t).length ≤ f →
        compactLoop f true false (k ++ t) = ck ++ compactLoop t.length false false t := by
  suffices H : ∀ n (k : Str), k.length = n → StrBody k →
      ∃ ck, StrBody ck ∧ (∃ t ct, k = t ++ [0x22] ∧ ck = ct ++ [0x22] ∧ StrCompacts t ct) ∧
        ∀ t f, (k ++ t).length ≤ f →
          compactLoop f true false (k ++ t) = ck ++ compactLoop t.length false false t from
    H _ k rfl hb
  intro n
  induction n using Nat.strong_induction_on with
  | _ n ih =>
    intro k hn hb
    cases k with
    | nil => exact absurd rfl (StrBody_ne_nil hb)
    | cons c k1 =>
      simp only [List.length_cons] at hn
      rcases StrBody_cons_inv hb with ⟨rfl, rfl⟩ | ⟨h1, h2, h3, h4⟩ |
        ⟨rfl, e, k2, rfl, hne, he, hb2⟩ | ⟨rfl, a, b, c1, d, k2, rfl, ha, hb1, hc, hd, hb2⟩
      · refine ⟨[0x22], .close, ⟨[], [], rfl, rfl, .nil⟩, fun t f hf => ?_⟩
        obtain ⟨g, rfl⟩ : ∃ g, f = g + 1 := ⟨f - 1, by simp at hf; omega⟩
        simp only [List.cons_append, List.nil_append, List.length_cons] at hf ⊢
        rw [compactLoop_in_quote, compactLoop_fuel g t.length _ _ t (by omega) le_rfl]
      · by_cases hsp : c = 0x3C ∨ c = 0x3E ∨ c = 0x26
        · obtain ⟨ck, hck, ⟨t0, ct0, e1, e2, hsc⟩, hrun⟩ := ih k1.length (by omega) k1 rfl h4
          refine ⟨[0x5C, 0x75, 0x30, 0x30, hex (c / 16), hex (c % 16)] ++ ck,
            .unicode (by decide) (by decide) (isHex_hex _ (by omega)) (isHex_hex _ (by omega)) hck,
            ⟨c :: t0, 0x5C :: 0x75 :: 0x30 :: 0x30 :: hex (c / 16) :: hex (c % 16) :: ct0,
              by rw [e1]; rfl, by rw [e2]; rfl, .special hsp hsc⟩,
            fun t f hf => ?_⟩
          obtain ⟨g, rfl⟩ : ∃ g, f = g + 1 := ⟨f - 1, by simp at hf; omega⟩
          simp only [List.cons_append, List.length_cons] at hf
          rw [List.cons_append, compactLoop_in_special _ _ _ hsp, hrun t g (by omega),
            List.append_assoc]
        · by_cases hls : c = 0xE2 ∧ ∃ b2 r, k1 = 0x80 :: b2 :: r ∧ (b2 = 0xA8 ∨ b2 = 0xA9)
          · obtain ⟨rfl, b2, r, rfl, hb2⟩ := hls
            have hr : StrBody r :=
              @StrBody_high [0x80, b2] r (by intro x hx; simp at hx; omega) h4
            obtain ⟨ck, hck, ⟨t0, ct0, e1, e2, hsc⟩, hrun⟩ := ih r.length (by simp at hn; omega) r rfl hr
            refine ⟨[0x5C, 0x75, 0x32, 0x30, 0x32, hex (b2 % 16)] ++ ck,
              .unicode (by decide) (by decide) (by decide) (isHex_hex _ (by omega)) hck,
              ⟨0xE2 :: 0x80 :: b2 :: t0, 0x5C :: 0x75 :: 0x32 :: 0x30 :: 0x32 :: hex (b2 % 16) :: ct0,
                by rw [e1]; rfl, by rw [e2]; rfl, .line hb2 hsc⟩,
              fun t f hf => ?_⟩
            obtain ⟨g, rfl⟩ : ∃ g, f = g + 1 := ⟨f - 1, by simp at hf; omega⟩
            simp only [List.cons_append, List.length_cons] at hf
            rw [List.cons_append, List.cons_append, List.cons_append,
              compactLoop_in_line _ _ _ hb2, hrun t g (by omega), List.append_assoc]
          · obtain ⟨ck, hck, ⟨t0, ct0, e1, e2, hsc⟩, hrun⟩ := ih k1.length (by omega) k1 rfl h4
            refine ⟨c :: ck, .plain h1 h2 h3 hck,
              ⟨c :: t0, c :: ct0, by rw [e1]; rfl, by rw [e2]; rfl,
                .keep (by omega) (by omega) (by omega) h3 (by
                  rintro ⟨hc, b2, r, hr, hb⟩
                  exact hls ⟨hc, b2, r ++ [0x22], by rw [e1, hr]; rfl, hb⟩) hsc⟩,
              fun t f hf => ?_⟩
            obtain ⟨g, rfl⟩ : ∃ g, f = g + 1 := ⟨f - 1, by simp at hf; omega⟩
            simp only [List.cons_append, List.length_cons] at hf
            rw [List.cons_append]
            by_cases hE2 : c = 0xE2
            · subst hE2
              rw [compactLoop_in_E2, hrun t g (by omega)]
              · rfl
              · rintro ⟨b2, rest2, heq, hb2⟩
                obtain ⟨r, hr⟩ := StrBody_append_head h4 (by omega) heq
                rw [hr] at heq
                simp only [List.cons_append, List.cons.injEq] at heq
                exact hls ⟨rfl, b2, r, hr, hb2⟩
            · rw [compactLoop_in _ _ _ (by simp only [kept]; omega) h2 h3, hrun t g (by omega)]
              rfl
      · obtain ⟨ck, hck, ⟨t0, ct0, e1, e2, hsc⟩, hrun⟩ := ih k2.length (by simp at hn; omega) k2 rfl hb2
        refine ⟨0x5C :: e :: ck, .escape he hck,
          ⟨0x5C :: e :: t0, 0x5C :: e :: ct0, by rw [e1]; rfl, by rw [e2]; rfl, .escape he hsc⟩,
          fun t f hf => ?_⟩
        obtain ⟨g, rfl⟩ : ∃ g, f = g + 1 + 1 := ⟨f - 2, by simp at hf; omega⟩
        simp only [List.cons_append, List.length_cons] at hf
        rw [List.cons_append, List.cons_append,
          compactLoop_in_back _ _ _ (by simp only [kept]; omega), hrun t g (by omega)]
        rfl
      · obtain ⟨ck, hck, ⟨t0, ct0, e1, e2, hsc⟩, hrun⟩ := ih k2.length (by simp at hn; omega) k2 rfl hb2
        refine ⟨0x5C :: 0x75 :: a :: b :: c1 :: d :: ck, .unicode ha hb1 hc hd hck,
          ⟨0x5C :: 0x75 :: a :: b :: c1 :: d :: t0, 0x5C :: 0x75 :: a :: b :: c1 :: d :: ct0,
            by rw [e1]; rfl, by rw [e2]; rfl, .unicode hsc⟩,
          fun t f hf => ?_⟩
        obtain ⟨g, rfl⟩ : ∃ g, f = g + 1 + 1 + 1 + 1 + 1 + 1 := ⟨f - 6, by simp at hf; omega⟩
        simp only [List.cons_append, List.length_cons] at hf
        obtain ⟨a1, a2, a3⟩ := isHex_kept ha
        obtain ⟨b1, b2, b3⟩ := isHex_kept hb1
        obtain ⟨c2, c3, c4⟩ := isHex_kept hc
        obtain ⟨d1, d2, d3⟩ := isHex_kept hd
        simp only [List.cons_append]
        rw [compactLoop_in_back _ _ _ (by simp [kept]), compactLoop_in _ _ _ a1 a2 a3,
          compactLoop_in _ _ _ b1 b2 b3, compactLoop_in _ _ _ c2 c3 c4,
          compactLoop_in _ _ _ d1 d2 d3, hrun t g (by omega)]

theorem copied_of_bounds {c : Nat}
    (h : c = 0x2D ∨ c = 0x2B ∨ c = 0x2E ∨ c = 0x45 ∨ c = 0x65 ∨ (0x30 ≤ c ∧ c ≤ 0x39) ∨
      c = 0x7B ∨ c = 0x7D ∨ c = 0x5B ∨ c = 0x5D ∨ c = 0x3A ∨ c = 0x2C ∨
      (0x61 ≤ c ∧ c ≤ 0x7A)) : copied c := by
  refine ⟨by simp only [kept]; omega, by omega, ?_⟩
  simp only [isSpace, decide_eq_false_iff_not]; omega

theorem IsNumber_copied {s : Str} (h : IsNumber s) : ∀ c ∈ s, copied c := by
  obtain ⟨sign, int, frac, exp, rfl, hs, hi, hf, he⟩ := h
  intro c hc
  apply copied_of_bounds
  simp only [List.mem_append] at hc
  rcases hc with ((hc | hc) | hc) | hc
  · rcases hs with rfl | rfl
    · cases hc
    · simp at hc; omega
  · rcases hi with rfl | ⟨c0, ds, rfl, h1, h2, hd⟩
    · simp at hc; omega
    · rcases List.mem_cons.1 hc with rfl | hc
      · omega
      · have := hd c hc; omega
  · rcases hf with rfl | ⟨ds, rfl, _, hd⟩
    · cases hc
    · rcases List.mem_cons.1 hc with rfl | hc
      · omega
      · have := hd c hc; omega
  · rcases he with rfl | ⟨e, sgn, ds, rfl, he, hsgn, _, hd⟩
    · cases hc
    · rcases List.mem_cons.1 hc with rfl | hc
      · omega
      · rcases List.mem_append.1 hc with hc | hc
        · rcases hsgn with rfl | rfl | rfl
          · cases hc
          · simp at hc; omega
          · simp at hc; omega
        · have := hd c hc; omega

theorem compactText_copied (c : Nat) (t : Str) (h : copied c) :
    compactText (c :: t) = c :: compactText t := by
  unfold compactText
  exact compactLoop_out _ _ _ h.1 h.2.1 h.2.2

theorem compactText_copies (s t : Str) (h : ∀ c ∈ s, copied c) :
    compactText (s ++ t) = s ++ compactText t := by
  induction s with
  | nil => rfl
  | cons c s ih =>
    rw [List.cons_append, compactText_copied _ _ (h c (by simp)),
      ih (fun x hx => h x (by simp [hx]))]
    rfl

theorem compactText_ws (ws t : Str) (h : IsWs ws) : compactText (ws ++ t) = compactText t := by
  induction ws with
  | nil => rfl
  | cons c ws ih =>
    have hc := (isSpace_iff c).2 (by have := h c (by simp); omega)
    rw [List.cons_append]
    unfold compactText at ih ⊢
    rw [List.length_cons, compactLoop_out_space _ _ _ hc]
    exact ih (fun x hx => h x (by simp [hx]))

theorem compactText_string {k ck : Str}
    (hrun : ∀ t f, (k ++ t).length ≤ f →
      compactLoop f true false (k ++ t) = ck ++ compactLoop t.length false false t) (t : Str) :
    compactText (0x22 :: (k ++ t)) = 0x22 :: (ck ++ compactText t) := by
  unfold compactText
  rw [List.length_cons, compactLoop_out_quote, hrun t _ le_rfl]

theorem Gram_nil {part : Part} {d : Nat} {p : Str} {ms : List Member} (h : Gram part d p ms)
    (hp : part ≠ .members) : ms = [] := by
  cases h <;> first | rfl | exact absurd rfl hp

/-- Compaction maps every part of a JSON text to a part of the same kind at the
same depth, and goes on after it as on a text of its own. -/
theorem compact_Gram {part : Part} {d : Nat} {p : Str} {ms : List Member}
    (h : Gram part d p ms) :
    ∃ cp ms1, Gram part d cp ms1 ∧ (part ≠ .members → ms1 = []) ∧
      ∀ t, compactText (p ++ t) = cp ++ compactText t := by
  have cop : ∀ (c : Nat) (t : Str),
      (c = 0x7B ∨ c = 0x7D ∨ c = 0x5B ∨ c = 0x5D ∨ c = 0x3A ∨ c = 0x2C) →
      compactText (c :: t) = c :: compactText t :=
    fun c t hc => compactText_copied c t (copied_of_bounds (by omega))
  induction h with
  | @string d k hk =>
    obtain ⟨ck, hck, _, hrun⟩ := compact_StrBody k hk
    exact ⟨0x22 :: ck, [], .string hck, fun _ => rfl, fun t => by
      rw [List.cons_append, compactText_string hrun]; rfl⟩
  | @number d s hn =>
    exact ⟨s, [], .number hn, fun _ => rfl, fun t => compactText_copies s t (IsNumber_copied hn)⟩
  | litTrue =>
    exact ⟨_, [], .litTrue, fun _ => rfl, fun t => compactText_copies _ t (by
      intro c hc; apply copied_of_bounds; simp at hc; omega)⟩
  | litFalse =>
    exact ⟨_, [], .litFalse, fun _ => rfl, fun t => compactText_copies _ t (by
      intro c hc; apply copied_of_bounds; simp at hc; omega)⟩
  | litNull =>
    exact ⟨_, [], .litNull, fun _ => rfl, fun t => compactText_copies _ t (by
      intro c hc; apply copied_of_bounds; simp at hc; omega)⟩
  | @emptyObject d ws hd hws =>
    refine ⟨0x7B :: ([] ++ [0x7D]), [], .emptyObject hd IsWs_nil, fun _ => rfl, fun t => ?_⟩
    simp only [List.cons_append, List.append_assoc, List.nil_append, List.singleton_append]
    rw [cop _ _ (by omega), compactText_ws _ _ hws, cop _ _ (by omega)]
  | @object d ws p ms hd hws hg ih =>
    obtain ⟨cp, ms1, g, _, run⟩ := ih
    refine ⟨0x7B :: ([] ++ cp), [], .object hd IsWs_nil g, fun _ => rfl, fun t => ?_⟩
    simp only [List.cons_append, List.append_assoc, List.nil_append]
    rw [cop _ _ (by omega), compactText_ws _ _ hws, run]
  | @emptyArray d ws hd hws =>
    refine ⟨0x5B :: ([] ++ [0x5D]), [], .emptyArray hd IsWs_nil, fun _ => rfl, fun t => ?_⟩
    simp only [List.cons_append, List.append_assoc, List.nil_append, List.singleton_append]
    rw [cop _ _ (by omega), compactText_ws _ _ hws, cop _ _ (by omega)]
  | @array d ws v p hd hws hv hp ih1 ih2 =>
    obtain ⟨cv, m1, g1, n1, run1⟩ := ih1
    obtain ⟨cp, m2, g2, n2, run2⟩ := ih2
    rw [n1 (by decide)] at g1
    rw [n2 (by decide)] at g2
    refine ⟨0x5B :: ([] ++ (cv ++ cp)), [], .array hd IsWs_nil g1 g2, fun _ => rfl, fun t => ?_⟩
    simp only [List.cons_append, List.append_assoc, List.nil_append]
    rw [cop _ _ (by omega), compactText_ws _ _ hws, run1, run2]
  | @lastMember d k ws1 ws2 v ws3 hk h1 h2 h3 hv ih =>
    obtain ⟨ck, hck, _, hrun⟩ := compact_StrBody k hk
    obtain ⟨cv, m1, g1, n1, run1⟩ := ih
    rw [n1 (by decide)] at g1
    refine ⟨0x22 :: (ck ++ ([] ++ 0x3A :: ([] ++ (cv ++ ([] ++ [0x7D]))))), _,
      .lastMember hck IsWs_nil IsWs_nil IsWs_nil g1, fun hne => absurd rfl hne, fun t => ?_⟩
    simp only [List.cons_append, List.append_assoc, List.nil_append, List.singleton_append]
    rw [compactText_string hrun, compactText_ws _ _ h1, cop _ _ (by omega),
      compactText_ws _ _ h2, run1, compactText_ws _ _ h3, cop _ _ (by omega)]
  | @consMember d k ws1 ws2 v ws3 ws4 p ms hk h1 h2 h3 h4 hv hp ih1 ih2 =>
    obtain ⟨ck, hck, _, hrun⟩ := compact_StrBody k hk
    obtain ⟨cv, m1, g1, n1, run1⟩ := ih1
    obtain ⟨cp, m2, g2, n2, run2⟩ := ih2
    rw [n1 (by decide)] at g1
    refine ⟨0x22 :: (ck ++ ([] ++ 0x3A :: ([] ++ (cv ++ ([] ++ 0x2C :: ([] ++ cp)))))), _,
      .consMember hck IsWs_nil IsWs_nil IsWs_nil IsWs_nil g1 g2, fun hne => absurd rfl hne,
      fun t => ?_⟩
    simp only [List.cons_append, List.append_assoc, List.nil_append, List.singleton_append]
    rw [compactText_string hrun, compactText_ws _ _ h1, cop _ _ (by omega),
      compactText_ws _ _ h2, run1, compactText_ws _ _ h3, cop _ _ (by omega),
      compactText_ws _ _ h4, run2]
  | @endElements d ws hws =>
    refine ⟨[] ++ [0x5D], [], .endElements IsWs_nil, fun _ => rfl, fun t => ?_⟩
    simp only [List.cons_append, List.append_assoc, List.nil_append, List.singleton_append]
    rw [compactText_ws _ _ hws, cop _ _ (by omega)]
  | @consElement d ws1 ws2 v p h1 h2 hv hp ih1 ih2 =>
    obtain ⟨cv, m1, g1, n1, run1⟩ := ih1
    obtain ⟨cp, m2, g2, n2, run2⟩ := ih2
    rw [n1 (by decide)] at g1
    rw [n2 (by decide)] at g2
    refine ⟨[] ++ 0x2C :: ([] ++ (cv ++ cp)), [], .consElement IsWs_nil IsWs_nil g1 g2,
      fun _ => rfl, fun t => ?_⟩
    simp only [List.cons_append, List.append_assoc, List.nil_append]
    rw [compactText_ws _ _ h1, cop _ _ (by omega), compactText_ws _ _ h2, run1, run2]

theorem compactText_nil : compactText [] = [] := rfl

/-- The compacted form of a value is a value at the same depth. -/
theorem compact_value {d : Nat} {v : Str} (h : Gram .value d v []) :
    Gram .value d (compactText v) [] := by
  obtain ⟨cv, m1, g1, n1, run1⟩ := compact_Gram h
  rw [n1 (by decide)] at g1
  have := run1 []
  rw [List.append_nil, compactText_nil, List.append_nil] at this
  rw [this]; exact g1

/-- A text without space and without bytes to escape is its own compacted form. -/
theorem compactLoop_id (s : Str) (h : ∀ c ∈ s, kept c ∧ isSpace c = false) (f : Nat) (i e : Bool) :
    compactLoop f i e s = s.take f := by
  induction s generalizing f i e with
  | nil => cases f <;> rfl
  | cons c s ih =>
    cases f with
    | zero => rfl
    | succ f =>
      obtain ⟨h1, h2⟩ := h c (by simp)
      rw [compactLoop_kept _ _ _ _ _ h1, if_neg (by simp [h2]), ih (fun x hx => h x (by simp [hx]))]
      rfl

theorem compactText_id (s : Str) (h : ∀ c ∈ s, kept c ∧ isSpace c = false) : compactText s = s := by
  unfold compactText
  rw [compactLoop_id s h, List.take_length]

theorem StrBody_of_scan {s : Str} (h : scanString .inString s = .ok []) : StrBody s := by
  obtain ⟨k, hk, hb⟩ := scan_StrBody s [] h
  rw [List.append_nil] at hk
  rw [hk]; exact hb

theorem Gram_of_scan {d : Nat} {s : Str} (f : Nat) (h : scanValue f d s = .ok []) :
    Gram .value d s [] := by
  obtain ⟨p, hp, hg⟩ := (scan_sound f).1 d s [] h
  rw [List.append_nil] at hp
  rw [hp]; exact hg

theorem StrBody_appendString (m : Str) : StrBody (appendStringLoop m.length m ++ [0x22]) :=
  StrBody_of_scan (by rw [scanString_appendStringLoop]; rfl)

theorem appendString_nil (m : Str) :
    appendString [] m = 0x22 :: (appendStringLoop m.length m ++ [0x22]) := by
  simp [appendString]

/-- The text `json.Marshal` writes for an envelope is an object with the members
`method` and `body`. -/
theorem TopShape_envelope (m cb : Str) (hb : Gram .value 1 cb []) :
    TopShape (lit "\x7b\"method\":" ++ appendString [] m ++ lit ",\"body\":" ++ cb ++ lit "\x7d")
      (.object [⟨lit "\"method\"", appendString [] m⟩, ⟨lit "\"body\"", cb⟩]) := by
  have e1 : lit "\x7b\"method\":" = 0x7B :: 0x22 :: (lit "method\"" ++ [0x3A]) := by decide
  have e2 : lit ",\"body\":" = 0x2C :: 0x22 :: (lit "body\"" ++ [0x3A]) := by decide
  have e3 : lit "\x7d" = [0x7D] := by decide
  have e4 : lit "\"method\"" = 0x22 :: lit "method\"" := by decide
  have e5 : lit "\"body\"" = 0x22 :: lit "body\"" := by decide
  have k1 : StrBody (lit "method\"") := StrBody_of_scan (by decide)
  have k2 : StrBody (lit "body\"") := StrBody_of_scan (by decide)
  have g1 : Gram .value 1 (appendString [] m) [] := by
    rw [appendString_nil]; exact .string (StrBody_appendString m)
  have hs := TopShape.object IsWs_nil
    (Gram.consMember k1 IsWs_nil IsWs_nil IsWs_nil IsWs_nil g1
      (Gram.lastMember k2 IsWs_nil IsWs_nil IsWs_nil hb))
  rw [e1, e2, e3, e4, e5]
  simpa only [List.cons_append, List.append_assoc, List.nil_append, List.singleton_append]
    using hs

theorem decodeTop_envelope (m cb : Str) (hm : Valid m = true) :
    decodeTop ⟨⟨[], []⟩, none⟩
        (.object [⟨lit "\"method\"", appendString [] m⟩, ⟨lit "\"body\"", cb⟩])
      = some ⟨⟨m, cb⟩, none⟩ := by
  have u1 : unquoteBytes (lit "\"method\"") = some (lit "method") := by decide
  have u2 : unquoteBytes (lit "\"body\"") = some (lit "body") := by decide
  have f1 : lookupField (lit "method") = some .Method := by decide
  have f2 : lookupField (lit "body") = some .Body := by decide
  have hq : unquoteBytes (appendString [] m) = some m := by
    rw [unquoteBytes_appendString, toValidUTF8_of_Valid m hm]
  have hh : (appendString [] m).head? = some 0x22 := by rw [appendString_nil]; rfl
  simp only [decodeTop, decodeMembers, decodeMember, u1, u2, f1, f2, storeMethod, hh, hq,
    storeBody]

theorem MarshalEnvelope_ok (m b : Str) (hb : Gram .value 1 b []) :
    MarshalEnvelope ⟨m, b⟩
      = .ok (lit "\x7b\"method\":" ++ appendString [] m ++ lit ",\"body\":" ++ compactText b
          ++ lit "\x7d") := by
  obtain ⟨c, b1, rfl, _⟩ := Gram_value_head hb
  obtain ⟨top, ht⟩ := (parseDocument_ok_iff _).2 (Gram_JsonText hb)
  have hne : (c :: b1 = []) = False := by simp
  simp only [MarshalEnvelope, RawMessage.MarshalJSON, compact, hne, if_false, ht]

end ApiEnvelope

namespace ApiEnvelope

/-! ## Compaction keeps the value of a text -/

theorem StrCompacts_length {t ct : Str} (h : StrCompacts t ct) : t.length ≤ ct.length := by
  induction h <;> simp only [List.length_cons, List.length_nil, le_refl] <;> omega

/-- A continuation byte at the head of a string is kept at the head. -/
theorem StrCompacts_head {t ct : Str} (h : StrCompacts t ct) {b1 : Nat} {t1 : Str}
    (e : t = b1 :: t1) (h1 : 0x80 ≤ b1) (h2 : b1 ≤ 0xBF) :
    ∃ ct1, ct = b1 :: ct1 ∧ StrCompacts t1 ct1 := by
  subst e
  cases h with
  | special hc _ => omega
  | line _ _ => omega
  | keep _ _ _ _ _ hs => exact ⟨_, rfl, hs⟩
  | escape _ _ => omega
  | unicode _ => omega

/-- A continuation byte at the head of the escaped string was at the head. -/
theorem StrCompacts_head_inv {t ct : Str} (h : StrCompacts t ct) {b1 : Nat} {ct1 : Str}
    (e : ct = b1 :: ct1) (h1 : 0x80 ≤ b1) (h2 : b1 ≤ 0xBF) :
    ∃ t1, t = b1 :: t1 ∧ StrCompacts t1 ct1 := by
  cases h with
  | nil => cases e
  | special hc _ => injection e with e1 e2; omega
  | line _ _ => injection e with e1 e2; omega
  | keep _ _ _ _ _ hs => injection e with e1 e2; subst e1; subst e2; exact ⟨_, rfl, hs⟩
  | escape _ _ => injection e with e1 e2; omega
  | unicode _ => injection e with e1 e2; omega

/-- What `DecodeRune` reads after a lead byte is the same before and after the
escaping, and so is what is left. -/
theorem StrCompacts_decode (c : Nat) {t ct : Str} (h : StrCompacts t ct) (hc : 0x80 ≤ c) :
    DecodeRune (c :: ct) = DecodeRune (c :: t) ∧
    ∃ t1 ct1, (c :: t).drop (DecodeRune (c :: t)).2 = t1 ∧
      (c :: ct).drop (DecodeRune (c :: t)).2 = ct1 ∧ StrCompacts t1 ct1 ∧
      t1.length ≤ t.length := by
  rcases DecodeRune_cases c t with ⟨h0, _⟩ | ⟨_, e⟩ | ⟨b1, t1, rfl, h1, h2, h3, h4, e⟩ |
    ⟨b1, b2, t2, rfl, h1, h2, h3, h4, h5, h6, h7, h8, e⟩ |
    ⟨b1, b2, b3, t3, rfl, h1, h2, h3, h4, h5, h6, h9, h10, h7, h8, e⟩
  · omega
  · have e2 : DecodeRune (c :: ct) = (RuneError, 1) := by
      rcases DecodeRune_cases c ct with ⟨h0, _⟩ | ⟨_, e2⟩ | ⟨b1, u1, rfl, h1, h2, h3, h4, _⟩ |
        ⟨b1, b2, u2, rfl, h1, h2, h3, h4, h5, h6, h7, h8, _⟩ |
        ⟨b1, b2, b3, u3, rfl, h1, h2, h3, h4, h5, h6, h9, h10, h7, h8, _⟩
      · omega
      · exact e2
      · obtain ⟨t1, rfl, _⟩ := StrCompacts_head_inv h rfl h3 h4
        rw [DecodeRune_two t1 h1 h2 h3 h4] at e
        injection e with _ e; cases e
      · obtain ⟨t1, rfl, hs1⟩ := StrCompacts_head_inv h rfl h3 h4
        obtain ⟨t2, rfl, _⟩ := StrCompacts_head_inv hs1 rfl h5 h6
        rw [DecodeRune_three t2 h1 h2 h3 h4 h5 h6 h7 h8] at e
        injection e with _ e; cases e
      · obtain ⟨t1, rfl, hs1⟩ := StrCompacts_head_inv h rfl h3 h4
        obtain ⟨t2, rfl, hs2⟩ := StrCompacts_head_inv hs1 rfl h5 h6
        obtain ⟨t3, rfl, _⟩ := StrCompacts_head_inv hs2 rfl h9 h10
        rw [DecodeRune_four t3 h1 h2 h3 h4 h5 h6 h9 h10 h7 h8] at e
        injection e with _ e; cases e
    rw [e, e2]
    exact ⟨rfl, t, ct, rfl, rfl, h, le_rfl⟩
  · obtain ⟨ct1, rfl, hs1⟩ := StrCompacts_head h rfl h3 h4
    rw [e, DecodeRune_two ct1 h1 h2 h3 h4]
    exact ⟨rfl, t1, ct1, rfl, rfl, hs1, by simp only [List.length_cons]; omega⟩
  · obtain ⟨ct1, rfl, hs1⟩ := StrCompacts_head h rfl h3 h4
    obtain ⟨ct2, rfl, hs2⟩ := StrCompacts_head hs1 rfl h5 h6
    rw [e, DecodeRune_three ct2 h1 h2 h3 h4 h5 h6 h7 h8]
    exact ⟨rfl, t2, ct2, rfl, rfl, hs2, by simp only [List.length_cons]; omega⟩
  · obtain ⟨ct1, rfl, hs1⟩ := StrCompacts_head h rfl h3 h4
    obtain ⟨ct2, rfl, hs2⟩ := StrCompacts_head hs1 rfl h5 h6
    obtain ⟨ct3, rfl, hs3⟩ := StrCompacts_head hs2 rfl h9 h10
    rw [e, DecodeRune_four ct3 h1 h2 h3 h4 h5 h6 h9 h10 h7 h8]
    exact ⟨rfl, t3, ct3, rfl, rfl, hs3, by simp only [List.length_cons]; omega⟩

theorem unquoteLoop_lt80 (c : Nat) (X : Str) (h1 : c < 0x80) (h2 : c ≠ 0x5C) :
    unquoteLoop (c :: X).length (c :: X)
      = if c = 0x22 ∨ c < 0x20 then none else (unquoteLoop X.length X).map (c :: ·) := by
  simp only [List.length_cons, unquoteLoop, RuneSelf]
  rw [if_neg h2, if_pos h1]

theorem unquoteLoop_ge80 (c : Nat) (X : Str) (h : 0x80 ≤ c) :
    unquoteLoop (c :: X).length (c :: X)
      = (unquoteLoop ((c :: X).drop (DecodeRune (c :: X)).2).length
          ((c :: X).drop (DecodeRune (c :: X)).2)).map (EncodeRune (DecodeRune (c :: X)).1 ++ ·) := by
  have hpos := DecodeRune_size_pos (c :: X) (by simp)
  rw [List.length_cons, unquoteLoop_multi _ _ _ h]
  rw [unquoteLoop_fuel X.length _ _ (by simp only [List.length_drop, List.length_cons]; omega)
    le_rfl]

theorem unquoteLoop_escape_congr (e : Nat) (X Y : Str) (he : e ≠ 0x75)
    (h : unquoteLoop X.length X = unquoteLoop Y.length Y) :
    unquoteLoop (0x5C :: e :: X).length (0x5C :: e :: X)
      = unquoteLoop (0x5C :: e :: Y).length (0x5C :: e :: Y) := by
  simp only [List.length_cons, unquoteLoop, if_true, if_neg he]
  rw [unquoteLoop_fuel (X.length + 1) X.length X (by omega) le_rfl,
    unquoteLoop_fuel (Y.length + 1) Y.length Y (by omega) le_rfl, h]

theorem getu4_congr (a b c d : Nat) (X Y : Str) :
    getu4 (0x5C :: 0x75 :: a :: b :: c :: d :: X) = getu4 (0x5C :: 0x75 :: a :: b :: c :: d :: Y) := by
  simp only [getu4]

theorem unquoteLoop_unicode_congr (a b c d : Nat) (X Y : Str)
    (h : unquoteLoop X.length X = unquoteLoop Y.length Y)
    (hs : (getu4 X = getu4 Y ∧
        unquoteLoop (X.drop 6).length (X.drop 6) = unquoteLoop (Y.drop 6).length (Y.drop 6)) ∨
      (∀ rr, utf16DecodeRune rr (getu4 X) = RuneError ∧
        utf16DecodeRune rr (getu4 Y) = RuneError)) :
    unquoteLoop (0x5C :: 0x75 :: a :: b :: c :: d :: X).length
        (0x5C :: 0x75 :: a :: b :: c :: d :: X)
      = unquoteLoop (0x5C :: 0x75 :: a :: b :: c :: d :: Y).length
          (0x5C :: 0x75 :: a :: b :: c :: d :: Y) := by
  have fX : unquoteLoop (X.length + 1 + 1 + 1 + 1 + 1) X = unquoteLoop X.length X :=
    unquoteLoop_fuel _ _ _ (by omega) le_rfl
  have fY : unquoteLoop (Y.length + 1 + 1 + 1 + 1 + 1) Y = unquoteLoop Y.length Y :=
    unquoteLoop_fuel _ _ _ (by omega) le_rfl
  have gX : unquoteLoop (X.length + 1 + 1 + 1 + 1 + 1) (X.drop 6)
      = unquoteLoop (X.drop 6).length (X.drop 6) :=
    unquoteLoop_fuel _ _ _ (by simp only [List.length_drop]; omega) le_rfl
  have gY : unquoteLoop (Y.length + 1 + 1 + 1 + 1 + 1) (Y.drop 6)
      = unquoteLoop (Y.drop 6).length (Y.drop 6) :=
    unquoteLoop_fuel _ _ _ (by simp only [List.length_drop]; omega) le_rfl
  simp only [List.length_cons, unquoteLoop, if_true, Nat.reduceEqDiff, or_self, if_false,
    ↓reduceIte, List.drop_succ_cons, List.drop_zero, fX, fY, gX, gY,
    getu4_congr a b c d X Y]
  cases getu4 (0x5C :: 0x75 :: a :: b :: c :: d :: Y) with
  | none => rfl
  | some rr =>
    simp only
    by_cases hsur : IsSurrogate rr = true
    · simp only [hsur, if_true]
      rcases hs with ⟨h1, h2⟩ | h1
      · rw [h1, h2, h]
      · rw [(h1 rr).1, (h1 rr).2]
        simp only [ne_eq, not_true_eq_false, if_false, h]
    · simp only [hsur, if_false, h]
      rfl

theorem unquoteLoop_special (c : Nat) (X : Str) (hc : c = 0x3C ∨ c = 0x3E ∨ c = 0x26) :
    unquoteLoop (0x5C :: 0x75 :: 0x30 :: 0x30 :: hex (c / 16) :: hex (c % 16) :: X).length
        (0x5C :: 0x75 :: 0x30 :: 0x30 :: hex (c / 16) :: hex (c % 16) :: X)
      = (unquoteLoop X.length X).map (c :: ·) := by
  have he : escapeByte c = [0x5C, 0x75, 0x30, 0x30, hex (c / 16), hex (c % 16)] := by
    rcases hc with rfl | rfl | rfl <;> rfl
  have hs : htmlSafeSet c = false := by
    rcases hc with rfl | rfl | rfl <;> decide
  have := unquoteLoop_escapeByte c X (by omega) hs
  rw [he] at this
  exact this

theorem getu4_special (c : Nat) (X : Str) (hc : c = 0x3C ∨ c = 0x3E ∨ c = 0x26) :
    getu4 (0x5C :: 0x75 :: 0x30 :: 0x30 :: hex (c / 16) :: hex (c % 16) :: X) = some c := by
  rcases hc with rfl | rfl | rfl <;> simp [getu4, hexVal, hex]

theorem getu4_line (b2 : Nat) (X : Str) (hb : b2 = 0xA8 ∨ b2 = 0xA9) :
    getu4 (0x5C :: 0x75 :: 0x32 :: 0x30 :: 0x32 :: hex (b2 % 16) :: X) = some (0x2000 + b2 - 0x80) := by
  rcases hb with rfl | rfl <;> simp [getu4, hexVal, hex]

theorem getu4_not_escape (c : Nat) (X : Str) (hc : c ≠ 0x5C) : getu4 (c :: X) = none := by
  unfold getu4
  split
  · rename_i heq; injection heq with h1 _; exact absurd h1 hc
  · rfl

theorem getu4_not_u (e : Nat) (X : Str) (he : e ≠ 0x75) : getu4 (0x5C :: e :: X) = none := by
  unfold getu4
  split
  · rename_i heq; injection heq with _ h2; injection h2 with h2 _; exact absurd h2 he
  · rfl

theorem utf16DecodeRune_small (rr v : Nat) (hv : v < 0xDC00) :
    utf16DecodeRune rr (some v) = RuneError := by
  simp only [utf16DecodeRune]
  rw [if_neg (by omega)]

theorem unquoteLoop_line (b2 : Nat) (X : Str) (hb : b2 = 0xA8 ∨ b2 = 0xA9) :
    unquoteLoop (0x5C :: 0x75 :: 0x32 :: 0x30 :: 0x32 :: hex (b2 % 16) :: X).length
        (0x5C :: 0x75 :: 0x32 :: 0x30 :: 0x32 :: hex (b2 % 16) :: X)
      = (unquoteLoop X.length X).map (EncodeRune (0x2000 + b2 - 0x80) ++ ·) := by
  rcases hb with rfl | rfl
  · exact unquoteLoop_202x 0x2028 X (.inl rfl)
  · exact unquoteLoop_202x 0x2029 X (.inr rfl)

theorem unquoteLoop_line_raw (b2 : Nat) (X : Str) (hb : b2 = 0xA8 ∨ b2 = 0xA9) :
    unquoteLoop (0xE2 :: 0x80 :: b2 :: X).length (0xE2 :: 0x80 :: b2 :: X)
      = (unquoteLoop X.length X).map (EncodeRune (0x2000 + b2 - 0x80) ++ ·) := by
  have hd : DecodeRune (0xE2 :: 0x80 :: b2 :: X) = (0x2000 + b2 - 0x80, 3) := by
    rw [DecodeRune_three X (by omega) (by omega) (by omega) (by omega) (by omega) (by omega)
      (by omega) (by omega)]
    rcases hb with rfl | rfl <;> rfl
  rw [unquoteLoop_ge80 _ _ (by omega), hd]
  rfl

/-- The string a literal stands for does not change when it is escaped. -/
theorem StrCompacts_unquote {t ct : Str} (h : StrCompacts t ct) :
    unquoteLoop ct.length ct = unquoteLoop t.length t := by
  suffices H : ∀ n (t ct : Str), t.length = n → StrCompacts t ct →
      unquoteLoop ct.length ct = unquoteLoop t.length t from H _ t ct rfl h
  intro n
  induction n using Nat.strong_induction_on with
  | _ n ih =>
    intro t ct hn h
    cases h with
    | nil => rfl
    | @special c t1 ct1 hc hs =>
      have := ih t1.length (by simp only [List.length_cons] at hn; omega) t1 ct1 rfl hs
      rw [unquoteLoop_special c ct1 hc, unquoteLoop_lt80 c t1 (by omega) (by omega),
        if_neg (by omega), this]
    | @line b2 t1 ct1 hb hs =>
      have := ih t1.length (by simp only [List.length_cons] at hn; omega) t1 ct1 rfl hs
      rw [unquoteLoop_line b2 ct1 hb, unquoteLoop_line_raw b2 t1 hb, this]
    | @keep c t1 ct1 h1 h2 h3 h4 h5 hs =>
      by_cases h80 : c < 0x80
      · have := ih t1.length (by simp only [List.length_cons] at hn; omega) t1 ct1 rfl hs
        rw [unquoteLoop_lt80 c ct1 h80 h4, unquoteLoop_lt80 c t1 h80 h4, this]
      · obtain ⟨e, t2, ct2, d1, d2, hs2, hl⟩ := StrCompacts_decode c hs (by omega)
        have := ih t2.length (by simp only [List.length_cons] at hn; omega) t2 ct2 rfl hs2
        rw [unquoteLoop_ge80 c ct1 (by omega), unquoteLoop_ge80 c t1 (by omega), e, d1, d2, this]
    | @escape e t1 ct1 he hs =>
      exact unquoteLoop_escape_congr e ct1 t1 (by omega)
        (ih t1.length (by simp only [List.length_cons] at hn; omega) t1 ct1 rfl hs)
    | @unicode a b c d t1 ct1 hs =>
      apply unquoteLoop_unicode_congr a b c d ct1 t1
        (ih t1.length (by simp only [List.length_cons] at hn; omega) t1 ct1 rfl hs)
      cases hs with
      | nil => exact .inr fun rr => ⟨rfl, rfl⟩
      | @special c2 t2 ct2 hc hs2 =>
        refine .inr fun rr => ?_
        rw [getu4_special c2 ct2 hc, getu4_not_escape c2 t2 (by omega)]
        exact ⟨utf16DecodeRune_small rr c2 (by omega), rfl⟩
      | @line b2 t2 ct2 hb hs2 =>
        refine .inr fun rr => ?_
        rw [getu4_line b2 ct2 hb, getu4_not_escape 0xE2 _ (by omega)]
        exact ⟨utf16DecodeRune_small rr _ (by omega), rfl⟩
      | @keep c2 t2 ct2 k1 k2 k3 k4 k5 hs2 =>
        refine .inr fun rr => ?_
        rw [getu4_not_escape c2 ct2 k4, getu4_not_escape c2 t2 k4]
        exact ⟨rfl, rfl⟩
      | @escape e2 t2 ct2 he hs2 =>
        refine .inr fun rr => ?_
        rw [getu4_not_u e2 ct2 (by omega), getu4_not_u e2 t2 (by omega)]
        exact ⟨rfl, rfl⟩
      | @unicode a2 b2 c2 d2 t2 ct2 hs2 =>
        refine .inl ⟨getu4_congr a2 b2 c2 d2 ct2 t2, ?_⟩
        simp only [List.drop_succ_cons, List.drop_zero]
        exact ih t2.length (by simp only [List.length_cons] at hn; omega) t2 ct2 rfl hs2

theorem unquoteBytes_body (t : Str) :
    unquoteBytes (0x22 :: (t ++ [0x22])) = unquoteLoop t.length t := by
  have := unquoteBytes_quoted t
  simpa only [List.singleton_append, List.cons_append, List.nil_append, List.append_assoc]
    using this

/-- Compaction of a string literal: a string literal for the same string. -/
theorem compact_string (k : Str) (hb : StrBody k) :
    ∃ ck, StrBody ck ∧ unquoteBytes (0x22 :: ck) = unquoteBytes (0x22 :: k) ∧
      ∀ t, compactText (0x22 :: (k ++ t)) = 0x22 :: (ck ++ compactText t) := by
  obtain ⟨ck, hck, ⟨t0, ct0, rfl, rfl, hsc⟩, hrun⟩ := compact_StrBody k hb
  refine ⟨_, hck, ?_, fun t => compactText_string hrun t⟩
  rw [unquoteBytes_body, unquoteBytes_body, StrCompacts_unquote hsc]

theorem Denotes_members {p : Str} {x : JValue} (h : Denotes .members p x) :
    ∃ kvs, x = .object kvs := by
  cases h with
  | lastMember _ _ _ _ _ _ => exact ⟨_, rfl⟩
  | consMember _ _ _ _ _ _ _ _ => exact ⟨_, rfl⟩

theorem Denotes_elements {p : Str} {x : JValue} (h : Denotes .elements p x) :
    ∃ xs, x = .array xs := by
  cases h with
  | endElements _ => exact ⟨_, rfl⟩
  | consElement _ _ _ _ => exact ⟨_, rfl⟩

/-- Every part of a JSON text has a value. -/
theorem Gram_Denotes {part : Part} {d : Nat} {p : Str} {ms : List Member}
    (h : Gram part d p ms) : ∃ x, Denotes part p x := by
  induction h with
  | string hk =>
    obtain ⟨s, hs⟩ := unquoteBytes_total hk
    exact ⟨_, .string hk hs⟩
  | number hn => exact ⟨_, .number hn⟩
  | litTrue => exact ⟨_, .litTrue⟩
  | litFalse => exact ⟨_, .litFalse⟩
  | litNull => exact ⟨_, .litNull⟩
  | emptyObject _ hws => exact ⟨_, .emptyObject hws⟩
  | object _ hws _ ih =>
    obtain ⟨x, hx⟩ := ih
    obtain ⟨kvs, rfl⟩ := Denotes_members hx
    exact ⟨_, .object hws hx⟩
  | emptyArray _ hws => exact ⟨_, .emptyArray hws⟩
  | array _ hws _ _ ih1 ih2 =>
    obtain ⟨x, hx⟩ := ih1
    obtain ⟨y, hy⟩ := ih2
    obtain ⟨xs, rfl⟩ := Denotes_elements hy
    exact ⟨_, .array hws hx hy⟩
  | lastMember hk h1 h2 h3 _ ih =>
    obtain ⟨s, hs⟩ := unquoteBytes_total hk
    obtain ⟨x, hx⟩ := ih
    exact ⟨_, .lastMember hk hs h1 h2 h3 hx⟩
  | consMember hk h1 h2 h3 h4 _ _ ih1 ih2 =>
    obtain ⟨s, hs⟩ := unquoteBytes_total hk
    obtain ⟨x, hx⟩ := ih1
    obtain ⟨y, hy⟩ := ih2
    obtain ⟨kvs, rfl⟩ := Denotes_members hy
    exact ⟨_, .consMember hk hs h1 h2 h3 h4 hx hy⟩
  | endElements hws => exact ⟨_, .endElements hws⟩
  | consElement h1 h2 _ _ ih1 ih2 =>
    obtain ⟨x, hx⟩ := ih1
    obtain ⟨y, hy⟩ := ih2
    obtain ⟨xs, rfl⟩ := Denotes_elements hy
    exact ⟨_, .consElement h1 h2 hx hy⟩

/-- Compaction keeps the value of every part of a JSON text. -/
theorem compact_Denotes {part : Part} {p : Str} {x : JValue} (h : Denotes part p x) :
    ∃ cp, Denotes part cp x ∧ ∀ t, compactText (p ++ t) = cp ++ compactText t := by
  have cop : ∀ (c : Nat) (t : Str),
      (c = 0x7B ∨ c = 0x7D ∨ c = 0x5B ∨ c = 0x5D ∨ c = 0x3A ∨ c = 0x2C) →
      compactText (c :: t) = c :: compactText t :=
    fun c t hc => compactText_copied c t (copied_of_bounds (by omega))
  induction h with
  | @string k s hk hs =>
    obtain ⟨ck, hck, hq, hrun⟩ := compact_string k hk
    exact ⟨0x22 :: ck, .string hck (hq.trans hs), fun t => by rw [List.cons_append, hrun]; rfl⟩
  | @number s hn =>
    exact ⟨s, .number hn, fun t => compactText_copies s t (IsNumber_copied hn)⟩
  | litTrue =>
    exact ⟨_, .litTrue, fun t => compactText_copies _ t (by
      intro c hc; apply copied_of_bounds; simp at hc; omega)⟩
  | litFalse =>
    exact ⟨_, .litFalse, fun t => compactText_copies _ t (by
      intro c hc; apply copied_of_bounds; simp at hc; omega)⟩
  | litNull =>
    exact ⟨_, .litNull, fun t => compactText_copies _ t (by
      intro c hc; apply copied_of_bounds; simp at hc; omega)⟩
  | @emptyObject ws hws =>
    refine ⟨0x7B :: ([] ++ [0x7D]), .emptyObject IsWs_nil, fun t => ?_⟩
    simp only [List.cons_append, List.append_assoc, List.nil_append, List.singleton_append]
    rw [cop _ _ (by omega), compactText_ws _ _ hws, cop _ _ (by omega)]
  | @object ws p kvs hws hg ih =>
    obtain ⟨cp, g, run⟩ := ih
    refine ⟨0x7B :: ([] ++ cp), .object IsWs_nil g, fun t => ?_⟩
    simp only [List.cons_append, List.append_assoc, List.nil_append]
    rw [cop _ _ (by omega), compactText_ws _ _ hws, run]
  | @emptyArray ws hws =>
    refine ⟨0x5B :: ([] ++ [0x5D]), .emptyArray IsWs_nil, fun t => ?_⟩
    simp only [List.cons_append, List.append_assoc, List.nil_append, List.singleton_append]
    rw [cop _ _ (by omega), compactText_ws _ _ hws, cop _ _ (by omega)]
  | @array ws v p x xs hws hv hp ih1 ih2 =>
    obtain ⟨cv, g1, run1⟩ := ih1
    obtain ⟨cp, g2, run2⟩ := ih2
    refine ⟨0x5B :: ([] ++ (cv ++ cp)), .array IsWs_nil g1 g2, fun t => ?_⟩
    simp only [List.cons_append, List.append_assoc, List.nil_append]
    rw [cop _ _ (by omega), compactText_ws _ _ hws, run1, run2]
  | @lastMember k ws1 ws2 v ws3 key x hk hs h1 h2 h3 hv ih =>
    obtain ⟨ck, hck, hq, hrun⟩ := compact_string k hk
    obtain ⟨cv, g1, run1⟩ := ih
    refine ⟨0x22 :: (ck ++ ([] ++ 0x3A :: ([] ++ (cv ++ ([] ++ [0x7D]))))),
      .lastMember hck (hq.trans hs) IsWs_nil IsWs_nil IsWs_nil g1, fun t => ?_⟩
    simp only [List.cons_append, List.append_assoc, List.nil_append, List.singleton_append]
    rw [hrun, compactText_ws _ _ h1, cop _ _ (by omega), compactText_ws _ _ h2, run1,
      compactText_ws _ _ h3, cop _ _ (by omega)]
  | @consMember k ws1 ws2 v ws3 ws4 p key x kvs hk hs h1 h2 h3 h4 hv hp ih1 ih2 =>
    obtain ⟨ck, hck, hq, hrun⟩ := compact_string k hk
    obtain ⟨cv, g1, run1⟩ := ih1
    obtain ⟨cp, g2, run2⟩ := ih2
    refine ⟨0x22 :: (ck ++ ([] ++ 0x3A :: ([] ++ (cv ++ ([] ++ 0x2C :: ([] ++ cp)))))),
      .consMember hck (hq.trans hs) IsWs_nil IsWs_nil IsWs_nil IsWs_nil g1 g2, fun t => ?_⟩
    simp only [List.cons_append, List.append_assoc, List.nil_append, List.singleton_append]
    rw [hrun, compactText_ws _ _ h1, cop _ _ (by omega), compactText_ws _ _ h2, run1,
      compactText_ws _ _ h3, cop _ _ (by omega), compactText_ws _ _ h4, run2]
  | @endElements ws hws =>
    refine ⟨[] ++ [0x5D], .endElements IsWs_nil, fun t => ?_⟩
    simp only [List.cons_append, List.append_assoc, List.nil_append, List.singleton_append]
    rw [compactText_ws _ _ hws, cop _ _ (by omega)]
  | @consElement ws1 ws2 v p x xs h1 h2 hv hp ih1 ih2 =>
    obtain ⟨cv, g1, run1⟩ := ih1
    obtain ⟨cp, g2, run2⟩ := ih2
    refine ⟨[] ++ 0x2C :: ([] ++ (cv ++ cp)), .consElement IsWs_nil IsWs_nil g1 g2,
      fun t => ?_⟩
    simp only [List.cons_append, List.append_assoc, List.nil_append]
    rw [compactText_ws _ _ h1, cop _ _ (by omega), compactText_ws _ _ h2, run1, run2]

/-- The compacted form of a value stands for the same value. -/
theorem compact_same_value {v : Str} {x : JValue} (h : Denotes .value v x) :
    Denotes .value (compactText v) x := by
  obtain ⟨cv, g, run⟩ := compact_Denotes h
  have := run []
  rw [List.append_nil, compactText_nil, List.append_nil] at this
  rw [this]; exact g

end ApiEnvelope

namespace ApiEnvelope

/-! ## Marshal: the text written for a Go value and its JSON value -/

theorem natValueFrom_append (acc : Nat) (s : Str) (d : Nat) (h1 : 0x30 ≤ d) (h2 : d ≤ 0x39) :
    natValueFrom acc (s ++ [d]) = (natValueFrom acc s).map (fun k => k * 10 + (d - 0x30)) := by
  induction s generalizing acc with
  | nil => simp [natValueFrom, h1, h2]
  | cons c s ih =>
    simp only [List.cons_append, natValueFrom]
    split_ifs
    · exact ih _
    · rfl

/-- The digits `formatBits` writes: a numeral without a leading zero, for the
number itself. -/
theorem formatBits_spec (f n : Nat) (h : n < f) :
    natValueFrom 0 (formatBits f n) = some n ∧
    ∃ c ds, formatBits f n = c :: ds ∧ 0x30 ≤ c ∧ c ≤ 0x39 ∧ (c = 0x30 → n = 0 ∧ ds = []) ∧
      IsDigits ds := by
  induction f generalizing n with
  | zero => omega
  | succ f ih =>
    simp only [formatBits]
    by_cases h10 : n < 10
    · rw [if_pos h10]
      refine ⟨by simp [natValueFrom]; omega, _, _, rfl, by omega, by omega, fun hc => ⟨by omega, rfl⟩,
        by intro c hc; cases hc⟩
    · rw [if_neg h10]
      obtain ⟨hv, c, ds, hs, h1, h2, h3, h4⟩ := ih (n / 10) (by omega)
      refine ⟨?_, c, ds ++ [0x30 + n % 10], by rw [hs]; rfl, h1, h2, ?_, ?_⟩
      · rw [natValueFrom_append _ _ _ (by omega) (by omega), hv]
        simp only [Option.map_some', Option.some.injEq]
        omega
      · intro hc
        have := (h3 hc).1
        omega
      · intro x hx
        rcases List.mem_append.1 hx with hx | hx
        · exact h4 x hx
        · simp at hx; omega

theorem formatBits_IsInt (f n : Nat) (h : n < f) : IsInt (formatBits f n) := by
  obtain ⟨_, c, ds, hs, h1, h2, h3, h4⟩ := formatBits_spec f n h
  rw [hs]
  by_cases hc : c = 0x30
  · left; rw [hc, (h3 hc).2]
  · right; exact ⟨c, ds, rfl, by omega, h2, h4⟩

theorem natValue_formatBits (f n : Nat) (h : n < f) : natValue (formatBits f n) = some n := by
  obtain ⟨hv, c, ds, hs, _⟩ := formatBits_spec f n h
  unfold natValue
  rw [if_neg (by rw [hs]; simp), hv]

/-- The text `formatInt` writes is a JSON number and the numeral of the integer. -/
theorem formatInt_spec (n : Int) : IsNumber (formatInt n) ∧ intValue (formatInt n) = some n := by
  cases n with
  | ofNat k =>
    have hi := formatBits_IsInt (k + 1) k (by omega)
    obtain ⟨_, c, ds, hs, h1, h2, _⟩ := formatBits_spec (k + 1) k (by omega)
    refine ⟨⟨[], _, [], [], by simp [formatInt], .inl rfl, hi, .inl rfl, .inl rfl⟩, ?_⟩
    have hv := natValue_formatBits (k + 1) k (by omega)
    simp only [formatInt]
    rw [hs] at hv ⊢
    have : intValue (c :: ds) = (natValue (c :: ds)).map (fun k => (k : Int)) := by
      unfold intValue
      split
      · rename_i heq; injection heq with h0 _; omega
      · rfl
    rw [this, hv]; rfl
  | negSucc k =>
    have hi := formatBits_IsInt (k + 2) (k + 1) (by omega)
    refine ⟨⟨[0x2D], _, [], [], by simp [formatInt], .inr rfl, hi, .inl rfl, .inl rfl⟩, ?_⟩
    have hv := natValue_formatBits (k + 2) (k + 1) (by omega)
    simp only [formatInt, intValue, hv, Option.map_some', Option.some.injEq]
    rfl

theorem isNumberText_IsNumber {t : Str} (h : isNumberText t = true) : IsNumber t := by
  unfold isNumberText at h
  cases t with
  | nil => simp at h
  | cons c s =>
    simp only at h
    cases hst : numStart c with
    | none => rw [hst] at h; simp at h
    | some st =>
      rw [hst] at h
      simp only [decide_eq_true_eq] at h
      obtain ⟨p, hp, hn⟩ := scanNumber_sound st s [] h
      rw [List.append_nil] at hp
      subst hp
      exact (IsNumber_iff _).2 ⟨c, s, st, rfl, hst, hn⟩

/-! ### Names of struct fields -/

theorem appendHTMLEscapeLoop_StrCompacts (s : Str) (h : ∀ c ∈ s, c ≠ 0x5C) (f : Nat)
    (hf : s.length ≤ f) : StrCompacts s (appendHTMLEscapeLoop f s) := by
  suffices H : ∀ n (s : Str), s.length = n → (∀ c ∈ s, c ≠ 0x5C) → ∀ f, s.length ≤ f →
      StrCompacts s (appendHTMLEscapeLoop f s) from H _ s rfl h f hf
  intro n
  induction n using Nat.strong_induction_on with
  | _ n ih =>
    intro s hn h f hf
    cases s with
    | nil => cases f <;> exact .nil
    | cons c rest =>
      cases f with
      | zero => simp at hf
      | succ f =>
        simp only [List.length_cons] at hf hn
        have hc := h c (by simp)
        have hrest : ∀ x ∈ rest, x ≠ 0x5C := fun x hx => h x (by simp [hx])
        have ihr := ih rest.length (by omega) rest rfl hrest f (by omega)
        by_cases hsp : c = 0x3C ∨ c = 0x3E ∨ c = 0x26
        · simp only [appendHTMLEscapeLoop, if_pos hsp]
          exact .special hsp ihr
        · cases rest with
          | nil =>
            simp only [appendHTMLEscapeLoop, if_neg hsp]
            exact .keep (by omega) (by omega) (by omega) hc (by simp) ihr
          | cons b1 r1 =>
            cases r1 with
            | nil =>
              simp only [appendHTMLEscapeLoop, if_neg hsp]
              exact .keep (by omega) (by omega) (by omega) hc (by simp) ihr
            | cons b2 rest2 =>
              simp only [appendHTMLEscapeLoop, if_neg hsp]
              by_cases hl : c = 0xE2 ∧ b1 = 0x80 ∧ (b2 = 0xA8 ∨ b2 = 0xA9)
              · rw [if_pos hl]
                obtain ⟨rfl, rfl, hb⟩ := hl
                simp only [List.length_cons] at hf hn
                exact .line hb (ih rest2.length (by omega) rest2 rfl
                  (fun x hx => h x (by simp [hx])) f (by omega))
              · rw [if_neg hl]
                refine .keep (by omega) (by omega) (by omega) hc ?_ ihr
                rintro ⟨e1, b, r, e2, hb⟩
                injection e2 with e3 e4
                injection e4 with e5 e6
                exact hl ⟨e1, e3, by rw [e5]; exact hb⟩

theorem StrCompacts_StrBody {t ct : Str} (h : StrCompacts t ct)
    (hp : ∀ c ∈ t, 0x20 ≤ c ∧ c ≠ 0x22 ∧ c ≠ 0x5C) : StrBody (ct ++ [0x22]) := by
  induction h with
  | nil => exact .close
  | special hc _ ih =>
    exact .unicode (by decide) (by decide) (isHex_hex _ (by omega)) (isHex_hex _ (by omega))
      (ih (fun x hx => hp x (by simp [hx])))
  | line hb _ ih =>
    exact .unicode (by decide) (by decide) (by decide) (isHex_hex _ (by omega))
      (ih (fun x hx => hp x (by simp [hx])))
  | keep _ _ _ _ _ _ ih =>
    obtain ⟨h1, h2, h3⟩ := hp _ (List.mem_cons_self _ _)
    exact .plain h1 h2 h3 (ih (fun x hx => hp x (by simp [hx])))
  | escape _ _ _ => exact absurd rfl (hp 0x5C (by simp)).2.2
  | unicode _ _ => exact absurd rfl (hp 0x5C (by simp)).2.2

/-- A text without quotation mark, backslash and control byte that is valid UTF-8
unquotes to itself. -/
theorem unquoteLoop_id (s : Str) (hp : ∀ c ∈ s, 0x20 ≤ c ∧ c ≠ 0x22 ∧ c ≠ 0x5C)
    (hv : Valid s = true) : unquoteLoop s.length s = some s := by
  suffices H : ∀ n (s : Str), s.length = n → (∀ c ∈ s, 0x20 ≤ c ∧ c ≠ 0x22 ∧ c ≠ 0x5C) →
      validLoop s.length s = true → unquoteLoop s.length s = some s from H _ s rfl hp hv
  intro n
  induction n using Nat.strong_induction_on with
  | _ n ih =>
    intro s hn hp hv
    subst hn
    cases s with
    | nil => rfl
    | cons b rest =>
      obtain ⟨h1, h2, h3⟩ := hp b (by simp)
      simp only [List.length_cons, validLoop] at hv
      by_cases hx : (DecodeRune (b :: rest)).1 = RuneError ∧ (DecodeRune (b :: rest)).2 = 1
      · rw [if_pos hx] at hv; simp at hv
      · rw [if_neg hx] at hv
        have hpos := DecodeRune_size_pos (b :: rest) (by simp)
        have hle := length_drop_cons_le b rest _ hpos
        rw [validLoop_fuel rest.length _ _ hle (le_refl _)] at hv
        have hdrop : ∀ c ∈ (b :: rest).drop (DecodeRune (b :: rest)).2,
            0x20 ≤ c ∧ c ≠ 0x22 ∧ c ≠ 0x5C := fun c hc => hp c (List.mem_of_mem_drop hc)
        have ihd := ih _ (by simp only [List.length_cons]; omega) _ rfl hdrop hv
        by_cases h80 : b < 0x80
        · rw [DecodeRune_ascii rest h80] at ihd
          simp only [List.drop_succ_cons, List.drop_zero] at ihd
          rw [unquoteLoop_lt80 b rest h80 h3, if_neg (by omega), ihd]
          rfl
        · rw [unquoteLoop_ge80 b rest (by omega), ihd, (DecodeRune_chunk b rest hx).1]
          simp only [Option.map_some', List.take_append_drop]

theorem validName_spec {name : Str} (h : validName name = true) :
    Valid name = true ∧ ∀ c ∈ name, 0x20 ≤ c ∧ c ≠ 0x22 ∧ c ≠ 0x5C := by
  simp only [validName, Bool.and_eq_true, List.all_eq_true, Bool.or_eq_true,
    decide_eq_true_eq] at h
  refine ⟨h.1.2, fun c hc => ?_⟩
  rcases h.2 c hc with h80 | ht
  · omega
  · simp only [isTagByte, decide_eq_true_eq] at ht; omega

/-- The name of a struct field as it is written: a string literal for the name. -/
theorem nameEscHTML_spec {name : Str} (h : validName name = true) :
    ∃ k, nameEscHTML name = 0x22 :: (k ++ [0x3A]) ∧ StrBody k ∧
      unquoteBytes (0x22 :: k) = some name := by
  obtain ⟨hv, hp⟩ := validName_spec h
  have hs := appendHTMLEscapeLoop_StrCompacts name (fun c hc => (hp c hc).2.2) _ le_rfl
  refine ⟨appendHTMLEscapeLoop name.length name ++ [0x22], ?_, StrCompacts_StrBody hs hp, ?_⟩
  · simp [nameEscHTML, appendHTMLEscape]
  · rw [unquoteBytes_body, StrCompacts_unquote hs, unquoteLoop_id name hp hv]

/-! ### Byte slices -/

theorem decodeStd_encodeStd (n : Nat) (h : n < 64) : decodeStd (encodeStd n) = some n := by
  interval_cases n <;> rfl

theorem encodeStd_plain (n : Nat) (h : n < 64) :
    0x20 ≤ encodeStd n ∧ encodeStd n < 0x80 ∧ encodeStd n ≠ 0x22 ∧ encodeStd n ≠ 0x5C ∧
      encodeStd n ≠ 0x3D := by
  interval_cases n <;> decide

/-- The characters of a base64 text are plain ASCII. -/
theorem Encode_plain (d : Str) :
    ∀ c ∈ StdEncoding.Encode d, 0x20 ≤ c ∧ c < 0x80 ∧ c ≠ 0x22 ∧ c ≠ 0x5C := by
  have e : ∀ n, 0x20 ≤ encodeStd (n % 64) ∧ encodeStd (n % 64) < 0x80 ∧
      encodeStd (n % 64) ≠ 0x22 ∧ encodeStd (n % 64) ≠ 0x5C := fun n =>
    have := encodeStd_plain (n % 64) (Nat.mod_lt _ (by decide))
    ⟨this.1, this.2.1, this.2.2.1, this.2.2.2.1⟩
  match d with
  | [] => intro c hc; cases hc
  | [a] =>
    intro c hc
    simp only [StdEncoding.Encode, List.mem_cons, List.mem_singleton, List.not_mem_nil,
      or_false] at hc
    rcases hc with rfl | rfl | rfl | rfl
    · exact e _
    · exact e _
    · decide
    · decide
  | [a, b] =>
    intro c hc
    simp only [StdEncoding.Encode, List.mem_cons, List.mem_singleton, List.not_mem_nil,
      or_false] at hc
    rcases hc with rfl | rfl | rfl | rfl
    · exact e _
    · exact e _
    · exact e _
    · decide
  | a :: b :: c3 :: rest =>
    intro c hc
    simp only [StdEncoding.Encode, List.cons_append, List.nil_append, List.mem_cons] at hc
    rcases hc with rfl | rfl | rfl | rfl | hc
    · exact e _
    · exact e _
    · exact e _
    · exact e _
    · exact Encode_plain rest c hc

/-- Decoding the base64 text of a byte slice gives back its bytes. -/
theorem base64Value_Encode (d : Str) (h : ∀ c ∈ d, c < 256) :
    base64Value (StdEncoding.Encode d) = some d := by
  have dv : ∀ n, decodeStd (encodeStd (n % 64)) = some (n % 64) := fun n =>
    decodeStd_encodeStd _ (Nat.mod_lt _ (by decide))
  have ne : ∀ n, encodeStd (n % 64) ≠ 0x3D := fun n =>
    (encodeStd_plain _ (Nat.mod_lt _ (by decide))).2.2.2.2
  match d with
  | [] => rfl
  | [a] =>
    have ha := h a (by simp)
    have e0 : a * 65536 / 4096 % 64 % 16 = 0 := by omega
    have e1 : a * 65536 / 262144 % 64 * 4 + a * 65536 / 4096 % 64 / 16 = a := by omega
    simp [StdEncoding.Encode, base64Value, dv, e0, e1]
  | [a, b] =>
    have ha := h a (by simp)
    have hb := h b (by simp)
    have e0 : (a * 65536 + b * 256) / 64 % 64 % 4 = 0 := by omega
    have e1 : (a * 65536 + b * 256) / 262144 % 64 * 4 + (a * 65536 + b * 256) / 4096 % 64 / 16
        = a := by omega
    have e2 : (a * 65536 + b * 256) / 4096 % 64 % 16 * 16 + (a * 65536 + b * 256) / 64 % 64 / 4
        = b := by omega
    simp [StdEncoding.Encode, base64Value, dv, ne, e0, e1, e2]
  | a :: b :: c :: rest =>
    have ha := h a (by simp)
    have hb := h b (by simp)
    have hc := h c (by simp)
    have ih := base64Value_Encode rest (fun x hx => h x (by simp [hx]))
    have e1 : (a * 65536 + b * 256 + c) / 262144 % 64 * 4
        + (a * 65536 + b * 256 + c) / 4096 % 64 / 16 = a := by omega
    have e2 : (a * 65536 + b * 256 + c) / 4096 % 64 % 16 * 16
        + (a * 65536 + b * 256 + c) / 64 % 64 / 4 = b := by omega
    have e3 : (a * 65536 + b * 256 + c) / 64 % 64 % 4 * 64 + (a * 65536 + b * 256 + c) % 64
        = c := by omega
    simp [StdEncoding.Encode, base64Value, dv, ne, ih, e1, e2, e3]

theorem StrBody_plain (s : Str) (hp : ∀ c ∈ s, 0x20 ≤ c ∧ c < 0x80 ∧ c ≠ 0x22 ∧ c ≠ 0x5C) :
    StrBody (s ++ [0x22]) := by
  induction s with
  | nil => exact .close
  | cons c s ih =>
    obtain ⟨h1, _, h2, h3⟩ := hp c (List.mem_cons_self _ _)
    exact .plain h1 h2 h3 (ih (fun x hx => hp x (List.mem_cons_of_mem _ hx)))

theorem unquoteLoop_ascii (s : Str) (hp : ∀ c ∈ s, 0x20 ≤ c ∧ c < 0x80 ∧ c ≠ 0x22 ∧ c ≠ 0x5C) :
    unquoteLoop s.length s = some s := by
  induction s with
  | nil => rfl
  | cons c s ih =>
    obtain ⟨h1, h2, h3, h4⟩ := hp c (List.mem_cons_self _ _)
    rw [unquoteLoop_lt80 c s h2 h4, if_neg (by omega),
      ih (fun x hx => hp x (List.mem_cons_of_mem _ hx))]
    rfl

/-- What the encoder writes for a byte slice is a string literal for its base64
text. -/
theorem Denotes_bytes (d : Str) :
    Denotes .value ([0x22] ++ StdEncoding.Encode d ++ [0x22]) (.string (StdEncoding.Encode d)) := by
  have hp := Encode_plain d
  have := Denotes.string (StrBody_plain _ hp)
    (by rw [unquoteBytes_body, unquoteLoop_ascii _ hp] :
      unquoteBytes (0x22 :: (StdEncoding.Encode d ++ [0x22])) = some (StdEncoding.Encode d))
  simpa using this

/-! ### Arrays and objects -/

theorem intercalate_cons_cons (s a b : Str) (l : List Str) :
    List.intercalate s (a :: b :: l) = a ++ (s ++ List.intercalate s (b :: l)) := by
  simp [List.intercalate, List.intersperse]

theorem intercalate_single (s a : Str) : List.intercalate s [a] = a := by
  simp [List.intercalate, List.intersperse]

/-- The text of an array after its first element, from the texts of the elements
that follow. -/
theorem Denotes_elements_intercalate (v : Str) (vs : List Str) (xs : List JValue)
    (h : List.Forall₂ (Denotes .value) vs xs) :
    ∃ p, List.intercalate [0x2C] (v :: vs) ++ [0x5D] = v ++ p ∧ Denotes .elements p (.array xs) := by
  induction h generalizing v with
  | nil => exact ⟨[] ++ [0x5D], by simp [intercalate_single], .endElements IsWs_nil⟩
  | @cons v2 x vs xs hv _ ih =>
    obtain ⟨p, hp, hd⟩ := ih v2
    refine ⟨[] ++ 0x2C :: ([] ++ (v2 ++ p)), ?_, .consElement IsWs_nil IsWs_nil hv hd⟩
    rw [intercalate_cons_cons, List.append_assoc, List.append_assoc, hp]
    simp

/-- The text the slice encoder writes stands for the array of the values of the
elements. -/
theorem Denotes_array_intercalate (items : List Str) (xs : List JValue)
    (h : List.Forall₂ (Denotes .value) items xs) :
    Denotes .value ([0x5B] ++ List.intercalate [0x2C] items ++ [0x5D]) (.array xs) := by
  cases h with
  | nil => exact .emptyArray IsWs_nil
  | @cons v x vs xs hv hr =>
    obtain ⟨p, hp, hd⟩ := Denotes_elements_intercalate v vs xs hr
    have := Denotes.array IsWs_nil hv hd
    rw [List.append_assoc, hp]
    exact this

theorem Denotes_members_intercalate (item : Str) (kv : Str × JValue) (items : List Str)
    (kvs : List (Str × JValue)) (h0 : IsMember item kv) (h : List.Forall₂ IsMember items kvs) :
    Denotes .members (List.intercalate [0x2C] (item :: items) ++ [0x7D]) (.object (kv :: kvs)) := by
  induction h generalizing item kv with
  | nil =>
    obtain ⟨k, v, rfl, hk, hu, hv⟩ := h0
    have := Denotes.lastMember hk hu IsWs_nil IsWs_nil IsWs_nil hv
    rw [intercalate_single]
    simpa using this
  | @cons item2 kv2 items kvs h2 _ ih =>
    obtain ⟨k, v, rfl, hk, hu, hv⟩ := h0
    have := Denotes.consMember hk hu IsWs_nil IsWs_nil IsWs_nil IsWs_nil hv (ih item2 kv2 h2)
    rw [intercalate_cons_cons]
    simpa using this

/-- The text the struct and map encoders write stands for the object of the
members. -/
theorem Denotes_object_intercalate (items : List Str) (kvs : List (Str × JValue))
    (h : List.Forall₂ IsMember items kvs) :
    Denotes .value ([0x7B] ++ List.intercalate [0x2C] items ++ [0x7D]) (.object kvs) := by
  cases h with
  | nil => exact .emptyObject IsWs_nil
  | @cons item kv items kvs h0 hr =>
    have := Denotes.object IsWs_nil (Denotes_members_intercalate item kv items kvs h0 hr)
    rw [List.append_assoc]
    exact this

theorem strLe_total (a b : Str) : strLe a b = true ∨ strLe b a = true := by
  induction a generalizing b with
  | nil => left; rfl
  | cons x a ih =>
    cases b with
    | nil => right; rfl
    | cons y b =>
      simp only [strLe, Bool.or_eq_true, Bool.and_eq_true, decide_eq_true_eq]
      rcases Nat.lt_trichotomy x y with h | h | h
      · exact .inl (.inl h)
      · rcases ih b with h2 | h2
        · exact .inl (.inr ⟨h, h2⟩)
        · exact .inr (.inr ⟨h.symm, h2⟩)
      · exact .inr (.inl h)

theorem strLe_trans {a b c : Str} (h1 : strLe a b = true) (h2 : strLe b c = true) :
    strLe a c = true := by
  induction a generalizing b c with
  | nil => rfl
  | cons x a ih =>
    cases b with
    | nil => simp [strLe] at h1
    | cons y b =>
      cases c with
      | nil => simp [strLe] at h2
      | cons z c =>
        simp only [strLe, Bool.or_eq_true, Bool.and_eq_true, decide_eq_true_eq] at h1 h2 ⊢
        rcases h1 with h1 | ⟨h1, h1r⟩
        · rcases h2 with h2 | ⟨h2, _⟩
          · exact .inl (by omega)
          · exact .inl (by omega)
        · rcases h2 with h2 | ⟨h2, h2r⟩
          · exact .inl (by omega)
          · exact .inr ⟨by omega, ih h1r h2r⟩

instance keyLe_total (α : Type) : IsTotal (Str × α) (fun a b => strLe a.1 b.1 = true) :=
  ⟨fun a b => strLe_total a.1 b.1⟩

instance keyLe_trans (α : Type) : IsTrans (Str × α) (fun a b => strLe a.1 b.1 = true) :=
  ⟨fun _ _ _ h1 h2 => strLe_trans h1 h2⟩

theorem sortEntries_perm {α : Type} (es : List (Str × α)) : (sortEntries es).Perm es :=
  List.perm_insertionSort _ es

theorem sortEntries_sorted {α : Type} (es : List (Str × α)) :
    (sortEntries es).Pairwise (fun a b => strLe a.1 b.1 = true) :=
  List.sorted_insertionSort _ es

theorem sortEntries_map {α β : Type} (f : α → β) (es : List (Str × α)) :
    sortEntries (es.map (fun kv => (kv.1, f kv.2))) = (sortEntries es).map (fun kv => (kv.1, f kv.2)) :=
  (List.map_insertionSort (fun a b : Str × α => strLe a.1 b.1 = true)
    (fun a b : Str × β => strLe a.1 b.1 = true) (fun kv : Str × α => (kv.1, f kv.2)) es
    (fun _ _ _ _ => Iff.rfl)).symm

theorem encodeEntries_map (es : List (Str × GoValue)) :
    encodeEntries es = es.map (fun kv => (kv.1, encodeValue kv.2)) := by
  induction es with
  | nil => simp [encodeEntries]
  | cons kv es ih =>
    obtain ⟨k, v⟩ := kv
    simp [encodeEntries, ih]

/-- What the string encoder writes is a string literal for the string with every
byte that is not part of a well-formed UTF-8 sequence replaced by U+FFFD. -/
theorem Denotes_appendString (s : Str) :
    Denotes .value (appendString [] s) (.string (toValidUTF8 s)) := by
  rw [appendString_nil]
  exact .string (StrBody_appendString s)
    (by rw [← appendString_nil]; exact unquoteBytes_appendString s)

/-- A map key as a member name: the string literal the string encoder writes. -/
theorem IsMember_entry (k b : Str) (x : JValue) (h : Denotes .value b x) :
    IsMember (appendString [] k ++ [0x3A] ++ b) (toValidUTF8 k, x) := by
  refine ⟨appendStringLoop k.length k ++ [0x22], b, ?_, StrBody_appendString k, ?_, h⟩
  · simp [appendString_nil]
  · rw [← appendString_nil]; exact unquoteBytes_appendString k

theorem IsMember_field (name b : Str) (x : JValue) (hn : validName name = true)
    (h : Denotes .value b x) : IsMember (nameEscHTML name ++ b) (name, x) := by
  obtain ⟨k, hk, hb, hu⟩ := nameEscHTML_spec hn
  exact ⟨k, b, by rw [hk]; simp, hb, hu, h⟩

theorem writeEntries_denotes (sorted : List (Str × GoValue))
    (ih : ∀ kv ∈ sorted, ∀ b, encodeValue kv.2 = .ok b → ∃ x, Encodes kv.2 x ∧ Denotes .value b x)
    (items : List Str)
    (h : writeEntries (sorted.map (fun kv => (kv.1, encodeValue kv.2))) = .ok items) :
    ∃ kvs, EncodesEntries sorted kvs ∧ List.Forall₂ IsMember items kvs := by
  induction sorted generalizing items with
  | nil =>
    simp only [List.map_nil, writeEntries, Except.ok.injEq] at h
    subst h
    exact ⟨[], .nil, .nil⟩
  | cons kv sorted ihs =>
    obtain ⟨k, v⟩ := kv
    simp only [List.map_cons] at h
    cases hv : encodeValue v with
    | error e => rw [hv] at h; simp [writeEntries] at h
    | ok b =>
      rw [hv] at h
      simp only [writeEntries] at h
      cases hr : writeEntries (sorted.map (fun kv => (kv.1, encodeValue kv.2))) with
      | error e => rw [hr] at h; simp at h
      | ok bs =>
        rw [hr] at h
        simp only [Except.ok.injEq] at h
        subst h
        obtain ⟨x, hx, hd⟩ := ih (k, v) (by simp) b hv
        obtain ⟨kvs, he, hf⟩ := ihs (fun kv hkv => ih kv (by simp [hkv])) bs hr
        exact ⟨_, .cons hx he, .cons (IsMember_entry k b x hd) hf⟩

/-- What `appendCompact` leaves of a valid text stands for the value of the
text. -/
theorem compact_denotes (m b : Str) (h : compact m = .ok b) :
    ∃ ws1 v ws2 x, m = ws1 ++ (v ++ ws2) ∧ IsWs ws1 ∧ IsWs ws2 ∧ Denotes .value v x ∧
      Denotes .value b x := by
  unfold compact at h
  cases hp : parseDocument m with
  | fuel => rw [hp] at h; simp at h
  | err msg => rw [hp] at h; simp at h
  | ok top =>
    rw [hp] at h
    simp only [Res.ok.injEq] at h
    obtain ⟨ws1, v, ws2, h1, h2, rfl, hs⟩ := parseDocument_sound hp
    obtain ⟨x, hx⟩ := Gram_Denotes (TopShape_gram hs)
    obtain ⟨cv, hcv, run⟩ := compact_Denotes hx
    refine ⟨ws1, v, ws2, x, rfl, h1, h2, hx, ?_⟩
    rw [compactText_ws _ _ h1, run] at h
    have e : compactText ws2 = [] := by
      have := compactText_ws ws2 [] h2
      rwa [List.append_nil, compactText_nil] at this
    rw [e, List.append_nil] at h
    rw [← h]; exact hcv

mutual
/-- The text `json.Marshal` writes for a value Go can hold stands for the JSON
value of that value. -/
theorem encodeValue_denotes (v : GoValue) (hw : v.wf = true) (b : Str)
    (h : encodeValue v = .ok b) : ∃ x, Encodes v x ∧ Denotes .value b x := by
  match v with
  | .nil =>
    simp only [encodeValue, Except.ok.injEq] at h; subst h
    exact ⟨_, .nil, .litNull⟩
  | .bool true =>
    simp only [encodeValue, Except.ok.injEq] at h; subst h
    exact ⟨_, .bool true, .litTrue⟩
  | .bool false =>
    simp only [encodeValue, Except.ok.injEq] at h; subst h
    exact ⟨_, .bool false, .litFalse⟩
  | .int n =>
    simp only [encodeValue, Except.ok.injEq] at h; subst h
    exact ⟨_, .int (formatInt_spec n).1 (formatInt_spec n).2, .number (formatInt_spec n).1⟩
  | .float text =>
    simp only [encodeValue, Except.ok.injEq] at h; subst h
    simp only [GoValue.wf] at hw
    exact ⟨_, .float _, .number (isNumberText_IsNumber hw)⟩
  | .nonFiniteFloat text => simp [encodeValue] at h
  | .string s =>
    simp only [encodeValue, Except.ok.injEq] at h; subst h
    refine ⟨_, .string s, ?_⟩
    rw [appendString_nil]
    exact .string (StrBody_appendString s) (by rw [← appendString_nil]; exact unquoteBytes_appendString s)
  | .slice elems =>
    simp only [encodeValue] at h
    simp only [GoValue.wf] at hw
    cases he : encodeElems elems with
    | error e => rw [he] at h; simp at h
    | ok items =>
      rw [he] at h
      simp only [Except.ok.injEq] at h; subst h
      obtain ⟨xs, h1, h2⟩ := encodeElems_denotes elems hw items he
      exact ⟨_, .slice h1, Denotes_array_intercalate items xs h2⟩
  | .bytes data =>
    simp only [encodeValue, Except.ok.injEq] at h; subst h
    simp only [GoValue.wf, List.all_eq_true, decide_eq_true_eq] at hw
    exact ⟨_, .bytes (base64Value_Encode data hw), Denotes_bytes data⟩
  | .map entries =>
    simp only [encodeValue] at h
    simp only [GoValue.wf, Bool.and_eq_true] at hw
    replace hw := hw.2
    rw [encodeEntries_map, sortEntries_map] at h
    cases he : writeEntries ((sortEntries entries).map (fun kv => (kv.1, encodeValue kv.2))) with
    | error e => rw [he] at h; simp at h
    | ok items =>
      rw [he] at h
      simp only [Except.ok.injEq] at h; subst h
      have ih := encodeEntries_denotes entries hw
      obtain ⟨kvs, h1, h2⟩ := writeEntries_denotes (sortEntries entries)
        (fun kv hkv => ih kv ((sortEntries_perm entries).mem_iff.1 hkv)) items he
      exact ⟨_, .map (sortEntries_perm entries) (sortEntries_sorted entries) h1,
        Denotes_object_intercalate items kvs h2⟩
  | .struct fields =>
    simp only [encodeValue] at h
    simp only [GoValue.wf] at hw
    cases he : encodeFields fields with
    | error e => rw [he] at h; simp at h
    | ok items =>
      rw [he] at h
      simp only [Except.ok.injEq] at h; subst h
      obtain ⟨kvs, h1, h2⟩ := encodeFields_denotes fields hw items he
      exact ⟨_, .struct h1, Denotes_object_intercalate items kvs h2⟩
  | .marshaler typ (.error e) => simp [encodeValue] at h
  | .marshaler typ (.ok m) =>
    simp only [encodeValue] at h
    cases hc : compact m with
    | fuel => rw [hc] at h; simp at h
    | err msg => rw [hc] at h; simp at h
    | ok c =>
      rw [hc] at h
      simp only [Except.ok.injEq] at h; subst h
      obtain ⟨ws1, v, ws2, x, e, h1, h2, hx, hb⟩ := compact_denotes m _ hc
      exact ⟨x, .marshaler e h1 h2 hx, hb⟩
  | .chan typ => simp [encodeValue] at h
  | .func typ => simp [encodeValue] at h
/-- The texts written for the elements of a slice stand for their values. -/
theorem encodeElems_denotes (vs : List GoValue) (hw : wfElems vs = true) (bs : List Str)
    (h : encodeElems vs = .ok bs) :
    ∃ xs, EncodesElems vs xs ∧ List.Forall₂ (Denotes .value) bs xs := by
  match vs with
  | [] =>
    simp only [encodeElems, Except.ok.injEq] at h; subst h
    exact ⟨[], .nil, .nil⟩
  | v :: vs =>
    simp only [encodeElems] at h
    simp only [wfElems, Bool.and_eq_true] at hw
    cases hv : encodeValue v with
    | error e => rw [hv] at h; simp at h
    | ok b =>
      rw [hv] at h
      simp only at h
      cases hr : encodeElems vs with
      | error e => rw [hr] at h; simp at h
      | ok bs2 =>
        rw [hr] at h
        simp only [Except.ok.injEq] at h; subst h
        obtain ⟨x, hx, hd⟩ := encodeValue_denotes v hw.1 b hv
        obtain ⟨xs, h1, h2⟩ := encodeElems_denotes vs hw.2 bs2 hr
        exact ⟨_, .cons hx h1, .cons hd h2⟩
/-- The texts written for the fields of a struct are members for the names and the
values of the fields. -/
theorem encodeFields_denotes (fs : List (Str × GoValue)) (hw : wfFields fs = true)
    (bs : List Str) (h : encodeFields fs = .ok bs) :
    ∃ kvs, EncodesFields fs kvs ∧ List.Forall₂ IsMember bs kvs := by
  match fs with
  | [] =>
    simp only [encodeFields, Except.ok.injEq] at h; subst h
    exact ⟨[], .nil, .nil⟩
  | (name, v) :: fs =>
    simp only [encodeFields] at h
    simp only [wfFields, Bool.and_eq_true] at hw
    cases hv : encodeValue v with
    | error e => rw [hv] at h; simp at h
    | ok b =>
      rw [hv] at h
      simp only at h
      cases hr : encodeFields fs with
      | error e => rw [hr] at h; simp at h
      | ok bs2 =>
        rw [hr] at h
        simp only [Except.ok.injEq] at h; subst h
        obtain ⟨x, hx, hd⟩ := encodeValue_denotes v hw.1.2 b hv
        obtain ⟨kvs, h1, h2⟩ := encodeFields_denotes fs hw.2 bs2 hr
        exact ⟨_, .cons hx h1, .cons (IsMember_field name b x hw.1.1 hd) h2⟩
/-- The text written for the value of an entry of a map stands for its value. -/
theorem encodeEntries_denotes (es : List (Str × GoValue)) (hw : wfEntries es = true) :
    ∀ kv ∈ es, ∀ b, encodeValue kv.2 = .ok b → ∃ x, Encodes kv.2 x ∧ Denotes .value b x := by
  match es with
  | [] => intro kv hkv; cases hkv
  | (k, v) :: es =>
    simp only [wfEntries, Bool.and_eq_true] at hw
    intro kv hkv b hb
    rcases List.mem_cons.1 hkv with rfl | hmem
    · exact encodeValue_denotes v hw.1 b hb
    · exact encodeEntries_denotes es hw.2 kv hmem b hb
end

end ApiEnvelope

namespace ApiEnvelope

/-! ## The send functions and the error wrapping of OpenEnvelope -/

theorem nameEscHTML_status : nameEscHTML (lit "status") = lit "\"status\":" := by decide

theorem nameEscHTML_message : nameEscHTML (lit "message") = lit "\"message\":" := by decide

theorem nameEscHTML_body : nameEscHTML (lit "body") = lit "\"body\":" := by decide

theorem Marshal_message (status msg : Str) :
    Marshal (.struct [(lit "status", .string status), (lit "message", .string msg)])
      = .ok (lit "\x7b\"status\":" ++ appendString [] status ++ lit ",\"message\":"
          ++ appendString [] msg ++ lit "\x7d") := by
  simp only [Marshal, encodeValue, encodeFields, nameEscHTML_status, nameEscHTML_message]
  simp [lit, List.intercalate]

theorem appendString_OK : appendString [] (lit "OK") = lit "\"OK\"" := by decide

/-- C1 (amended): for every string `m`, `SendSuccess` on an empty writer leaves
exactly the bytes `{"status":"OK","message":J}`, where `J`, the output of the
string encoder of encoding/json for `m`, is a JSON string literal; decoding `J`
gives `m` with every byte that is not part of a well-formed UTF-8 sequence
replaced by U+FFFD, hence `m` itself when `m` is valid UTF-8. -/
theorem SendSuccess_writes (m : Str) :
    SendSuccess [] m = lit "\x7b\"status\":\"OK\",\"message\":" ++ appendString [] m ++ lit "\x7d"
    ∧ (∃ k, appendString [] m = 0x22 :: k ∧ StrBody k)
    ∧ unquoteBytes (appendString [] m) = some (toValidUTF8 m)
    ∧ (Valid m = true → unquoteBytes (appendString [] m) = some m) := by
  refine ⟨?_, ⟨_, appendString_nil m, StrBody_appendString m⟩, unquoteBytes_appendString m,
    fun h => ?_⟩
  · simp only [SendSuccess, Marshal_message, appendString_OK]
    simp [lit]
  · rw [unquoteBytes_appendString, toValidUTF8_of_Valid m h]

/-- The message `Hello!` gives `{"status":"OK","message":"Hello!"}`. -/
theorem SendSuccess_hello :
    SendSuccess [] (lit "Hello!") = lit "\x7b\"status\":\"OK\",\"message\":\"Hello!\"\x7d" :=
  (SendSuccess_writes (lit "Hello!")).1.trans (by decide)

/-- C1 (as stated): for the string consisting of the byte 0xFF, what `SendSuccess`
writes is not of the form `{"status":"OK","message":J}` with a `J` that decodes
back to that string. -/
theorem SendSuccess_invalid_utf8 :
    ¬ ∃ J : Str, SendSuccess [] [0xFF] = lit "\x7b\"status\":\"OK\",\"message\":" ++ J ++ lit "\x7d"
      ∧ unquoteBytes J = some [0xFF] := by
  rintro ⟨J, h1, h2⟩
  have e : SendSuccess [] [0xFF]
      = lit "\x7b\"status\":\"OK\",\"message\":" ++ lit "\"\\ufffd\"" ++ lit "\x7d" := by decide
  rw [e, List.append_assoc, List.append_assoc] at h1
  have h3 := List.append_cancel_right (List.append_cancel_left h1)
  subst h3
  revert h2
  decide

theorem Marshal_result (v : GoValue) :
    Marshal (.struct [(lit "status", .string (lit "OK")), (lit "body", v)])
      = match Marshal v with
        | .ok b => .ok (lit "\x7b\"status\":\"OK\",\"body\":" ++ b ++ lit "\x7d")
        | .error e => .error e := by
  simp only [Marshal, encodeValue, encodeFields, nameEscHTML_status, nameEscHTML_body]
  cases encodeValue v with
  | error e => rfl
  | ok b =>
    simp only [appendString_OK]
    simp [lit, List.intercalate]

/-- The general encoder, applied to an envelope as a struct of a string and a
`json.RawMessage`, writes what `MarshalEnvelope` writes. -/
theorem Marshal_envelope (env : RequestEnvelope) (b : Str) :
    MarshalEnvelope env = .ok b ↔
      Marshal (.struct [(lit "method", .string env.Method), (lit "body", rawMessage env.Body)])
        = .ok b := by
  have h1 : nameEscHTML (lit "method") = lit "\"method\":" := by decide
  simp only [MarshalEnvelope, Marshal, encodeValue, encodeFields, rawMessage, h1,
    nameEscHTML_body]
  cases compact (RawMessage.MarshalJSON env.Body) with
  | ok c => simp [lit, List.intercalate]
  | err msg => simp
  | fuel => simp

/-- C2: for every value `v` that `json.Marshal` serialises to the bytes `b`,
`SendResult` on an empty writer leaves exactly `{"status":"OK","body":b}`.  If `v`
is a value Go can hold, `b` is a JSON text that stands for the JSON value of `v`
(null for nil, a number for an integer or a float, a string, an array of the
elements for a slice, a string in base64 for a byte slice, an object of the
entries by ascending key for a map, an
object of the fields in their order for a struct, the value of what `MarshalJSON`
returns for a marshaler), and what is written is a JSON text that stands for the
object with the member `status`, the string `OK`, followed by the member `body`,
that value. -/
theorem SendResult_writes (v : GoValue) (b : Str) (h : Marshal v = .ok b) :
    SendResult [] v = lit "\x7b\"status\":\"OK\",\"body\":" ++ b ++ lit "\x7d"
    ∧ (v.wf = true → ∃ x, Encodes v x ∧ Denotes .value b x
        ∧ Denotes .value (SendResult [] v)
            (.object [(lit "status", .string (lit "OK")), (lit "body", x)])) := by
  have h1 : SendResult [] v = lit "\x7b\"status\":\"OK\",\"body\":" ++ b ++ lit "\x7d" := by
    simp only [SendResult, Marshal_result, h]
    simp
  refine ⟨h1, fun hw => ?_⟩
  obtain ⟨x, hx, hd⟩ := encodeValue_denotes v hw b h
  refine ⟨x, hx, hd, ?_⟩
  have hs : Denotes .value (appendString [] (lit "OK")) (.string (lit "OK")) :=
    Denotes_appendString (lit "OK")
  have ho := Denotes_object_intercalate
    [nameEscHTML (lit "status") ++ appendString [] (lit "OK"), nameEscHTML (lit "body") ++ b]
    [(lit "status", .string (lit "OK")), (lit "body", x)]
    (.cons (IsMember_field _ _ _ (by decide) hs)
      (.cons (IsMember_field _ _ _ (by decide) hd) .nil))
  rw [h1]
  rw [intercalate_cons_cons, intercalate_single, nameEscHTML_status, nameEscHTML_body,
    appendString_OK] at ho
  simpa [lit] using ho

/-- The struct of the test suite, with `mode` set to `test` and `participants` set
to 100, gives `{"status":"OK","body":{"mode":"test","participants":100}}`.  A
struct with a field named `a<b` holding a slice of two integers and a float, a
field holding a map with a nil entry, a key with a quotation mark and an empty
slice, a field holding a `json.RawMessage` with space between its tokens and a
field holding a byte slice gives the slice as an array of all its elements, the
name escaped, the entries of the map by ascending key, the message compacted and
the bytes in base64. -/
theorem SendResult_writes_witness :
    Marshal (.struct [(lit "mode", .string (lit "test")), (lit "participants", .int 100)])
        = .ok (lit "\x7b\"mode\":\"test\",\"participants\":100\x7d")
    ∧ SendResult [] (.struct [(lit "mode", .string (lit "test")), (lit "participants", .int 100)])
        = lit "\x7b\"status\":\"OK\",\"body\":\x7b\"mode\":\"test\",\"participants\":100\x7d\x7d"
    ∧ Marshal (.struct [
          (lit "a<b", .slice [.int 1, .int (-20), .float (lit "1.5")]),
          (lit "m", .map [(lit "b", .nil), (lit "a\"", .bool true), (lit "ab", .slice [])]),
          (lit "r", rawMessage (lit " \x7b\"x\" : [1, \"<\"]\x7d ")),
          (lit "k", .bytes (lit "hi"))])
        = .ok (lit "\x7b\"a\\u003cb\":[1,-20,1.5],\"m\":\x7b\"a\\\"\":true,\"ab\":[],\"b\":null\x7d,\"r\":\x7b\"x\":[1,\"\\u003c\"]\x7d,\"k\":\"aGk=\"\x7d")
    ∧ SendResult [] (.struct [
          (lit "a<b", .slice [.int 1, .int (-20), .float (lit "1.5")]),
          (lit "m", .map [(lit "b", .nil), (lit "a\"", .bool true), (lit "ab", .slice [])]),
          (lit "r", rawMessage (lit " \x7b\"x\" : [1, \"<\"]\x7d ")),
          (lit "k", .bytes (lit "hi"))])
        = lit "\x7b\"status\":\"OK\",\"body\":\x7b\"a\\u003cb\":[1,-20,1.5],\"m\":\x7b\"a\\\"\":true,\"ab\":[],\"b\":null\x7d,\"r\":\x7b\"x\":[1,\"\\u003c\"]\x7d,\"k\":\"aGk=\"\x7d\x7d"
    ∧ ∃ x, Encodes (.struct [
          (lit "a<b", .slice [.int 1, .int (-20), .float (lit "1.5")]),
          (lit "m", .map [(lit "b", .nil), (lit "a\"", .bool true), (lit "ab", .slice [])]),
          (lit "r", rawMessage (lit " \x7b\"x\" : [1, \"<\"]\x7d ")),
          (lit "k", .bytes (lit "hi"))]) x
        ∧ Denotes .value (lit "\x7b\"a\\u003cb\":[1,-20,1.5],\"m\":\x7b\"a\\\"\":true,\"ab\":[],\"b\":null\x7d,\"r\":\x7b\"x\":[1,\"\\u003c\"]\x7d,\"k\":\"aGk=\"\x7d") x :=
  ⟨by rfl, (SendResult_writes _ _ (by rfl)).1.trans (by decide), by rfl,
   (SendResult_writes _ _ (by rfl)).1.trans (by decide),
   ((SendResult_writes _ _ (by rfl)).2 (by decide)).imp (fun _ hx => ⟨hx.1, hx.2.1⟩)⟩

/-- C9: for every body value whose serialisation by `json.Marshal` fails,
`SendResult` appends to the writer exactly the text `internal system error` and
nothing else. -/
theorem SendResult_fallback (w : Str) (v : GoValue) (e : GoError) (h : Marshal v = .error e) :
    SendResult w v = w ++ lit "internal system error" := by
  simp only [SendResult, Marshal_result, h]
  rfl

/-- A channel cannot be serialised, and `SendResult` writes the fallback text. -/
theorem SendResult_fallback_witness :
    Marshal (.chan (lit "chan int")) = .error (.foreign (lit "json: unsupported type: chan int"))
    ∧ SendResult [] (.chan (lit "chan int")) = lit "internal system error" :=
  ⟨by rfl, SendResult_fallback [] _ _ (by rfl)⟩

theorem wrapAll_isSome (As : List Str) (root : GoError) : ∃ e, wrapAll As root = some e := by
  induction As with
  | nil => exact ⟨root, rfl⟩
  | cons a As ih =>
    obtain ⟨e, he⟩ := ih
    exact ⟨_, by simp only [wrapAll, List.foldr_cons] at he ⊢; rw [he]; rfl⟩

theorem sprintfV_wrapAll (As : List Str) (B : Str) :
    sprintfV (wrapAll As (New B)) = List.intercalate (lit ": ") (As ++ [B]) := by
  induction As with
  | nil => simp [wrapAll, sprintfV, New, GoError.Error, List.intercalate]
  | cons a As ih =>
    obtain ⟨e, he⟩ := wrapAll_isSome As (New B)
    have h1 : wrapAll (a :: As) (New B) = Wrap (wrapAll As (New B)) a := rfl
    rw [h1, he]
    rw [he] at ih
    simp only [sprintfV, Wrap, GoError.Error] at ih ⊢
    rw [ih]
    cases As with
    | nil => simp [List.intercalate]
    | cons a2 As2 => simp [List.intercalate, List.intersperse]

/-- C3 (amended): for every root message `B` and every list `As` of context
messages added by successive calls of `errors.Wrap`, the outermost first,
`SendError` on an empty writer leaves exactly `{"status":"Error","message":J}`,
where `J`, the output of the string encoder of encoding/json for the messages
`As` and `B` joined by a colon and a space, is a JSON string literal; decoding
`J` gives the joined message with every byte that is not part of a well-formed
UTF-8 sequence replaced by U+FFFD, hence the joined message itself when it is
valid UTF-8; and what is written is a JSON text that stands for the object with
the member `status`, the string `Error`, followed by the member `message`, the
decoded string. -/
theorem SendError_writes (B : Str) (As : List Str) :
    SendError [] (wrapAll As (New B))
      = lit "\x7b\"status\":\"Error\",\"message\":"
          ++ appendString [] (List.intercalate (lit ": ") (As ++ [B])) ++ lit "\x7d"
    ∧ (∃ k, appendString [] (List.intercalate (lit ": ") (As ++ [B])) = 0x22 :: k ∧ StrBody k)
    ∧ unquoteBytes (appendString [] (List.intercalate (lit ": ") (As ++ [B])))
        = some (toValidUTF8 (List.intercalate (lit ": ") (As ++ [B])))
    ∧ (Valid (List.intercalate (lit ": ") (As ++ [B])) = true →
        unquoteBytes (appendString [] (List.intercalate (lit ": ") (As ++ [B])))
          = some (List.intercalate (lit ": ") (As ++ [B])))
    ∧ Denotes .value (SendError [] (wrapAll As (New B)))
        (.object [(lit "status", .string (lit "Error")),
          (lit "message", .string (toValidUTF8 (List.intercalate (lit ": ") (As ++ [B]))))]) := by
  have hE : appendString [] (lit "Error") = lit "\"Error\"" := by decide
  have h1 : SendError [] (wrapAll As (New B))
      = lit "\x7b\"status\":\"Error\",\"message\":"
          ++ appendString [] (List.intercalate (lit ": ") (As ++ [B])) ++ lit "\x7d" := by
    simp only [SendError, Marshal_message, sprintfV_wrapAll, hE]
    simp [lit]
  refine ⟨h1, ⟨_, appendString_nil _, StrBody_appendString _⟩, unquoteBytes_appendString _,
    fun h => ?_, ?_⟩
  · rw [unquoteBytes_appendString, toValidUTF8_of_Valid _ h]
  · have hs : Denotes .value (appendString [] (lit "Error")) (.string (lit "Error")) :=
      Denotes_appendString (lit "Error")
    have ho := Denotes_object_intercalate
      [nameEscHTML (lit "status") ++ appendString [] (lit "Error"),
        nameEscHTML (lit "message")
          ++ appendString [] (List.intercalate (lit ": ") (As ++ [B]))]
      [(lit "status", .string (lit "Error")),
        (lit "message", .string (toValidUTF8 (List.intercalate (lit ": ") (As ++ [B]))))]
      (.cons (IsMember_field _ _ _ (by decide) hs)
        (.cons (IsMember_field _ _ _ (by decide) (Denotes_appendString _)) .nil))
    rw [h1]
    rw [intercalate_cons_cons, intercalate_single, nameEscHTML_status, nameEscHTML_message,
      hE] at ho
    simpa [lit] using ho

/-- The two error responses of the test suite, and an error whose messages hold
quotation marks and the character `<`, which are written escaped. -/
theorem SendError_writes_witness :
    SendError [] (some (New (lit "Test error 1001")))
      = lit "\x7b\"status\":\"Error\",\"message\":\"Test error 1001\"\x7d"
    ∧ SendError [] (Wrap (some (New (lit "Test error 1002"))) (lit "Test error 1001"))
      = lit "\x7b\"status\":\"Error\",\"message\":\"Test error 1001: Test error 1002\"\x7d"
    ∧ SendError [] (Wrap (some (New (lit "a<b"))) (lit "bad \"x\""))
      = lit "\x7b\"status\":\"Error\",\"message\":\"bad \\\"x\\\": a\\u003cb\"\x7d"
    ∧ unquoteBytes (appendString [] (lit "bad \"x\": a<b")) = some (lit "bad \"x\": a<b") :=
  ⟨(SendError_writes (lit "Test error 1001") []).1.trans (by decide),
   (SendError_writes (lit "Test error 1002") [lit "Test error 1001"]).1.trans (by decide),
   (SendError_writes (lit "a<b") [lit "bad \"x\""]).1.trans (by decide),
   (SendError_writes (lit "a<b") [lit "bad \"x\""]).2.2.2.1 (by decide)⟩

/-- C3 (as stated): for the root message consisting of the byte 0xFF, what
`SendError` writes is not of the form `{"status":"Error","message":J}` with a `J`
that decodes back to that message. -/
theorem SendError_invalid_utf8 :
    ¬ ∃ J : Str, SendError [] (wrapAll [] (New [0xFF]))
        = lit "\x7b\"status\":\"Error\",\"message\":" ++ J ++ lit "\x7d"
      ∧ unquoteBytes J = some [0xFF] := by
  rintro ⟨J, h1, h2⟩
  have e : SendError [] (wrapAll [] (New [0xFF]))
      = lit "\x7b\"status\":\"Error\",\"message\":" ++ lit "\"\\ufffd\"" ++ lit "\x7d" := by
    decide
  rw [e, List.append_assoc, List.append_assoc] at h1
  have h3 := List.append_cancel_right (List.append_cancel_left h1)
  subst h3
  revert h2
  decide

/-- C10: when the read fails with the error `c`, `OpenEnvelope` returns a nil
envelope and an error that renders as `request read failed: ` followed by the
text of `c`; when the read succeeds and `json.Unmarshal` fails with `c`, the error
renders as `request unmarshal failed: ` followed by the text of `c`; in both
cases `errors.Cause` of the returned error is that of `c`. -/
theorem OpenEnvelope_wraps_cause (data : Str) (c : GoError) :
    (OpenEnvelope ⟨data, some c⟩
        = some (none, some (.withStack (.withMessage c (lit "request read failed"))))
      ∧ (GoError.withStack (.withMessage c (lit "request read failed"))).Error
          = lit "request read failed: " ++ c.Error
      ∧ (GoError.withStack (.withMessage c (lit "request read failed"))).Cause = c.Cause)
    ∧ (∀ env, Unmarshal data ⟨[], []⟩ = some (env, some c) →
        OpenEnvelope ⟨data, none⟩
          = some (none, some (.withStack (.withMessage c (lit "request unmarshal failed"))))
        ∧ (GoError.withStack (.withMessage c (lit "request unmarshal failed"))).Error
            = lit "request unmarshal failed: " ++ c.Error
        ∧ (GoError.withStack (.withMessage c (lit "request unmarshal failed"))).Cause
            = c.Cause) := by
  refine ⟨⟨by simp [OpenEnvelope, ReadAll, Wrap], ?_, rfl⟩, fun env h => ⟨?_, ?_, rfl⟩⟩
  · simp [GoError.Error, lit]
  · simp [OpenEnvelope, ReadAll, h, Wrap]
  · simp [GoError.Error, lit]

/-- A read that fails with `unexpected EOF`, and a truncated document. -/
theorem OpenEnvelope_wraps_cause_witness :
    OpenEnvelope ⟨lit "\x7b\"method\":\"GET\"\x7d", some (.foreign (lit "unexpected EOF"))⟩
        = some (none, some (.withStack (.withMessage (.foreign (lit "unexpected EOF"))
            (lit "request read failed"))))
    ∧ Unmarshal (lit "\x7b\"method\"") ⟨[], []⟩
        = some (⟨[], []⟩, some (.foreign (lit "unexpected end of JSON input")))
    ∧ OpenEnvelope ⟨lit "\x7b\"method\"", none⟩
        = some (none, some (.withStack (.withMessage
            (.foreign (lit "unexpected end of JSON input")) (lit "request unmarshal failed"))))
    ∧ (GoError.withStack (.withMessage (.foreign (lit "unexpected end of JSON input"))
          (lit "request unmarshal failed"))).Error
        = lit "request unmarshal failed: unexpected end of JSON input" :=
  ⟨(OpenEnvelope_wraps_cause (lit "\x7b\"method\":\"GET\"\x7d") (.foreign (lit "unexpected EOF"))).1.1,
   by decide,
   ((OpenEnvelope_wraps_cause (lit "\x7b\"method\"")
      (.foreign (lit "unexpected end of JSON input"))).2 ⟨[], []⟩ (by decide)).1,
   by decide⟩

end ApiEnvelope

namespace ApiEnvelope

/-! ## `OpenEnvelope` -/

/-- C6: on every reader whose bytes are not a JSON text (one value of the RFC 8259
grammar over bytes, with optional space around it, within the nesting limit of
encoding/json; inside strings a byte from 0x80 on is an unescaped character
whatever its UTF-8 form, as for the scanner of encoding/json) `OpenEnvelope`
returns a nil envelope and a non-nil error; and on every reader whatsoever it
returns, with a non-nil envelope if and only if the error is nil. -/
theorem OpenEnvelope_malformed (r : Reader) :
    (¬ JsonText r.data → ∃ e, OpenEnvelope r = some (none, some e)) ∧
    (∃ env err, OpenEnvelope r = some (env, err) ∧ (env ≠ none ↔ err = none)) := by
  constructor
  · intro hn
    obtain ⟨data, err⟩ := r
    cases err with
    | some e => exact ⟨_, OpenEnvelope_read_failed data e⟩
    | none =>
      obtain ⟨msg, hm⟩ := parseDocument_err_of_not_JsonText hn
      exact ⟨_, OpenEnvelope_syntax hm⟩
  · rcases OpenEnvelope_returns r with ⟨env, h⟩ | ⟨e, h⟩
    · exact ⟨some env, none, h, by simp⟩
    · exact ⟨none, some e, h, by simp⟩

/-- The empty input, a truncated document and a document followed by a byte that
is not space are not JSON texts, and `OpenEnvelope` fails on each. -/
theorem OpenEnvelope_malformed_witness :
    (¬ JsonText [] ∧ ∃ e, OpenEnvelope ⟨[], none⟩ = some (none, some e)) ∧
    (¬ JsonText (lit "\x7b\"method\":\"GET\",\"bo") ∧
      ∃ e, OpenEnvelope ⟨lit "\x7b\"method\":\"GET\",\"bo", none⟩ = some (none, some e)) ∧
    (¬ JsonText (lit "\x7b\"method\":\"GET\"\x7d x") ∧
      ∃ e, OpenEnvelope ⟨lit "\x7b\"method\":\"GET\"\x7d x", none⟩ = some (none, some e)) :=
  have h1 : ¬ JsonText [] :=
    not_JsonText_of_err (by decide : parseDocument [] = .err eofError)
  have h2 : ¬ JsonText (lit "\x7b\"method\":\"GET\",\"bo") :=
    not_JsonText_of_err (by decide : parseDocument (lit "\x7b\"method\":\"GET\",\"bo") = .err eofError)
  have h3 : ¬ JsonText (lit "\x7b\"method\":\"GET\"\x7d x") :=
    not_JsonText_of_err (by decide : parseDocument (lit "\x7b\"method\":\"GET\"\x7d x")
      = .err (syntaxError 0x78 "after top-level value"))
  ⟨⟨h1, (OpenEnvelope_malformed ⟨[], none⟩).1 h1⟩,
   ⟨h2, (OpenEnvelope_malformed ⟨lit "\x7b\"method\":\"GET\",\"bo", none⟩).1 h2⟩,
   ⟨h3, (OpenEnvelope_malformed ⟨lit "\x7b\"method\":\"GET\"\x7d x", none⟩).1 h3⟩⟩

/-- C7 (as stated): the JSON text `null`, whose top-level value is not an object,
and the object whose member `method` is `null`, a value that is not a string,
are both accepted: `OpenEnvelope` returns the zero envelope and a nil error. -/
theorem OpenEnvelope_accepts_null :
    JsonText (lit "null") ∧
    OpenEnvelope ⟨lit "null", none⟩ = some (some ⟨[], []⟩, none) ∧
    JsonText (lit "\x7b\"method\":null\x7d") ∧
    parseDocument (lit "\x7b\"method\":null\x7d")
      = .ok (.object [⟨lit "\"method\"", lit "null"⟩]) ∧
    OpenEnvelope ⟨lit "\x7b\"method\":null\x7d", none⟩ = some (some ⟨[], []⟩, none) :=
  ⟨JsonText_of_ok (by decide : parseDocument (lit "null") = .ok (.literal (lit "null"))),
   by decide,
   JsonText_of_ok (by decide : parseDocument (lit "\x7b\"method\":null\x7d")
     = .ok (.object [⟨lit "\"method\"", lit "null"⟩])),
   by decide, by decide⟩

/-- C7 (amended): for a JSON text `ws1 v ws2` with top-level value `v`,
`OpenEnvelope` returns a nil envelope and a non-nil error exactly when `v` is an
array, a string, a number, `true` or `false`, or `v` is an object with a member
whose name selects the field `Method` (it equals `method` up to letter case) and
whose value is neither a string nor `null`. -/
theorem OpenEnvelope_mismatch (ws1 v ws2 : Str) (top : Top) (h1 : IsWs ws1) (h2 : IsWs ws2)
    (hs : TopShape v top) :
    (∃ e, OpenEnvelope ⟨ws1 ++ (v ++ ws2), none⟩ = some (none, some e)) ↔ top.mismatch := by
  obtain ⟨d, _, e2, e3⟩ := OpenEnvelope_text h1 h2 hs
  rw [e3, ← e2]
  cases d.savedError with
  | none => simp
  | some e => simp

/-- The array `[1]` and the object with the member `"method":1` are rejected, the
latter with space after it. -/
theorem OpenEnvelope_mismatch_witness :
    (∃ e, OpenEnvelope ⟨lit "[1]", none⟩ = some (none, some e)) ∧
    (∃ e, OpenEnvelope ⟨lit "\x7b\"method\":1\x7d\n", none⟩ = some (none, some e)) :=
  ⟨(OpenEnvelope_mismatch [] (lit "[1]") [] (.array (lit "[1]")) IsWs_nil IsWs_nil
      (TopShape_of_parse (by decide) (by decide) (by decide))).2 trivial,
   (OpenEnvelope_mismatch [] (lit "\x7b\"method\":1\x7d") [0x0A]
      (.object [⟨lit "\"method\"", lit "1"⟩]) IsWs_nil (by decide)
      (TopShape_of_parse (by decide) (by decide) (by decide))).2 (by decide)⟩

/-- C8 (as stated): the object `{"Method":1}` has no member named `method`, yet
`OpenEnvelope` fails on it; and adding the member `"METHOD":"b"`, whose name is
neither `method` nor `body`, to the object `{"method":"a"}` changes the returned
Method from `a` to `b`. -/
theorem OpenEnvelope_folds_names :
    parseDocument (lit "\x7b\"Method\":1\x7d") = .ok (.object [⟨lit "\"Method\"", lit "1"⟩]) ∧
    OpenEnvelope ⟨lit "\x7b\"Method\":1\x7d", none⟩
      = some (none, some (.withStack (.withMessage (fieldTypeError (lit "1"))
          (lit "request unmarshal failed")))) ∧
    OpenEnvelope ⟨lit "\x7b\"method\":\"a\"\x7d", none⟩ = some (some ⟨lit "a", []⟩, none) ∧
    parseDocument (lit "\x7b\"method\":\"a\",\"METHOD\":\"b\"\x7d")
      = .ok (.object [⟨lit "\"method\"", lit "\"a\""⟩, ⟨lit "\"METHOD\"", lit "\"b\""⟩]) ∧
    OpenEnvelope ⟨lit "\x7b\"method\":\"a\",\"METHOD\":\"b\"\x7d", none⟩
      = some (some ⟨lit "b", []⟩, none) :=
  ⟨by decide, by decide, by decide, by decide, by decide⟩

/-- C8 (amended): for a JSON text `ws1 v ws2` whose top-level value `v` is an
object with the members `ms`: (a) if no member has a name that selects the field
`Method` (a name equal to `method` up to letter case), `OpenEnvelope` succeeds and
the returned Method is empty; (b) members whose names select neither field (names
equal to neither `method` nor `body` up to letter case) are ignored: every JSON
text whose top-level object has the same members, these left aside, in the same
order, gives the same result. -/
theorem OpenEnvelope_ignores_unknown (ws1 v ws2 : Str) (ms : List Member) (h1 : IsWs ws1)
    (h2 : IsWs ws2) (hs : TopShape v (.object ms)) :
    ((∀ m ∈ ms, m.field ≠ some .Method) →
      ∃ env, OpenEnvelope ⟨ws1 ++ (v ++ ws2), none⟩ = some (some env, none) ∧ env.Method = []) ∧
    (∀ (ws3 v2 ws4 : Str) (ms2 : List Member), IsWs ws3 → IsWs ws4 → TopShape v2 (.object ms2) →
      ms2.filter (fun m => m.field.isSome) = ms.filter (fun m => m.field.isSome) →
      OpenEnvelope ⟨ws3 ++ (v2 ++ ws4), none⟩ = OpenEnvelope ⟨ws1 ++ (v ++ ws2), none⟩) := by
  constructor
  · intro hno
    obtain ⟨d, hd, _, e3⟩ := OpenEnvelope_text h1 h2 hs
    obtain ⟨d1, hd1, _, k2, _⟩ :=
      decodeMembers_total ms (TopShape_members_wf hs) ⟨⟨[], []⟩, none⟩
    have hdd : d = d1 := by
      simp only [decodeTop] at hd
      rw [hd1] at hd; injection hd with hd; exact hd.symm
    subst hdd
    obtain ⟨k3, k4⟩ := k2 hno
    rw [e3, k3]
    exact ⟨d.env, rfl, k4⟩
  · intro ws3 v2 ws4 ms2 h3 h4 hs2 hf
    have p1 := parseDocument_complete h1 h2 hs
    have p2 := parseDocument_complete h3 h4 hs2
    simp only [OpenEnvelope, ReadAll, Unmarshal, p1, p2, decodeTop]
    rw [decodeMembers_filter ms (TopShape_members_wf hs),
      decodeMembers_filter ms2 (TopShape_members_wf hs2), hf]

/-- The object `{"x":1}` decodes to the zero envelope, and `{"x":1,"method":"a"}`
gives the same result as `{"method":"a"}`. -/
theorem OpenEnvelope_ignores_unknown_witness :
    (∃ env, OpenEnvelope ⟨lit "\x7b\"x\":1\x7d" , none⟩ = some (some env, none) ∧ env.Method = []) ∧
    OpenEnvelope ⟨lit "\x7b\"method\":\"a\"\x7d", none⟩
      = OpenEnvelope ⟨lit "\x7b\"x\":1,\"method\":\"a\"\x7d", none⟩ :=
  ⟨(OpenEnvelope_ignores_unknown [] (lit "\x7b\"x\":1\x7d") [] [⟨lit "\"x\"", lit "1"⟩]
      IsWs_nil IsWs_nil (TopShape_of_parse (by decide) (by decide) (by decide))).1 (by decide),
   (OpenEnvelope_ignores_unknown [] (lit "\x7b\"x\":1,\"method\":\"a\"\x7d") []
      [⟨lit "\"x\"", lit "1"⟩, ⟨lit "\"method\"", lit "\"a\""⟩]
      IsWs_nil IsWs_nil (TopShape_of_parse (by decide) (by decide) (by decide))).2
      [] (lit "\x7b\"method\":\"a\"\x7d") [] [⟨lit "\"method\"", lit "\"a\""⟩]
      IsWs_nil IsWs_nil (TopShape_of_parse (by decide) (by decide) (by decide)) (by decide)⟩

/-- C5 (as stated): the input `{"body":1,"BODY":2}` has exactly one member named
`body`, with the value `1`; `OpenEnvelope` succeeds on it and returns the Body
`2`, the value of another member. -/
theorem OpenEnvelope_body_shadowed :
    parseDocument (lit "\x7b\"body\":1,\"BODY\":2\x7d")
      = .ok (.object [⟨lit "\"body\"", lit "1"⟩, ⟨lit "\"BODY\"", lit "2"⟩]) ∧
    OpenEnvelope ⟨lit "\x7b\"body\":1,\"BODY\":2\x7d", none⟩ = some (some ⟨[], lit "2"⟩, none) ∧
    lit "2" ≠ lit "1" :=
  ⟨by decide, by decide, by decide⟩

/-- C5 (amended): for a JSON text `ws1 v ws2` whose top-level value `v` is an
object with the members `ms`, on which `OpenEnvelope` succeeds: if `m` is the
last member whose name selects the field `Body` (a name equal to `body` up to
letter case), the returned Body is the text of the value of `m`, byte for byte;
that text is a contiguous part of the input and is itself a JSON text. -/
theorem OpenEnvelope_body_slice (ws1 v ws2 : Str) (ms : List Member) (m : Member)
    (env : RequestEnvelope) (h1 : IsWs ws1) (h2 : IsWs ws2) (hs : TopShape v (.object ms))
    (ho : OpenEnvelope ⟨ws1 ++ (v ++ ws2), none⟩ = some (some env, none))
    (hm : (ms.filter (fun m => decide (m.field = some .Body))).getLast? = some m) :
    env.Body = m.value ∧ JsonText m.value ∧
      ∃ pre post, ws1 ++ (v ++ ws2) = pre ++ (m.value ++ post) := by
  obtain ⟨d, hd, _, e3⟩ := OpenEnvelope_text h1 h2 hs
  obtain ⟨d1, hd1, k1, _⟩ :=
    decodeMembers_total ms (TopShape_members_wf hs) ⟨⟨[], []⟩, none⟩
  have hdd : d = d1 := by
    simp only [decodeTop] at hd
    rw [hd1] at hd; injection hd with hd; exact hd.symm
  subst hdd
  have henv : env = d.env := by
    rw [e3] at ho
    cases hse : d.savedError with
    | none => rw [hse] at ho; simp only [Option.some.injEq, Prod.mk.injEq, and_true] at ho; exact ho.symm
    | some e => rw [hse] at ho; simp at ho
  have hmem : m ∈ ms := List.mem_of_mem_filter (List.mem_of_getLast?_eq_some hm)
  cases hs with
  | emptyObject _ => cases hmem
  | object hws hg =>
    rename_i ws p
    obtain ⟨_, g2, pre, post, hp⟩ := Gram_members_wf hg m hmem
    refine ⟨?_, Gram_JsonText g2, ws1 ++ 0x7B :: (ws ++ pre), post ++ ws2, ?_⟩
    · rw [henv, k1, hm]; rfl
    · rw [hp]; simp

/-- The body of `{"method":"GET","body":{"id" : 1234}}`, followed by a line feed,
is returned with its interior space. -/
theorem OpenEnvelope_body_slice_witness :
    OpenEnvelope ⟨lit "\x7b\"method\":\"GET\",\"body\":\x7b\"id\" : 1234\x7d\x7d\n", none⟩
      = some (some ⟨lit "GET", lit "\x7b\"id\" : 1234\x7d"⟩, none) ∧
    JsonText (lit "\x7b\"id\" : 1234\x7d") ∧
    ∃ pre post, lit "\x7b\"method\":\"GET\",\"body\":\x7b\"id\" : 1234\x7d\x7d\n"
      = pre ++ (lit "\x7b\"id\" : 1234\x7d" ++ post) :=
  ⟨by decide,
   (OpenEnvelope_body_slice [] (lit "\x7b\"method\":\"GET\",\"body\":\x7b\"id\" : 1234\x7d\x7d")
      [0x0A] [⟨lit "\"method\"", lit "\"GET\""⟩, ⟨lit "\"body\"", lit "\x7b\"id\" : 1234\x7d"⟩]
      ⟨lit "\"body\"", lit "\x7b\"id\" : 1234\x7d"⟩ ⟨lit "GET", lit "\x7b\"id\" : 1234\x7d"⟩
      IsWs_nil (by decide) (TopShape_of_parse (by decide) (by decide) (by decide))
      (by decide) (by decide)).2⟩

end ApiEnvelope

namespace ApiEnvelope

/-! ## Round trip through `json.Marshal` and `OpenEnvelope` -/

/-- C4 (as stated): for the method string consisting of the byte 0xFF and the body
`{"id":1234}`, marshaling the envelope succeeds and `OpenEnvelope` succeeds on the
result, but the returned Method is the three bytes of U+FFFD, not the method that
was marshaled. -/
theorem round_trip_invalid_utf8 :
    MarshalEnvelope ⟨[0xFF], lit "\x7b\"id\":1234\x7d"⟩
      = .ok (lit "\x7b\"method\":\"\\ufffd\",\"body\":\x7b\"id\":1234\x7d\x7d") ∧
    OpenEnvelope ⟨lit "\x7b\"method\":\"\\ufffd\",\"body\":\x7b\"id\":1234\x7d\x7d", none⟩
      = some (some ⟨[0xEF, 0xBF, 0xBD], lit "\x7b\"id\":1234\x7d"⟩, none) ∧
    ([0xEF, 0xBF, 0xBD] : Str) ≠ [0xFF] :=
  ⟨by decide, by decide, by decide⟩

/-- C4 (amended): for every method string `m` that is valid UTF-8 and every JSON
value `b` nested less deep than the limit of encoding/json allows inside an
object, marshaling the envelope with method `m` and body `b` gives the object
with the member `method`, the string literal of `m`, and the member `body`, the
compacted text of `b`; `OpenEnvelope` on these bytes returns a nil error and the
envelope with Method `m` and Body the compacted text of `b`.  That Body is a JSON
text and stands for every value `b` stands for, and `b` stands for a value; it
is `b` itself, byte for byte, when `b` contains no space and none of the bytes
`<`, `>`, `&` and 0xE2. -/
theorem round_trip (m b : Str) (hm : Valid m = true) (hb : Gram .value 1 b []) :
    MarshalEnvelope ⟨m, b⟩
      = .ok (lit "\x7b\"method\":" ++ appendString [] m ++ lit ",\"body\":" ++ compactText b
          ++ lit "\x7d") ∧
    OpenEnvelope ⟨lit "\x7b\"method\":" ++ appendString [] m ++ lit ",\"body\":" ++ compactText b
          ++ lit "\x7d", none⟩
      = some (some ⟨m, compactText b⟩, none) ∧
    JsonText (compactText b) ∧
    (∃ x, Denotes .value b x) ∧
    (∀ x, Denotes .value b x → Denotes .value (compactText b) x) ∧
    ((∀ c ∈ b, kept c ∧ isSpace c = false) → compactText b = b) := by
  have hc := compact_value hb
  refine ⟨MarshalEnvelope_ok m b hb, ?_, Gram_JsonText hc, Gram_Denotes hb,
    fun x hx => compact_same_value hx, compactText_id b⟩
  have hp := parseDocument_complete IsWs_nil IsWs_nil (TopShape_envelope m (compactText b) hc)
  rw [List.nil_append, List.append_nil] at hp
  rw [OpenEnvelope_decoded hp (decodeTop_envelope m (compactText b) hm)]

/-- The envelope with method `GET` and body `{"id":1234}` round trips, and so does
the one with method `DELETE` and a body with interior space, up to that space:
the Body returned still stands for the object with the member `id` set to 1234. -/
theorem round_trip_witness :
    (MarshalEnvelope ⟨lit "GET", lit "\x7b\"id\":1234\x7d"⟩
        = .ok (lit "\x7b\"method\":\"GET\",\"body\":\x7b\"id\":1234\x7d\x7d") ∧
      OpenEnvelope ⟨lit "\x7b\"method\":\"GET\",\"body\":\x7b\"id\":1234\x7d\x7d", none⟩
        = some (some ⟨lit "GET", lit "\x7b\"id\":1234\x7d"⟩, none)) ∧
    (MarshalEnvelope ⟨lit "DELETE", lit "\x7b \"id\" : 1234 \x7d"⟩
        = .ok (lit "\x7b\"method\":\"DELETE\",\"body\":\x7b\"id\":1234\x7d\x7d") ∧
      OpenEnvelope ⟨lit "\x7b\"method\":\"DELETE\",\"body\":\x7b\"id\":1234\x7d\x7d", none⟩
        = some (some ⟨lit "DELETE", lit "\x7b\"id\":1234\x7d"⟩, none) ∧
      Denotes .value (lit "\x7b\"id\":1234\x7d") (.object [(lit "id", .number (lit "1234"))])) :=
  have h1 := round_trip (lit "GET") (lit "\x7b\"id\":1234\x7d") (by decide)
    (Gram_of_scan 20 (by decide))
  have h2 := round_trip (lit "DELETE") (lit "\x7b \"id\" : 1234 \x7d") (by decide)
    (Gram_of_scan 20 (by decide))
  have hn : IsNumber (lit "1234") :=
    ⟨[], lit "1234", [], [], by decide, .inl rfl,
      .inr ⟨0x31, lit "234", by decide, by decide, by decide, by
        intro c hc; simp [lit] at hc; omega⟩, .inl rfl, .inl rfl⟩
  have hd : Denotes .value (lit "\x7b \"id\" : 1234 \x7d")
      (.object [(lit "id", .number (lit "1234"))]) :=
    Denotes.object (by decide : IsWs [0x20])
      (Denotes.lastMember (StrBody_of_scan (by decide : scanString .inString (lit "id\"") = .ok []))
        (by decide : unquoteBytes (0x22 :: lit "id\"") = some (lit "id"))
        (by decide : IsWs [0x20]) (by decide : IsWs [0x20]) (by decide : IsWs [0x20])
        (Denotes.number hn))
  ⟨⟨h1.1, h1.2.1⟩, ⟨h2.1, h2.2.1, h2.2.2.2.2.1 _ hd⟩⟩

end ApiEnvelope
